import Mathlib

/-!
Source-based snapshot testing.  A shallow embedding of the Go packages `snap`
(src/snap.go) and `snapsource` (src/snapsource.go), followed by theorems about
the registry, the comparator, the formatter and the source rewrite engine.

Go strings and byte slices are lists of bytes.  The Go standard library
functions the packages call are embedded next to them: the ones whose
behaviour the theorems depend on (`utf8.DecodeRune`, `utf8.DecodeLastRune`,
`utf8.AppendRune`, `strconv.CanBackquote`, `strconv.Quote`, `strconv.Unquote`,
`strings.TrimSpace`, the single-byte uses of `strings.ReplaceAll`,
`strings.Split`, `strings.Repeat`) are written out after their Go sources.  The
functions `format` take the quoting function as a parameter, which the
theorems about the quoted form instantiate with `strconv.Quote`; the tables of
`strconv.IsPrint` and the token stream produced by `go/scanner` are
parameters.
-/

/-- A byte of a Go string or byte slice. -/
abbrev Byte := Fin 256

/-- A Go string or byte slice. -/
abbrev Bytes := List Byte

/-- The bytes of an ASCII text, used to write down concrete sources. -/
def ascii (s : String) : Bytes := s.toList.map (fun c => Fin.ofNat c.toNat)

namespace utf8

/-- The rune U+FFFD returned for invalid encodings. -/
def RuneError : Nat := 0xFFFD

/-- The bound below which a byte is a rune of its own. -/
def RuneSelf : Nat := 0x80

/-- The maximum number of bytes of an encoded rune. -/
def UTFMax : Nat := 4

/-- The table `first` of utf8.go: information about the first byte of an
encoding.  0xF0 is ASCII, 0xF1 is invalid, otherwise the low three bits are the
size and the high four bits index `acceptRanges`. -/
def first (b : Byte) : Nat :=
  if b.val < 0x80 then 0xF0
  else if b.val < 0xC2 then 0xF1
  else if b.val < 0xE0 then 0x02
  else if b.val = 0xE0 then 0x13
  else if b.val < 0xED then 0x03
  else if b.val = 0xED then 0x23
  else if b.val < 0xF0 then 0x03
  else if b.val = 0xF0 then 0x34
  else if b.val < 0xF4 then 0x04
  else if b.val = 0xF4 then 0x44
  else 0xF1

/-- The table `acceptRanges` of utf8.go: the range allowed for the second byte. -/
def acceptRanges (i : Nat) : Nat × Nat :=
  match i with
  | 0 => (0x80, 0xBF)
  | 1 => (0xA0, 0xBF)
  | 2 => (0x80, 0x9F)
  | 3 => (0x90, 0xBF)
  | 4 => (0x80, 0x8F)
  | _ => (0, 0)

/-- The function `utf8.DecodeRune` (and `DecodeRuneInString`): the first rune of
`p` and its width in bytes; `(RuneError, 0)` on empty input and
`(RuneError, 1)` on an invalid encoding. -/
def DecodeRune (p : Bytes) : Nat × Nat :=
  match p with
  | [] => (RuneError, 0)
  | p0 :: rest =>
    let x := first p0
    if x ≥ 0xF0 then
      (if x % 2 = 1 then RuneError else p0.val, 1)
    else
      let sz := x % 8
      let accept := acceptRanges (x / 16)
      if p.length < sz then (RuneError, 1)
      else
        match rest with
        | [] => (RuneError, 1)
        | b1 :: rest1 =>
          if b1.val < accept.1 ∨ accept.2 < b1.val then (RuneError, 1)
          else if sz ≤ 2 then ((p0.val % 32) * 64 + b1.val % 64, 2)
          else
            match rest1 with
            | [] => (RuneError, 1)
            | b2 :: rest2 =>
              if b2.val < 0x80 ∨ 0xBF < b2.val then (RuneError, 1)
              else if sz ≤ 3 then
                ((p0.val % 16) * 4096 + (b1.val % 64) * 64 + b2.val % 64, 3)
              else
                match rest2 with
                | [] => (RuneError, 1)
                | b3 :: _ =>
                  if b3.val < 0x80 ∨ 0xBF < b3.val then (RuneError, 1)
                  else
                    ((p0.val % 8) * 262144 + (b1.val % 64) * 4096
                      + (b2.val % 64) * 64 + b3.val % 64, 4)

/-- The function `utf8.RuneStart`: the byte is not a continuation byte. -/
def RuneStart (b : Byte) : Bool := b.val / 64 != 2

/-- The backward search of `DecodeLastRune` for the start of the last rune:
`start` counts down while it is at least `lim` and stops at a rune start; the
result is the value of `start` when the loop ends, which is -1 when the loop
runs below index 0. -/
def findStart (p : Bytes) (lim : Nat) : Nat → Int
  | 0 => if 0 < lim then 0 else (if (p.get? 0).any RuneStart then 0 else -1)
  | start + 1 =>
    if start + 1 < lim then ((start + 1 : Nat) : Int)
    else if (p.get? (start + 1)).any RuneStart then ((start + 1 : Nat) : Int)
    else findStart p lim start

/-- The function `utf8.DecodeLastRune`: the last rune of `p` and its width. -/
def DecodeLastRune (p : Bytes) : Nat × Nat :=
  let n := p.length
  if n = 0 then (RuneError, 0)
  else
    let r := ((p.get? (n - 1)).map (fun b => b.val)).getD 0
    if r < RuneSelf then (r, 1)
    else
      let lim := n - UTFMax
      let start0 : Int := if n < 2 then -1 else findStart p lim (n - 2)
      let start := start0.toNat
      let (r1, size) := DecodeRune ((p.take n).drop start)
      if start + size ≠ n then (RuneError, 1) else (r1, size)

end utf8

namespace strings

/-- The call `strings.ReplaceAll(s, old, new)` for a one-byte `old`. -/
def ReplaceAll (s : Bytes) (old : Byte) (new : Bytes) : Bytes :=
  s.flatMap (fun b => if b = old then new else [b])

/-- The call `strings.Split(s, sep)` for a one-byte `sep`: the pieces between
the separators, always at least one piece. -/
def Split (s : Bytes) (sep : Byte) : List Bytes :=
  match s with
  | [] => [[]]
  | b :: rest =>
    if b = sep then [] :: Split rest sep
    else
      match Split rest sep with
      | [] => [[b]]
      | l :: ls => (b :: l) :: ls

/-- The call `strings.Repeat(s, count)` for a one-byte `s` and `count ≥ 0`. -/
def Repeat (b : Byte) (count : Nat) : Bytes := List.replicate count b

/-- The function `strings.Join`. -/
def Join (elems : List Bytes) (sep : Bytes) : Bytes :=
  match elems with
  | [] => []
  | [e] => e
  | e :: es => e ++ sep ++ Join es sep

end strings

namespace strconv

/-- The function `strconv.CanBackquote`: the string can be represented
unchanged as a single-line backquoted string without control characters other
than tab.  The fuel is the length of the string; every step consumes at least
one byte. -/
def canBackquoteFuel : Nat → Bytes → Bool
  | 0, s => s.isEmpty
  | fuel + 1, s =>
    if s.isEmpty then true
    else
      let (r, wid) := utf8.DecodeRune s
      let s1 := s.drop wid
      if wid > 1 then
        if r = 0xFEFF then false else canBackquoteFuel fuel s1
      else if r = utf8.RuneError then false
      else if (r < 0x20 ∧ r ≠ 0x09) ∨ r = 0x60 ∨ r = 0x7F then false
      else canBackquoteFuel fuel s1

/-- The function `strconv.CanBackquote`. -/
def CanBackquote (s : Bytes) : Bool := canBackquoteFuel s.length s

/-- The index of the first occurrence of a byte (`strings.IndexByte`), `none`
for Go's -1. -/
def IndexByte (s : Bytes) (c : Byte) : Option Nat :=
  match s with
  | [] => none
  | b :: rest => if b = c then some 0 else (IndexByte rest c).map (· + 1)

/-- The raw-literal branch of `strconv.Unquote`: the input must be at least two
bytes, start with a backquote and have its next backquote as its last byte; the
value is the text between the quotes with carriage returns discarded. -/
def UnquoteRaw (lit : Bytes) : Option Bytes :=
  match lit with
  | [] => none
  | q :: rest =>
    if q ≠ 0x60 then none
    else
      match IndexByte rest 0x60 with
      | none => none
      | some i =>
        if i + 1 ≠ rest.length then none
        else some ((rest.take i).filter (fun b => b ≠ 0x0D))

end strconv

namespace os

/-- The file system as `os.ReadFile` and `os.WriteFile` see it: the content of
each file that can be read, and whether a file can be written. -/
structure FileSystem where
  read : String → Option Bytes
  canWrite : String → Bool

/-- The call `os.WriteFile(file, data, 0644)`; `none` is an error. -/
def FileSystem.write (fs : FileSystem) (file : String) (data : Bytes) : Option FileSystem :=
  if fs.canWrite file then
    some { fs with read := fun f => if f = file then some data else fs.read f }
  else none

end os

namespace token

/-- The token kinds of go/token that the packages distinguish; every other
kind is `other` with its numeric code.  The zero value is `ILLEGAL`. -/
inductive Token
  | ILLEGAL
  | EOF
  | COMMENT
  | IDENT
  | STRING
  | LPAREN
  | RPAREN
  | PERIOD
  | other (code : Nat)
  deriving DecidableEq, Repr

end token

namespace snap

/-- The loop of `format` that writes the lines joined by a newline and the
indentation prefix into the builder. -/
def writeLines (pfx : Bytes) (lines : List Bytes) (builder : Bytes) : Bytes :=
  lines.enum.foldl
    (fun b il => (if il.1 > 0 then b ++ [0x0A] ++ pfx else b) ++ il.2) builder

/-- The function `format` of snap.go: a raw literal when the string without its
newlines can be backquoted (its continuation lines prefixed with `indent` tabs
when `indent > 0`), otherwise the quoted form. -/
def format (Quote : Bytes → Bytes) (s : Bytes) (indent : Int) : Bytes :=
  let replaced := strings.ReplaceAll s 0x0A []
  if strconv.CanBackquote replaced then
    if indent > 0 then
      let builder : Bytes := [0x60]
      let pfx := strings.Repeat 0x09 indent.toNat
      let lines := strings.Split s 0x0A
      let builder := writeLines pfx lines builder
      builder ++ [0x60]
    else [0x60] ++ s ++ [0x60]
  else Quote s



/-- The struct `location` of snap.go. -/
structure location where
  file : String
  line : Nat
  deriving DecidableEq, Repr

/-- The struct `Snapshot` of snap.go. -/
structure Snapshot where
  location : location
  expected : Bytes
  hasActual : Bool
  actual : Bytes
  indentOk : Bool
  updated : Bool
  calledMultiple : Bool
  deriving DecidableEq, Repr

/-- The struct `shots` of snap.go: the map `byLocation` as an association list
(the mutex is left out).  A `*Snapshot` stored in the map is identified with the
entry that holds it. -/
structure shots where
  byLocation : List (location × Snapshot)
  deriving DecidableEq, Repr

/-- The map read `byLocation[l]`. -/
def mapGet (m : List (location × Snapshot)) (l : location) : Option Snapshot :=
  match m with
  | [] => none
  | e :: rest => if e.1 = l then some e.2 else mapGet rest l

/-- The map write `byLocation[l] = v`: overwrites the entry of `l` or adds one. -/
def mapSet (m : List (location × Snapshot)) (l : location) (v : Snapshot) :
    List (location × Snapshot) :=
  match m with
  | [] => [(l, v)]
  | e :: rest => if e.1 = l then (l, v) :: rest else e :: mapSet rest l v

/-- The variable `globalShots` at process start. -/
def globalShots : shots := { byLocation := [] }

/-- The struct `tok` of snap.go. -/
structure tok where
  token : token.Token
  literal : Bytes
  line : Nat
  offset : Nat
  deriving DecidableEq, Repr

/-- The errors `updateFile` and `update` return, and the run-time panic of a
slice expression out of range. -/
inductive UpdateError
  | read (file : String)
  | parse (msg : String)
  | unexpectedEOF
  | write (file : String)
  | lost (loc : location)
  | outOfRange
  deriving DecidableEq, Repr

/-- The result of running go/scanner over a file through `nextToken`: the
tokens returned before the first parse error or the end of the file (so none
of them is EOF), and the message of that parse error (`none` when the scanner
reaches EOF). -/
structure Scanned where
  toks : List tok
  err : Option String
  deriving DecidableEq, Repr

/-- The array `match` of `updateFile`: the tokens of `snap.Source(`. -/
def matchToks : List tok :=
  [ { token := token.Token.IDENT, literal := ascii "snap", line := 0, offset := 0 },
    { token := token.Token.PERIOD, literal := [], line := 0, offset := 0 },
    { token := token.Token.IDENT, literal := ascii "Source", line := 0, offset := 0 },
    { token := token.Token.LPAREN, literal := [], line := 0, offset := 0 } ]

/-- The zero value of the array `recent`. -/
def recentZero : List tok :=
  List.replicate 4 { token := token.Token.ILLEGAL, literal := [], line := 0, offset := 0 }

/-- The slice expression `source[lo:hi]`; `none` is the run-time panic.  The
bound is the length of `source` (its capacity is not modelled); offsets of
tokens scanned from `source` lie within it. -/
def slice (source : Bytes) (lo hi : Nat) : Option Bytes :=
  if lo ≤ hi ∧ hi ≤ source.length then some ((source.take hi).drop lo) else none

/-- The backward scan of `updateFile` to the start of the line: `offset` moves
back by the width of the last rune before it until that rune is a newline or
`offset` is 0.  The fuel bounds the iterations; `offset` itself is enough. -/
def lineStart (source : Bytes) : Nat → Nat → Nat
  | 0, offset => offset
  | fuel + 1, offset =>
    if offset > 0 then
      let (r, n) := utf8.DecodeLastRune (source.take offset)
      if r = 0x0A then offset else lineStart source fuel (offset - n)
    else offset

/-- The indentation `updateFile` computes for a call whose opening parenthesis
is at `offset`. -/
def indentOf (source : Bytes) (shot : Snapshot) (offset : Nat) : Int :=
  let indent : Int := 0
  if shot.indentOk then
    let offset := lineStart source offset offset
    if offset + indent.toNat < source.length ∧
        source.get? (offset + indent.toNat) = some 0x09 then indent + 1
    else indent
  else indent

/-- The processing state of `updateFile`. -/
structure State where
  shots : shots
  out : Bytes
  prevOffset : Nat
  recent : List tok
  deriving DecidableEq, Repr

/-- The end of `updateFile` after the scan loop: the trailing bytes are copied. -/
def finish (source : Bytes) (st : State) : shots × Except UpdateError Bytes :=
  match slice source st.prevOffset source.length with
  | none => (st.shots, .error .outOfRange)
  | some rest => (st.shots, .ok (st.out ++ rest))

/-- The two loops of `updateFile` over the tokens that `nextToken` returns.
With `depth = 0` the outer loop looks for `snap.Source(`; with `depth > 0` the
inner loop consumes the tokens inside the parentheses of a call being
rewritten.  The result is the registry and the output buffer or the error. -/
def scanLoop (Quote : Bytes → Bytes) (file : String) (source : Bytes)
    (err : Option String) : Nat → State → List tok → shots × Except UpdateError Bytes
  | 0, st, [] =>
    match err with
    | some msg => (st.shots, .error (.parse msg))
    | none => finish source st
  | 0, st, next :: rest =>
    if next.token = token.Token.EOF then finish source st
    else
      let recent := st.recent.drop 1 ++
        [{ token := next.token, literal := next.literal, line := 0, offset := 0 }]
      if recent ≠ matchToks then
        scanLoop Quote file source err 0 { st with recent := recent } rest
      else
        let line := next.line
        match mapGet st.shots.byLocation { file := file, line := line } with
        | none => scanLoop Quote file source err 0 { st with recent := recent } rest
        | some shot =>
          if !shot.hasActual || shot.calledMultiple then
            scanLoop Quote file source err 0 { st with recent := recent } rest
          else
            let shots1 : shots :=
              { byLocation := mapSet st.shots.byLocation { file := file, line := line }
                  { shot with updated := true } }
            let indent := indentOf source shot next.offset
            let formatted := format Quote shot.actual indent
            match slice source st.prevOffset next.offset with
            | none => (shots1, .error .outOfRange)
            | some chunk =>
              let out := st.out ++ chunk ++ [0x28] ++ formatted ++ [0x29]
              scanLoop Quote file source err 1
                { shots := shots1, out := out, prevOffset := st.prevOffset,
                  recent := recent } rest
  | _ + 1, st, [] =>
    match err with
    | some msg => (st.shots, .error (.parse msg))
    | none => (st.shots, .error .unexpectedEOF)
  | depth + 1, st, next :: rest =>
    if next.token = token.Token.EOF then (st.shots, .error .unexpectedEOF)
    else
      let depth1 :=
        match next.token with
        | token.Token.LPAREN => depth + 2
        | token.Token.RPAREN => depth
        | _ => depth + 1
      if depth1 = 0 then
        scanLoop Quote file source err 0 { st with prevOffset := next.offset + 1 } rest
      else scanLoop Quote file source err depth1 st rest

end snap

namespace unicode

/-- The function `unicode.IsSpace`: the Latin-1 spaces and the White_Space
ranges of the Unicode tables above Latin-1. -/
def IsSpace (r : Nat) : Bool :=
  if r ≤ 0xFF then
    r = 0x09 ∨ r = 0x0A ∨ r = 0x0B ∨ r = 0x0C ∨ r = 0x0D ∨ r = 0x20 ∨ r = 0x85 ∨ r = 0xA0
  else
    r = 0x1680 ∨ (0x2000 ≤ r ∧ r ≤ 0x200A) ∨ r = 0x2028 ∨ r = 0x2029 ∨ r = 0x202F
      ∨ r = 0x205F ∨ r = 0x3000

end unicode

namespace strings

/-- The table `asciiSpace` of strings.go. -/
def asciiSpace (c : Byte) : Bool :=
  c = 0x09 ∨ c = 0x0A ∨ c = 0x0B ∨ c = 0x0C ∨ c = 0x0D ∨ c = 0x20

/-- The function `strings.TrimLeftFunc`: the suffix of `s` from its first rune
that does not satisfy `f`.  The fuel is the length of `s`. -/
def trimLeftFuel (f : Nat → Bool) : Nat → Bytes → Bytes
  | 0, _ => []
  | fuel + 1, s =>
    if s.isEmpty then []
    else
      let (r, wid) := utf8.DecodeRune s
      if f r = false then s else trimLeftFuel f fuel (s.drop wid)

/-- The function `strings.TrimLeftFunc`. -/
def TrimLeftFunc (s : Bytes) (f : Nat → Bool) : Bytes := trimLeftFuel f s.length s

/-- The function `lastIndexFunc` of strings.go with `truth = false`: the index
of the last rune that does not satisfy `f`, -1 when there is none. -/
def lastIndexFuel (f : Nat → Bool) (s : Bytes) : Nat → Nat → Int
  | 0, _ => -1
  | fuel + 1, i =>
    if i > 0 then
      let (r, size) := utf8.DecodeLastRune (s.take i)
      let i1 := i - size
      if f r = false then (i1 : Int) else lastIndexFuel f s fuel i1
    else -1

/-- The function `strings.TrimRightFunc`. -/
def TrimRightFunc (s : Bytes) (f : Nat → Bool) : Bytes :=
  let i := lastIndexFuel f s s.length s.length
  let i1 : Int :=
    if i ≥ 0 ∧ ((s.get? i.toNat).map (fun b => b.val)).getD 0 ≥ utf8.RuneSelf then
      i + ((utf8.DecodeRune (s.drop i.toNat)).2 : Int)
    else i + 1
  s.take i1.toNat

/-- The function `strings.TrimFunc`. -/
def TrimFunc (s : Bytes) (f : Nat → Bool) : Bytes := TrimRightFunc (TrimLeftFunc s f) f

/-- The first loop of `strings.TrimSpace`: `inr` is `s[start:]` at the first
ASCII non-space byte (or the end), `inl` is `s[start:]` at a non-ASCII byte. -/
def trimSpaceStart : Bytes → Bytes ⊕ Bytes
  | [] => .inr []
  | c :: rest =>
    if c.val ≥ utf8.RuneSelf then .inl (c :: rest)
    else if asciiSpace c = false then .inr (c :: rest)
    else trimSpaceStart rest

/-- The second loop of `strings.TrimSpace` on `s[start:]`: `inr` is `stop` at
the last ASCII non-space byte, `inl` is `stop` at a non-ASCII byte. -/
def trimSpaceStop (s : Bytes) : Nat → Nat ⊕ Nat
  | 0 => .inr 0
  | stop + 1 =>
    match s.get? stop with
    | none => .inr (stop + 1)
    | some c =>
      if c.val ≥ utf8.RuneSelf then .inl (stop + 1)
      else if asciiSpace c = false then .inr (stop + 1)
      else trimSpaceStop s stop

/-- The function `strings.TrimSpace`. -/
def TrimSpace (s : Bytes) : Bytes :=
  match trimSpaceStart s with
  | .inl rest => TrimFunc rest unicode.IsSpace
  | .inr rest =>
    match trimSpaceStop rest rest.length with
    | .inl stop => TrimRightFunc (rest.take stop) unicode.IsSpace
    | .inr stop => rest.take stop

end strings

namespace snap

/-- The method `updateFile` of snap.go.  `Scan file source` is the run of
go/scanner over the content of the file.  The result is the registry, the file
system and the error returned (`none` for nil). -/
def updateFile (Quote : Bytes → Bytes) (Scan : String → Bytes → Scanned)
    (s : shots) (fs : os.FileSystem) (file : String) :
    shots × os.FileSystem × Option UpdateError :=
  match fs.read file with
  | none => (s, fs, some (.read file))
  | some source =>
    let sc := Scan file source
    match scanLoop Quote file source sc.err 0
        { shots := s, out := [], prevOffset := 0, recent := recentZero } sc.toks with
    | (s1, .error e) => (s1, fs, some e)
    | (s1, .ok out) =>
      if out ≠ source then
        match fs.write file out with
        | none => (s1, fs, some (.write file))
        | some fs1 => (s1, fs1, none)
      else (s1, fs, none)

/-- The loop of `update` over the files, stopping at the first error. -/
def updateFiles (Quote : Bytes → Bytes) (Scan : String → Bytes → Scanned) :
    List String → shots → os.FileSystem → shots × os.FileSystem × Option UpdateError
  | [], s, fs => (s, fs, none)
  | file :: rest, s, fs =>
    match updateFile Quote Scan s fs file with
    | (s1, fs1, some e) => (s1, fs1, some e)
    | (s1, fs1, none) => updateFiles Quote Scan rest s1 fs1

/-- The method `update` of snap.go.  Go iterates over its maps in an unspecified
order; here every file is visited once, in the order of the last record of each
file, and the sweep reports the first record that was not updated. -/
def update (Quote : Bytes → Bytes) (Scan : String → Bytes → Scanned)
    (s : shots) (fs : os.FileSystem) : shots × os.FileSystem × Option UpdateError :=
  let files := (s.byLocation.map (fun e => e.2.location.file)).dedup
  match updateFiles Quote Scan files s fs with
  | (s1, fs1, some e) => (s1, fs1, some e)
  | (s1, fs1, none) =>
    match s1.byLocation.find? (fun e => e.2.hasActual && !e.2.updated) with
    | some e => (s1, fs1, some (.lost e.2.location))
    | none => (s1, fs1, none)

/-- The method `register` of snap.go: the registry after the call and whether
the call ended the process with `os.Exit(1)`. -/
def register (s : shots) (shot : Snapshot) : shots × Bool :=
  match mapGet s.byLocation shot.location with
  | some _ => (s, true)
  | none => ({ byLocation := mapSet s.byLocation shot.location shot }, false)

/-- The function `Source` of snap.go; `file` and `line` are what
`runtime.Caller(1)` reports. -/
def Source (s : shots) (file : String) (line : Nat) (input : Bytes) :
    Snapshot × shots × Bool :=
  let shot : Snapshot :=
    { location := { file := file, line := line }, expected := input,
      hasActual := false, actual := [], indentOk := false, updated := false,
      calledMultiple := false }
  (shot, register s shot)

/-- The function `trimLines` of snap.go. -/
def trimLines (a : Bytes) : Bytes :=
  let lines := strings.Split a 0x0A
  let lines := lines.map strings.TrimSpace
  strings.Join lines []

/-- The failures a Check function reports through `t.Errorf`. -/
inductive Failure
  | different (expected actual : Bytes)
  | invokedMoreThanOnce
  | marshal
  deriving DecidableEq, Repr

/-- The function `CheckString` of snap.go: the failures reported, in order, and
the record after the call.  `updateSnapshots` is the package variable. -/
def CheckString (updateSnapshots : Bool) (actual : Bytes) (expected : Snapshot) :
    List Failure × Snapshot :=
  let fails1 : List Failure :=
    if !updateSnapshots then
      let ok : Bool :=
        if !expected.indentOk then expected.expected = actual
        else trimLines expected.expected = trimLines actual
      if !ok then [Failure.different expected.expected actual] else []
    else []
  let (fails2, expected1) : List Failure × Snapshot :=
    if expected.hasActual then
      ([Failure.invokedMoreThanOnce], { expected with calledMultiple := true })
    else ([], expected)
  (fails1 ++ fails2, { expected1 with hasActual := true, actual := actual })

/-- The function `CheckJSON` of snap.go; `b` and `marshalErr` are the result of
`json.MarshalIndent`. -/
def CheckJSON (updateSnapshots : Bool) (b : Bytes) (marshalErr : Bool)
    (expected : Snapshot) : List Failure × Snapshot :=
  let fails0 : List Failure := if marshalErr then [Failure.marshal] else []
  let expected1 := { expected with indentOk := true }
  let (fails, expected2) := CheckString updateSnapshots b expected1
  (fails0 ++ fails, expected2)

/-- A call of `CheckString` on the `*Snapshot` that the registry holds at `l`:
the record is changed in place, so the registry sees the new fields. -/
def CheckStringAt (updateSnapshots : Bool) (s : shots) (actual : Bytes) (l : location) :
    List Failure × shots :=
  match mapGet s.byLocation l with
  | none => ([], s)
  | some shot =>
    let (fails, shot1) := CheckString updateSnapshots actual shot
    (fails, { byLocation := mapSet s.byLocation l shot1 })

end snap

namespace snapsource

/-- The struct `location` of snapsource.go. -/
structure location where
  file : String
  line : Nat
  deriving DecidableEq, Repr

/-- The struct `Snapshot` of snapsource.go. -/
structure Snapshot where
  location : location
  expected : Bytes
  hasActual : Bool
  actual : Bytes
  rewritten : Bool
  deriving DecidableEq, Repr

/-- The struct `shots` of snapsource.go: the map `byLocation` as an
association list. -/
structure shots where
  byLocation : List (location × Snapshot)
  deriving DecidableEq, Repr

/-- The map read `byLocation[l]`. -/
def mapGet (m : List (location × Snapshot)) (l : location) : Option Snapshot :=
  match m with
  | [] => none
  | e :: rest => if e.1 = l then some e.2 else mapGet rest l

/-- The map write `byLocation[l] = v`. -/
def mapSet (m : List (location × Snapshot)) (l : location) (v : Snapshot) :
    List (location × Snapshot) :=
  match m with
  | [] => [(l, v)]
  | e :: rest => if e.1 = l then (l, v) :: rest else e :: mapSet rest l v

/-- The function `format` of snapsource.go. -/
def format (Quote : Bytes → Bytes) (s : Bytes) : Bytes :=
  let replaced := strings.ReplaceAll s 0x0A []
  if strconv.CanBackquote replaced then [0x60] ++ s ++ [0x60]
  else Quote s

/-- A result of `sc.Scan()`: the token, its literal, and the line and the
offset of its position. -/
structure Item where
  tok : token.Token
  lit : Bytes
  line : Nat
  offset : Nat
  deriving DecidableEq, Repr

/-- The errors `rewrite` returns, and the run-time panic of a slice expression
out of range. -/
inductive RewriteError
  | read (file : String)
  | parse (msg : String)
  | write (file : String)
  | lost (loc : location)
  | outOfRange
  deriving DecidableEq, Repr

/-- The map read `byLine[line]` for the file `path`: the record of the registry
whose location is that file and line (`register` stores every record under its
own location, so there is at most one). -/
def byLineGet (m : List (location × Snapshot)) (path : String) (line : Nat) :
    Option Snapshot :=
  (m.find? (fun e => e.2.location = { file := path, line := line })).map (fun e => e.2)

/-- The assignment `shot.rewritten = true` on the record `byLine[line]`. -/
def markRewritten (m : List (location × Snapshot)) (path : String) (line : Nat) :
    List (location × Snapshot) :=
  match m with
  | [] => []
  | e :: rest =>
    if e.2.location = { file := path, line := line } then
      (e.1, { e.2 with rewritten := true }) :: rest
    else e :: markRewritten rest path line

/-- The slice expression `source[lo:hi]`; `none` is the run-time panic.  The
bound is the length of `source` (its capacity is not modelled); offsets of
tokens scanned from `source` lie within it. -/
def slice (source : Bytes) (lo hi : Nat) : Option Bytes :=
  if lo ≤ hi ∧ hi ≤ source.length then some ((source.take hi).drop lo) else none

/-- The processing state of the scan loop of `rewrite`. -/
structure State where
  shots : shots
  out : Bytes
  step : Nat
  prevEndOffset : Nat
  deriving DecidableEq, Repr

/-- The switch of the scan loop of `rewrite`: whether the token completes
`snapsource.S(` followed by a string literal, and the value of `step` after
the token. -/
def matchStep (step : Nat) (it : Item) : Bool × Nat :=
  if it.tok = token.Token.IDENT ∧ it.lit = ascii "snapsource" then (false, 1)
  else if step = 1 ∧ it.tok = token.Token.PERIOD then (false, 2)
  else if step = 2 ∧ it.tok = token.Token.IDENT ∧ it.lit = ascii "S" then (false, 3)
  else if step = 3 ∧ it.tok = token.Token.LPAREN then (false, 4)
  else if step = 4 ∧ it.tok = token.Token.STRING then (true, 0)
  else (false, 0)

/-- The literal that the scan loop of `rewrite` writes for a token, and the
registry after it: at a match whose line has a record with an actual value the
literal is the formatted actual value and the record is marked `rewritten`. -/
def literalFor (Quote : Bytes → Bytes) (path : String) (s : shots) (it : Item)
    (matched : Bool) : Bytes × shots :=
  if matched then
    match byLineGet s.byLocation path it.line with
    | some shot =>
      if shot.hasActual then
        (format Quote shot.actual, { byLocation := markRewritten s.byLocation path it.line })
      else (it.lit, s)
    | none => (it.lit, s)
  else (it.lit, s)

/-- The scan loop of `rewrite` over the results of `sc.Scan()` for one file.
`tokString` is `token.Token.String`. -/
def scanLoop (Quote : Bytes → Bytes) (tokString : token.Token → Bytes) (path : String)
    (source : Bytes) (err : Option String) :
    State → List Item → shots × Except RewriteError Bytes
  | st, [] =>
    match err with
    | some msg => (st.shots, .error (.parse msg))
    | none => (st.shots, .ok st.out)
  | st, it :: rest =>
    if it.tok = token.Token.EOF then (st.shots, .ok st.out)
    else
      let startOffset := it.offset
      let endOffset :=
        if it.lit = [] then startOffset + (tokString it.tok).length
        else startOffset + it.lit.length
      let ms := matchStep st.step it
      let ls := literalFor Quote path st.shots it ms.1
      match slice source st.prevEndOffset startOffset with
      | none => (ls.2, .error .outOfRange)
      | some chunk =>
        let out := st.out ++ chunk ++ (if ls.1 ≠ [] then ls.1 else tokString it.tok)
        scanLoop Quote tokString path source err
          { shots := ls.2, out := out, step := ms.2, prevEndOffset := endOffset } rest

/-- The body of the loop of `rewrite` for one file `path`: read, scan, check
that every record of the file with an actual value was rewritten, write. -/
def rewriteFile (Quote : Bytes → Bytes) (tokString : token.Token → Bytes)
    (Scan : String → Bytes → List Item × Option String)
    (s : shots) (fs : os.FileSystem) (path : String) :
    shots × os.FileSystem × Option RewriteError :=
  match fs.read path with
  | none => (s, fs, some (.read path))
  | some source =>
    let sc := Scan path source
    match scanLoop Quote tokString path source sc.2
        { shots := s, out := [], step := 0, prevEndOffset := 0 } sc.1 with
    | (s1, .error e) => (s1, fs, some e)
    | (s1, .ok out) =>
      match s1.byLocation.find?
          (fun e => e.2.location.file = path && e.2.hasActual && !e.2.rewritten) with
      | some e => (s1, fs, some (.lost e.2.location))
      | none =>
        if out ≠ source then
          match fs.write path out with
          | none => (s1, fs, some (.write path))
          | some fs1 => (s1, fs1, none)
        else (s1, fs, none)

/-- The loop of `rewrite` over the files, stopping at the first error. -/
def rewriteFiles (Quote : Bytes → Bytes) (tokString : token.Token → Bytes)
    (Scan : String → Bytes → List Item × Option String) :
    List String → shots → os.FileSystem → shots × os.FileSystem × Option RewriteError
  | [], s, fs => (s, fs, none)
  | path :: rest, s, fs =>
    match rewriteFile Quote tokString Scan s fs path with
    | (s1, fs1, some e) => (s1, fs1, some e)
    | (s1, fs1, none) => rewriteFiles Quote tokString Scan rest s1 fs1

/-- The method `rewrite` of snapsource.go.  Go iterates over `byFile` in an
unspecified order; here every file is visited once, in the order of the last
record of each file. -/
def rewrite (Quote : Bytes → Bytes) (tokString : token.Token → Bytes)
    (Scan : String → Bytes → List Item × Option String)
    (s : shots) (fs : os.FileSystem) : shots × os.FileSystem × Option RewriteError :=
  let files := (s.byLocation.map (fun e => e.2.location.file)).dedup
  rewriteFiles Quote tokString Scan files s fs

/-- The method `register` of snapsource.go: the registry after the call and
whether the call panicked. -/
def register (s : shots) (shot : Snapshot) : shots × Bool :=
  match mapGet s.byLocation shot.location with
  | some _ => (s, true)
  | none => ({ byLocation := mapSet s.byLocation shot.location shot }, false)

/-- The function `CheckString` of snapsource.go: whether each of the two
failures is reported, and the record after the call. -/
def CheckString (rewriteSnapsource : Bool) (actual : Bytes) (s : Snapshot) :
    Bool × Bool × Snapshot :=
  (!rewriteSnapsource && s.expected != actual, s.hasActual,
    { s with hasActual := true, actual := actual })

end snapsource


/-! ## Specification predicates -/

namespace snap

/-- The registry invariant: no location is the key of two entries, and every
entry is stored under the location of its record. -/
def shots.WF (s : shots) : Prop :=
  (s.byLocation.map Prod.fst).Nodup ∧ ∀ e ∈ s.byLocation, e.1 = e.2.location

end snap

namespace snapsource

/-- The registry invariant of snapsource: no location is the key of two
entries, and every entry is stored under the location of its record. -/
def shots.WF (s : shots) : Prop :=
  (s.byLocation.map Prod.fst).Nodup ∧ ∀ e ∈ s.byLocation, e.1 = e.2.location

end snapsource

namespace snap

/-- A token without its source information, as `updateFile` stores it in
`recent`. -/
def tokKey (t : tok) : tok :=
  { token := t.token, literal := t.literal, line := 0, offset := 0 }

/-- The token at an index of the token list. -/
def tokAt (toks : List tok) (i : Nat) : tok :=
  toks.getD i { token := token.Token.ILLEGAL, literal := [], line := 0, offset := 0 }

/-- The token sequence `snap.Source(` ends at the token of index `i`, which is
its opening parenthesis. -/
def isHead (toks : List tok) (i : Nat) : Prop :=
  matchToks <:+ (toks.take (i + 1)).map tokKey

/-- The token of index `i` is the opening parenthesis of a `snap.Source(` whose
line has a record with `hasActual` set and `calledMultiple` unset. -/
def isSite (s : shots) (file : String) (toks : List tok) (i : Nat) : Prop :=
  i < toks.length ∧ isHead toks i ∧
  ∃ shot, mapGet s.byLocation { file := file, line := (tokAt toks i).line } = some shot ∧
    shot.hasActual = true ∧ shot.calledMultiple = false

/-- The number of opening parentheses minus the number of closing parentheses
of a token sequence. -/
def balance (seg : List tok) : Int :=
  (seg.countP (fun t => t.token = token.Token.LPAREN) : Int)
    - (seg.countP (fun t => t.token = token.Token.RPAREN) : Int)

/-- The token sequence `seg`, read at nesting depth `d`, ends with the closing
parenthesis that brings the depth to 0, and the depth is positive before. -/
def closesAt (d : Nat) (seg : List tok) : Prop :=
  (d : Int) + balance seg = 0 ∧ ∀ p, p <+: seg → p ≠ seg → 0 < (d : Int) + balance p

/-- The token of index `j` is the closing parenthesis that matches the opening
parenthesis of index `i`. -/
def isClose (toks : List tok) (i j : Nat) : Prop :=
  i < j ∧ j < toks.length ∧ closesAt 1 ((toks.drop (i + 1)).take (j - i))

/-- The text that replaces the span of a rewritten call: the parentheses around
the formatted actual value of the record of the line of the opening
parenthesis, which is at index `i`; the span runs from the offset of that token
to the offset of the token of index `j`. -/
def spanOf (Quote : Bytes → Bytes) (file : String) (source : Bytes) (s : shots)
    (toks : List tok) (p : Nat × Nat) : Nat × Nat × Bytes :=
  let lp := tokAt toks p.1
  let rp := tokAt toks p.2
  match mapGet s.byLocation { file := file, line := lp.line } with
  | none => (lp.offset, rp.offset, [])
  | some shot =>
    (lp.offset, rp.offset,
      [0x28] ++ format Quote shot.actual (indentOf source shot lp.offset) ++ [0x29])

/-- The source with spans replaced: the bytes from `prev` to the start of the
first span, its replacement, and so on from the byte after the end of the span;
after the last span the rest of the source. -/
def splice (source : Bytes) : Nat → List (Nat × Nat × Bytes) → Bytes
  | prev, [] => source.drop prev
  | prev, sp :: rest =>
    (source.take sp.1).drop prev ++ sp.2.2 ++ splice source (sp.2.1 + 1) rest

/-- The spans lie inside the source, each starting at or after `prev`, which is
0 or the byte after the end of the span before. -/
def validSpans (source : Bytes) : Nat → List (Nat × Nat × Bytes) → Prop
  | prev, [] => prev ≤ source.length
  | prev, sp :: rest => prev ≤ sp.1 ∧ sp.1 ≤ source.length ∧ validSpans source (sp.2.1 + 1) rest

/-- The output is the source in which the span of every call site, from its
opening parenthesis through the matching closing parenthesis, is replaced. -/
def RewritesAllSites (Quote : Bytes → Bytes) (file : String) (source : Bytes) (s : shots)
    (toks : List tok) (out : Bytes) : Prop :=
  ∃ sites : List (Nat × Nat),
    out = splice source 0 (sites.map (spanOf Quote file source s toks)) ∧
    validSpans source 0 (sites.map (spanOf Quote file source s toks)) ∧
    (∀ p ∈ sites, isSite s file toks p.1 ∧ isClose toks p.1 p.2) ∧
    sites.Pairwise (fun p q => p.2 < q.1) ∧
    ∀ i, isSite s file toks i → ∃ p ∈ sites, p.1 = i

/-- The output is the source in which the span of every call site that is not
inside the parentheses of a rewritten call, from its opening parenthesis
through the matching closing parenthesis, is replaced. -/
def RewritesOuterSites (Quote : Bytes → Bytes) (file : String) (source : Bytes) (s : shots)
    (toks : List tok) (out : Bytes) : Prop :=
  ∃ sites : List (Nat × Nat),
    out = splice source 0 (sites.map (spanOf Quote file source s toks)) ∧
    validSpans source 0 (sites.map (spanOf Quote file source s toks)) ∧
    (∀ p ∈ sites, isSite s file toks p.1 ∧ isClose toks p.1 p.2) ∧
    sites.Pairwise (fun p q => p.2 < q.1) ∧
    ∀ i, isSite s file toks i → ∃ p ∈ sites, p.1 ≤ i ∧ i ≤ p.2

/-- The record without its `updated` flag. -/
def forget (shot : Snapshot) : Snapshot := { shot with updated := false }

/-- Two registries hold the same records at the same locations, up to the
`updated` flags. -/
def Agree (s s1 : shots) : Prop :=
  s1.byLocation.map Prod.fst = s.byLocation.map Prod.fst ∧
  ∀ l, (mapGet s1.byLocation l).map forget = (mapGet s.byLocation l).map forget

/-- The window invariant of the outer loop: how far the end of `recent` matches
the start of `snap.Source(` is how far the end of the tokens read does. -/
def WinInv (pre : List tok) (recent : List tok) : Prop :=
  recent.length = 4 ∧
  (recent.drop 3 = matchToks.take 1 ↔ matchToks.take 1 <:+ pre.map tokKey) ∧
  (recent.drop 2 = matchToks.take 2 ↔ matchToks.take 2 <:+ pre.map tokKey) ∧
  (recent.drop 1 = matchToks.take 3 ↔ matchToks.take 3 <:+ pre.map tokKey)

/-- What a run of `scanLoop` from the state `st` at nesting depth `depth` over
the tokens `ts`, which follow the tokens `pre` in `toks`, has done when it ends
with the output `out` and the registry `s1`: at a positive depth it first
consumed a segment up to the closing parenthesis of the call being rewritten;
then it replaced the spans of the call sites `sites`. -/
def Post (Quote : Bytes → Bytes) (file : String) (source : Bytes) (s0 : shots)
    (toks : List tok) (depth : Nat) (pre ts : List tok) (st : State) (s1 : shots)
    (out : Bytes) : Prop :=
  ∃ (seg rest : List tok) (sites : List (Nat × Nat)) (prev : Nat),
    ts = seg ++ rest ∧
    (depth = 0 → seg = [] ∧ prev = st.prevOffset) ∧
    (depth ≠ 0 → ∃ seg1 closer, seg = seg1 ++ [closer] ∧
      closer.token = token.Token.RPAREN ∧ prev = closer.offset + 1 ∧ closesAt depth seg) ∧
    out = st.out ++ splice source prev (sites.map (spanOf Quote file source s0 toks)) ∧
    validSpans source prev (sites.map (spanOf Quote file source s0 toks)) ∧
    (∀ p ∈ sites, pre.length + seg.length ≤ p.1 ∧ isSite s0 file toks p.1 ∧
      isClose toks p.1 p.2) ∧
    sites.Pairwise (fun p q => p.2 < q.1) ∧
    (∀ i, pre.length + seg.length ≤ i → isSite s0 file toks i →
      ∃ p ∈ sites, p.1 ≤ i ∧ i ≤ p.2) ∧
    Agree s0 s1 ∧
    (∀ l shot1, mapGet s1.byLocation l = some shot1 → shot1.updated = true →
      (∃ shot, mapGet st.shots.byLocation l = some shot ∧ shot.updated = true) ∨
      ∃ p ∈ sites, l = { file := file, line := (tokAt toks p.1).line }) ∧
    (∀ l shot, mapGet st.shots.byLocation l = some shot → shot.updated = true →
      ∃ shot1, mapGet s1.byLocation l = some shot1 ∧ shot1.updated = true) ∧
    (∀ p ∈ sites, ∃ shot1,
      mapGet s1.byLocation { file := file, line := (tokAt toks p.1).line } = some shot1 ∧
      shot1.updated = true)

end snap



/-! ## Concrete inputs

Sources with the tokens go/scanner returns for them (kind, literal, line,
offset), used to evaluate the code. -/

namespace token

/-- The token kind `token.SEMICOLON`. -/
def SEMICOLON : Token := Token.other 57

end token

namespace os

/-- A file system that holds one writable file. -/
def oneFile (file : String) (content : Bytes) : FileSystem :=
  { read := fun f => if f = file then some content else none, canWrite := fun _ => true }

end os

namespace snap

/-- A scanner result that does not depend on the file: the given tokens, then
EOF. -/
def scanned (toks : List tok) : String → Bytes → Scanned :=
  fun _ _ => { toks := toks, err := none }

/-- A record that was compared once with the given actual value. -/
def compared (file : String) (line : Nat) (expected actual : Bytes) (indentOk : Bool) :
    location × Snapshot :=
  ({ file := file, line := line },
    { location := { file := file, line := line }, expected := expected, hasActual := true,
      actual := actual, indentOk := indentOk, updated := false, calledMultiple := false })

/-- The call of the package documentation, on one line. -/
def docSource : Bytes := ascii "snap.Source(\"old\")\n"

/-- The tokens of `docSource`. -/
def docToks : List tok :=
  [ ⟨token.Token.IDENT, ascii "snap", 1, 0⟩, ⟨token.Token.PERIOD, [], 1, 4⟩,
    ⟨token.Token.IDENT, ascii "Source", 1, 5⟩, ⟨token.Token.LPAREN, [], 1, 11⟩,
    ⟨token.Token.STRING, ascii "\"old\"", 1, 12⟩, ⟨token.Token.RPAREN, [], 1, 17⟩,
    ⟨token.SEMICOLON, ascii "\n", 1, 18⟩ ]

/-- The registry after the test of the package documentation ran. -/
def docShots : shots :=
  { byLocation := [compared "x_test.go" 1 (ascii "old") (ascii "complicated value") false] }

/-- A call of `snap.Source` on line 2 inside the parentheses of a call of
`snap.Source` on line 1. -/
def nestedSource : Bytes := ascii "snap.Source(f(\nsnap.Source(\"x\")))\n"

/-- The tokens of `nestedSource`. -/
def nestedToks : List tok :=
  [ ⟨token.Token.IDENT, ascii "snap", 1, 0⟩, ⟨token.Token.PERIOD, [], 1, 4⟩,
    ⟨token.Token.IDENT, ascii "Source", 1, 5⟩, ⟨token.Token.LPAREN, [], 1, 11⟩,
    ⟨token.Token.IDENT, ascii "f", 1, 12⟩, ⟨token.Token.LPAREN, [], 1, 13⟩,
    ⟨token.Token.IDENT, ascii "snap", 2, 15⟩, ⟨token.Token.PERIOD, [], 2, 19⟩,
    ⟨token.Token.IDENT, ascii "Source", 2, 20⟩, ⟨token.Token.LPAREN, [], 2, 26⟩,
    ⟨token.Token.STRING, ascii "\"x\"", 2, 27⟩, ⟨token.Token.RPAREN, [], 2, 30⟩,
    ⟨token.Token.RPAREN, [], 2, 31⟩, ⟨token.Token.RPAREN, [], 2, 32⟩,
    ⟨token.SEMICOLON, ascii "\n", 2, 33⟩ ]

/-- A registry with a record compared once on each of the lines 1 and 2. -/
def nestedShots : shots :=
  { byLocation := [compared "x_test.go" 1 (ascii "y") (ascii "a") false,
      compared "x_test.go" 2 (ascii "x") (ascii "b") false] }

/-- The positions of the tokens are those of a scan of the source: the offsets
increase along the tokens, an opening parenthesis token is at a `(` byte and a
closing parenthesis token at a `)` byte. -/
def ScannedAt (source : Bytes) (toks : List tok) : Prop :=
  toks.Pairwise (fun a b => a.offset < b.offset) ∧
  ∀ t ∈ toks, (t.token = token.Token.LPAREN → source.get? t.offset = some 0x28) ∧
    (t.token = token.Token.RPAREN → source.get? t.offset = some 0x29)

/-- A registry with a record compared once on line 2 only. -/
def innerShots : shots :=
  { byLocation := [compared "x_test.go" 2 (ascii "x") (ascii "b") false] }

/-- The text of a call from its opening parenthesis, the token of index `i`,
through its closing parenthesis, the token of index `j`. -/
def callText (source : Bytes) (toks : List tok) (i j : Nat) : Bytes :=
  (source.take ((tokAt toks j).offset + 1)).drop (tokAt toks i).offset

/-- The line of the opening parenthesis of index `i` has no record, or a record
without an actual value, or a record compared more than once. -/
def isSkipped (s : shots) (file : String) (toks : List tok) (i : Nat) : Prop :=
  ∀ shot, mapGet s.byLocation { file := file, line := (tokAt toks i).line } = some shot →
    shot.hasActual = false ∨ shot.calledMultiple = true

/-- The text of every `snap.Source(` call whose line has no record to write is
in the output. -/
def CopiesSkippedCalls (file : String) (source : Bytes) (s : shots) (toks : List tok)
    (out : Bytes) : Prop :=
  ∀ i j, i < toks.length → isHead toks i → isClose toks i j → isSkipped s file toks i →
    callText source toks i j <:+: out

/-- The text of every `snap.Source(` call whose line has no record to write is
in the output, unless the span of a rewritten call overlaps it: the call is
inside the parentheses of a rewritten call, or a call inside its parentheses is
rewritten. -/
def CopiesUntouchedCalls (Quote : Bytes → Bytes) (file : String) (source : Bytes) (s : shots)
    (toks : List tok) (out : Bytes) : Prop :=
  ∃ sites : List (Nat × Nat),
    out = splice source 0 (sites.map (spanOf Quote file source s toks)) ∧
    (∀ p ∈ sites, isSite s file toks p.1 ∧ isClose toks p.1 p.2) ∧
    sites.Pairwise (fun p q => p.2 < q.1) ∧
    (∀ i, isSite s file toks i → ∃ p ∈ sites, p.1 ≤ i ∧ i ≤ p.2) ∧
    ∀ i j, i < toks.length → isHead toks i → isClose toks i j → isSkipped s file toks i →
      (∀ p ∈ sites, p.2 < i ∨ j < p.1) → callText source toks i j <:+: out

/-- The registry `s1` holds no record where `s` holds none, and the records of
`s` that have no actual value or were compared more than once unchanged. -/
def Frame (s s1 : shots) : Prop :=
  (∀ l, mapGet s.byLocation l = none → mapGet s1.byLocation l = none) ∧
  ∀ l shot, mapGet s.byLocation l = some shot →
    shot.hasActual = false ∨ shot.calledMultiple = true →
    mapGet s1.byLocation l = some shot

/-- An assignment with `:=` of a snapshot that a loop then compares twice. -/
def loopSource : Bytes := ascii "s := snap.Source(\"old\")\n"

/-- The tokens of `loopSource`. -/
def loopToks : List tok :=
  [ ⟨token.Token.IDENT, ascii "s", 1, 0⟩, ⟨token.Token.other 47, [], 1, 2⟩,
    ⟨token.Token.IDENT, ascii "snap", 1, 5⟩, ⟨token.Token.PERIOD, [], 1, 9⟩,
    ⟨token.Token.IDENT, ascii "Source", 1, 10⟩, ⟨token.Token.LPAREN, [], 1, 16⟩,
    ⟨token.Token.STRING, ascii "\"old\"", 1, 17⟩, ⟨token.Token.RPAREN, [], 1, 22⟩,
    ⟨token.SEMICOLON, ascii "\n", 1, 23⟩ ]

/-- The registry after `Source("old")` on line 1 and two calls of `CheckString`
on its snapshot in update mode. -/
def loopShots : shots :=
  let created := Source globalShots "x_test.go" 1 (ascii "old")
  let once := CheckStringAt true created.2.1 (ascii "v") { file := "x_test.go", line := 1 }
  (CheckStringAt true once.2 (ascii "v") { file := "x_test.go", line := 1 }).2

/-- A call whose closing parenthesis is missing. -/
def unclosedSource : Bytes := ascii "snap.Source(\"old\"\n"

/-- The tokens of `unclosedSource`; the scanner then reports EOF. -/
def unclosedToks : List tok :=
  [ ⟨token.Token.IDENT, ascii "snap", 1, 0⟩, ⟨token.Token.PERIOD, [], 1, 4⟩,
    ⟨token.Token.IDENT, ascii "Source", 1, 5⟩, ⟨token.Token.LPAREN, [], 1, 11⟩,
    ⟨token.Token.STRING, ascii "\"old\"", 1, 12⟩, ⟨token.SEMICOLON, ascii "\n", 1, 17⟩ ]

end snap

namespace snapsource

end snapsource

namespace strconv

/-- What `strconv.Quote` returns for a string of printable ASCII characters
without quotes and backslashes: the string between double quotes. -/
def quotePlain (s : Bytes) : Bytes := [0x22] ++ s ++ [0x22]

end strconv

namespace token

/-- The method `token.Token.String` on the token kinds of the concrete inputs. -/
def stringOf : Token → Bytes
  | Token.ILLEGAL => ascii "ILLEGAL"
  | Token.EOF => ascii "EOF"
  | Token.COMMENT => ascii "COMMENT"
  | Token.IDENT => ascii "IDENT"
  | Token.STRING => ascii "STRING"
  | Token.LPAREN => ascii "("
  | Token.RPAREN => ascii ")"
  | Token.PERIOD => ascii "."
  | Token.other 42 => ascii "="
  | Token.other 47 => ascii ":="
  | Token.other 57 => ascii ";"
  | Token.other _ => []

end token

namespace snapsource

end snapsource

namespace snap

end snap

namespace snap

/-- The string with `n` tab characters inserted after each newline. -/
def reindent (s : Bytes) (n : Nat) : Bytes :=
  s.flatMap (fun b => if b = 0x0A then [0x0A] ++ List.replicate n 0x09 else [b])

/-- The lines with a prefix in front of every line but the first. -/
def pfxTail (pfx : Bytes) : List Bytes → List Bytes
  | [] => []
  | l :: ls => l :: ls.map (fun x => pfx ++ x)

end snap

namespace snap

/-- The backward scan of `updateFile` with its slice expression checked: `none`
when `source[:offset]` is out of range (or when the fuel is used up before the
loop ends).  The fuel bounds the iterations; `offset` itself is enough. -/
def lineStartChecked (source : Bytes) : Nat → Int → Option Int
  | 0, offset => if offset > 0 then none else some offset
  | fuel + 1, offset =>
    if offset > 0 then
      if offset > source.length then none
      else
        let (r, n) := utf8.DecodeLastRune (source.take offset.toNat)
        if r = 0x0A then some offset else lineStartChecked source fuel (offset - n)
    else some offset

/-- The indentation `updateFile` computes for a call whose opening parenthesis
is at `offset`, with the slice and index expressions checked: `none` when one
of them is out of range. -/
def indentChecked (source : Bytes) (shot : Snapshot) (offset : Nat) : Option Int :=
  let indent : Int := 0
  if shot.indentOk then
    match lineStartChecked source offset offset with
    | none => none
    | some offset =>
      if offset + indent < source.length then
        if offset + indent < 0 then none
        else if source.get? (offset + indent).toNat = some 0x09 then some (indent + 1)
        else some indent
      else some indent
  else some indent

/-- The offset `b` is the start of the line that holds the byte at `offset`:
it is 0 or follows a newline, and no newline lies from `b` up to `offset`. -/
def IsLineStart (source : Bytes) (offset b : Nat) : Prop :=
  b ≤ offset ∧ (b = 0 ∨ source.get? (b - 1) = some 0x0A) ∧
  ∀ i, b ≤ i → i < offset → source.get? i ≠ some 0x0A

end snap

namespace snap

/-- The positions of the tokens are those of a scan of the source, seen from
the copy offset `prev`: it is inside the source and no token is before it. -/
def OffsetsOk (source : Bytes) (prev : Nat) (ts : List tok) : Prop :=
  prev ≤ source.length ∧ (∀ t ∈ ts, prev ≤ t.offset) ∧
  ts.Pairwise (fun a b => a.offset < b.offset) ∧
  ∀ t ∈ ts, (t.token = token.Token.LPAREN → source.get? t.offset = some 0x28) ∧
    (t.token = token.Token.RPAREN → source.get? t.offset = some 0x29)

end snap

namespace snap

/-- An assignment of a snapshot on a line that begins with two tabs. -/
def tabsSource : Bytes := ascii "\t\ts := snap.Source(\x60old\x60)\n"

/-- The tokens of `tabsSource`. -/
def tabsToks : List tok :=
  [ ⟨token.Token.IDENT, ascii "s", 1, 2⟩, ⟨token.Token.other 47, [], 1, 4⟩,
    ⟨token.Token.IDENT, ascii "snap", 1, 7⟩, ⟨token.Token.PERIOD, [], 1, 11⟩,
    ⟨token.Token.IDENT, ascii "Source", 1, 12⟩, ⟨token.Token.LPAREN, [], 1, 18⟩,
    ⟨token.Token.STRING, ascii "\x60old\x60", 1, 19⟩, ⟨token.Token.RPAREN, [], 1, 24⟩,
    ⟨token.SEMICOLON, ascii "\n", 1, 25⟩ ]

/-- The registry after `CheckJSON` compared the snapshot of line 1 with a list,
whose JSON text has three lines. -/
def tabsShots : shots :=
  { byLocation := [compared "x_test.go" 1 (ascii "old") (ascii "[\n\t1\n]") true] }

end snap

namespace snapsource

/-- A declaration with a call of `snapsource.S`, followed by an empty line. -/
def tailSource : Bytes := ascii "var s = snapsource.S(\x60a\x60)\n\n"

/-- The results of `sc.Scan()` for `tailSource`; the scanner then reports EOF. -/
def tailItems : List Item :=
  [ ⟨token.Token.other 85, ascii "var", 1, 0⟩, ⟨token.Token.IDENT, ascii "s", 1, 4⟩,
    ⟨token.Token.other 42, [], 1, 6⟩,
    ⟨token.Token.IDENT, ascii "snapsource", 1, 8⟩, ⟨token.Token.PERIOD, [], 1, 18⟩,
    ⟨token.Token.IDENT, ascii "S", 1, 19⟩, ⟨token.Token.LPAREN, [], 1, 20⟩,
    ⟨token.Token.STRING, ascii "\x60a\x60", 1, 21⟩, ⟨token.Token.RPAREN, [], 1, 24⟩,
    ⟨token.SEMICOLON, ascii "\n", 1, 25⟩ ]

/-- A registry with a record on line 1 that no test compared. -/
def tailShots : shots :=
  { byLocation := [({ file := "x_test.go", line := 1 },
      { location := { file := "x_test.go", line := 1 }, expected := ascii "a",
        hasActual := false, actual := [], rewritten := false })] }

end snapsource

/-! ## Quoting and unquoting -/

namespace utf8

/-- The constant `utf8.MaxRune`. -/
def MaxRune : Nat := 0x10FFFF

/-- The first surrogate code point. -/
def surrogateMin : Nat := 0xD800

/-- The last surrogate code point. -/
def surrogateMax : Nat := 0xDFFF

/-- The function `utf8.ValidRune`, on a rune that is not negative. -/
def ValidRune (r : Nat) : Bool :=
  if r < surrogateMin then true
  else if surrogateMax < r ∧ r ≤ MaxRune then true
  else false

/-- The function `utf8.AppendRune`, on a rune that is not negative.  A byte
`t | b` with `b` below the lowest bit of the tag `t` is written `t + b`, a
shift `r >> k` as a division and a mask as a remainder. -/
def AppendRune (p : Bytes) (r : Nat) : Bytes :=
  if r ≤ 0x7F then p ++ [Fin.ofNat r]
  else if r ≤ 0x7FF then p ++ [Fin.ofNat (0xC0 + r / 64), Fin.ofNat (0x80 + r % 64)]
  else
    let r1 := if r > MaxRune ∨ (surrogateMin ≤ r ∧ r ≤ surrogateMax) then RuneError else r
    if r1 ≤ 0xFFFF then
      p ++ [Fin.ofNat (0xE0 + r1 / 4096), Fin.ofNat (0x80 + r1 / 64 % 64),
        Fin.ofNat (0x80 + r1 % 64)]
    else
      p ++ [Fin.ofNat (0xF0 + r1 / 262144), Fin.ofNat (0x80 + r1 / 4096 % 64),
        Fin.ofNat (0x80 + r1 / 64 % 64), Fin.ofNat (0x80 + r1 % 64)]

/-- The loop of `utf8.ValidString` (without its fast path for eight ASCII bytes
at a time, which accepts the same strings).  The fuel is the length. -/
def validFuel : Nat → Bytes → Bool
  | 0, s => s.isEmpty
  | fuel + 1, s =>
    match s with
    | [] => true
    | si :: rest =>
      if si.val < RuneSelf then validFuel fuel rest
      else
        let x := first si
        if x = 0xF1 then false
        else
          let size := x % 8
          if s.length < size then false
          else
            let accept := acceptRanges (x / 16)
            match rest with
            | [] => false
            | c1 :: rest1 =>
              if c1.val < accept.1 ∨ accept.2 < c1.val then false
              else if size = 2 then validFuel fuel (s.drop size)
              else
                match rest1 with
                | [] => false
                | c2 :: rest2 =>
                  if c2.val < 0x80 ∨ 0xBF < c2.val then false
                  else if size = 3 then validFuel fuel (s.drop size)
                  else
                    match rest2 with
                    | [] => false
                    | c3 :: _ =>
                      if c3.val < 0x80 ∨ 0xBF < c3.val then false
                      else validFuel fuel (s.drop size)

/-- The function `utf8.ValidString`. -/
def ValidString (s : Bytes) : Bool := validFuel s.length s

end utf8

namespace strconv

/-- The string `lowerhex`, indexed. -/
def lowerhex (n : Nat) : Byte :=
  if n < 10 then Fin.ofNat (0x30 + n) else Fin.ofNat (0x61 + (n - 10))

/-- The function `strconv.IsPrint`: its check for Latin-1 is written out, and
`isPrintTable` is what its tables `isPrint16`, `isNotPrint16`, `isPrint32` and
`isNotPrint32` give for the runes above U+00FF. -/
def IsPrint (isPrintTable : Nat → Bool) (r : Nat) : Bool :=
  if r ≤ 0xFF then
    if 0x20 ≤ r ∧ r < 0x7F then true
    else if 0xA1 ≤ r ∧ r ≤ 0xFF then r ≠ 0xAD
    else false
  else isPrintTable r

/-- The hexadecimal digits that `appendEscapedRune` writes for a rune in its
loop `for s := top; s >= 0; s -= 4`, with `n` digits left. -/
def hexDigits (r : Nat) : Nat → Bytes
  | 0 => []
  | n + 1 => lowerhex (r / 16 ^ n % 16) :: hexDigits r n

/-- The function `appendEscapedRune` with the arguments that `Quote` passes:
the quote is `"`, `ASCIIonly` and `graphicOnly` are false. -/
def appendEscapedRune (isPrintTable : Nat → Bool) (buf : Bytes) (r : Nat) : Bytes :=
  if r = 0x22 ∨ r = 0x5C then buf ++ [0x5C, Fin.ofNat r]
  else if IsPrint isPrintTable r then utf8.AppendRune buf r
  else if r = 0x07 then buf ++ [0x5C, 0x61]
  else if r = 0x08 then buf ++ [0x5C, 0x62]
  else if r = 0x0C then buf ++ [0x5C, 0x66]
  else if r = 0x0A then buf ++ [0x5C, 0x6E]
  else if r = 0x0D then buf ++ [0x5C, 0x72]
  else if r = 0x09 then buf ++ [0x5C, 0x74]
  else if r = 0x0B then buf ++ [0x5C, 0x76]
  else if r < 0x20 ∨ r = 0x7F then
    buf ++ [0x5C, 0x78, lowerhex (r % 256 / 16), lowerhex (r % 256 % 16)]
  else
    let r1 := if utf8.ValidRune r then r else 0xFFFD
    if ¬ utf8.ValidRune r ∨ r1 < 0x10000 then buf ++ [0x5C, 0x75] ++ hexDigits r1 4
    else buf ++ [0x5C, 0x55] ++ hexDigits r1 8

/-- The loop of `appendQuotedWith` with the arguments that `Quote` passes.  The
fuel is the length of the string; every step consumes at least one byte. -/
def quoteLoop (isPrintTable : Nat → Bool) : Nat → Bytes → Bytes → Bytes
  | 0, _, buf => buf
  | fuel + 1, s, buf =>
    match s with
    | [] => buf
    | s0 :: _ =>
      let rw : Nat × Nat :=
        if s0.val ≥ utf8.RuneSelf then utf8.DecodeRune s else (s0.val, 1)
      if rw.2 = 1 ∧ rw.1 = utf8.RuneError then
        quoteLoop isPrintTable fuel (s.drop rw.2)
          (buf ++ [0x5C, 0x78, lowerhex (s0.val / 16), lowerhex (s0.val % 16)])
      else
        quoteLoop isPrintTable fuel (s.drop rw.2) (appendEscapedRune isPrintTable buf rw.1)

/-- The function `strconv.Quote`. -/
def Quote (isPrintTable : Nat → Bool) (s : Bytes) : Bytes :=
  quoteLoop isPrintTable s.length s [0x22] ++ [0x22]

/-- The function `unhex` of strconv. -/
def unhex (b : Byte) : Option Nat :=
  if 0x30 ≤ b.val ∧ b.val ≤ 0x39 then some (b.val - 0x30)
  else if 0x61 ≤ b.val ∧ b.val ≤ 0x66 then some (b.val - 0x61 + 10)
  else if 0x41 ≤ b.val ∧ b.val ≤ 0x46 then some (b.val - 0x41 + 10)
  else none

/-- The loop `v = v<<4 | x` of `UnquoteChar` over the hexadecimal digits. -/
def hexValue (v : Nat) : Bytes → Option Nat
  | [] => some v
  | b :: rest =>
    match unhex b with
    | none => none
    | some x => hexValue (v * 16 + x) rest

/-- The loop `v = (v << 3) | x` of `UnquoteChar` over two octal digits. -/
def octValue (v : Nat) : Bytes → Option Nat
  | [] => some v
  | b :: rest =>
    if b.val < 0x30 ∨ 0x37 < b.val then none
    else octValue (v * 8 + (b.val - 0x30)) rest

/-- The function `strconv.UnquoteChar`: the value, whether it is a multibyte
character, and the tail; `none` is the syntax error.  At most eight
hexadecimal digits are read, so the value `v` is below 2^32; from 2^31 it is
negative as a rune, where `ValidRune` is false as it is here. -/
def UnquoteChar (s : Bytes) (quote : Byte) : Option (Nat × Bool × Bytes) :=
  match s with
  | [] => none
  | c0 :: s1 =>
    if c0 = quote ∧ (quote = 0x27 ∨ quote = 0x22) then none
    else if c0.val ≥ utf8.RuneSelf then
      let rs := utf8.DecodeRune s
      some (rs.1, true, s.drop rs.2)
    else if c0 ≠ 0x5C then some (c0.val, false, s1)
    else
      match s1 with
      | [] => none
      | c :: s =>
        if c = 0x61 then some (0x07, false, s)
        else if c = 0x62 then some (0x08, false, s)
        else if c = 0x66 then some (0x0C, false, s)
        else if c = 0x6E then some (0x0A, false, s)
        else if c = 0x72 then some (0x0D, false, s)
        else if c = 0x74 then some (0x09, false, s)
        else if c = 0x76 then some (0x0B, false, s)
        else if c = 0x78 ∨ c = 0x75 ∨ c = 0x55 then
          let n := if c = 0x78 then 2 else if c = 0x75 then 4 else 8
          if s.length < n then none
          else
            match hexValue 0 (s.take n) with
            | none => none
            | some v =>
              if c = 0x78 then some (v, false, s.drop n)
              else if ¬ utf8.ValidRune v then none
              else some (v, true, s.drop n)
        else if 0x30 ≤ c.val ∧ c.val ≤ 0x37 then
          if s.length < 2 then none
          else
            match octValue (c.val - 0x30) (s.take 2) with
            | none => none
            | some v => if v > 255 then none else some (v, false, s.drop 2)
        else if c = 0x5C then some (0x5C, false, s)
        else if c = 0x27 ∨ c = 0x22 then
          if c ≠ quote then none else some (c.val, false, s)
        else none

/-- The loop of `unquote` over a quoted string with escape sequences: the
buffer and the rest of the input when the loop ends, `none` for the syntax
error.  The fuel is the length of the input; every step consumes at least one
byte. -/
def unquoteLoop (quote : Byte) : Nat → Bytes → Bytes → Option (Bytes × Bytes)
  | 0, input, buf =>
    match input with
    | [] => some (buf, input)
    | c :: _ => if c ≠ quote then none else some (buf, input)
  | fuel + 1, input, buf =>
    match input with
    | [] => some (buf, input)
    | c :: _ =>
      if c ≠ quote then
        match UnquoteChar input quote with
        | none => none
        | some (r, multibyte, rem) =>
          if c = 0x0A then none
          else
            let buf1 :=
              if r < utf8.RuneSelf ∨ multibyte = false then buf ++ [Fin.ofNat r]
              else utf8.AppendRune buf r
            if quote = 0x27 then some (buf1, rem)
            else unquoteLoop quote fuel rem buf1
      else some (buf, input)

/-- The function `unquote` of strconv with `unescape` set: the value and the
rest of the input, `none` for the syntax error. -/
def unquote (input : Bytes) : Option (Bytes × Bytes) :=
  if input.length < 2 then none
  else
    match input with
    | [] => none
    | quote :: in1 =>
      match IndexByte in1 quote with
      | none => none
      | some i =>
        let stop := i + 2
        if quote = 0x60 then
          if (0x0D : Byte) ∉ input.take stop then
            some ((input.take (stop - 1)).drop 1, input.drop stop)
          else
            some (((input.take (stop - 1)).drop 1).filter (fun b => b ≠ 0x0D), input.drop stop)
        else if quote = 0x22 ∨ quote = 0x27 then
          let valid : Bool :=
            if (0x5C : Byte) ∉ input.take stop ∧ (0x0A : Byte) ∉ input.take stop then
              if quote = 0x22 then utf8.ValidString ((input.take (stop - 1)).drop 1)
              else
                let rn := utf8.DecodeRune ((input.take (stop - 1)).drop 1)
                1 + rn.2 + 1 = stop ∧ (rn.1 ≠ utf8.RuneError ∨ rn.2 ≠ 1)
            else false
          if valid then some ((input.take (stop - 1)).drop 1, input.drop stop)
          else
            match unquoteLoop quote in1.length in1 [] with
            | none => none
            | some (buf, rest) =>
              match rest with
              | [] => none
              | c :: rest1 => if c ≠ quote then none else some (buf, rest1)
        else none

/-- The function `strconv.Unquote`; `none` is the syntax error. -/
def Unquote (s : Bytes) : Option Bytes :=
  match unquote s with
  | none => none
  | some (out, rem) => if rem.length > 0 then none else some out

end strconv

namespace strconv

/-- What one step of the loop of `appendQuotedWith` appends for the first rune
of a string that is not empty, and the width of that rune. -/
def quoteFirst (isPrintTable : Nat → Bool) (s : Bytes) : Bytes × Nat :=
  match s with
  | [] => ([], 0)
  | s0 :: _ =>
    let rw : Nat × Nat :=
      if s0.val ≥ utf8.RuneSelf then utf8.DecodeRune s else (s0.val, 1)
    if rw.2 = 1 ∧ rw.1 = utf8.RuneError then
      ([0x5C, 0x78, lowerhex (s0.val / 16), lowerhex (s0.val % 16)], rw.2)
    else (appendEscapedRune isPrintTable [] rw.1, rw.2)

end strconv
/-! ## The registry -/

namespace snap

theorem mapGet_eq_none_iff (m : List (location × Snapshot)) (l : location) :
    mapGet m l = none ↔ l ∉ m.map Prod.fst := by
  induction m with
  | nil => simp [mapGet]
  | cons e rest ih =>
    by_cases h : e.1 = l
    · simp [mapGet, h]
    · simp only [mapGet, h, if_false, ih, List.map_cons, List.mem_cons, not_or]
      exact ⟨fun h1 => ⟨fun h2 => h h2.symm, h1⟩, fun h1 => h1.2⟩

theorem mapGet_mapSet_self (m : List (location × Snapshot)) (l : location) (v : Snapshot) :
    mapGet (mapSet m l v) l = some v := by
  induction m with
  | nil => simp [mapGet, mapSet]
  | cons e rest ih =>
    by_cases h : e.1 = l
    · simp [mapGet, mapSet, h]
    · simp [mapGet, mapSet, h, ih]

theorem mapGet_mapSet_ne (m : List (location × Snapshot)) (l l1 : location) (v : Snapshot)
    (hne : l1 ≠ l) : mapGet (mapSet m l v) l1 = mapGet m l1 := by
  induction m with
  | nil => simp [mapGet, mapSet, Ne.symm hne]
  | cons e rest ih =>
    by_cases h : e.1 = l
    · have h1 : ¬ e.1 = l1 := fun h2 => hne (h2.symm.trans h)
      simp [mapGet, mapSet, h, h1, Ne.symm hne]
    · by_cases h1 : e.1 = l1
      · rw [mapSet, if_neg h]; simp [mapGet, h1]
      · rw [mapSet, if_neg h]; simp [mapGet, h1, ih]

theorem mapSet_of_not_mem (m : List (location × Snapshot)) (l : location) (v : Snapshot)
    (h : l ∉ m.map Prod.fst) : mapSet m l v = m ++ [(l, v)] := by
  induction m with
  | nil => simp [mapSet]
  | cons e rest ih =>
    simp only [List.map_cons, List.mem_cons, not_or] at h
    have h1 : ¬ e.1 = l := fun h2 => h.1 h2.symm
    simp [mapSet, h1, ih h.2]

theorem mapSet_keys_of_mem (m : List (location × Snapshot)) (l : location) (v : Snapshot)
    (h : l ∈ m.map Prod.fst) : (mapSet m l v).map Prod.fst = m.map Prod.fst := by
  induction m with
  | nil => simp at h
  | cons e rest ih =>
    by_cases h1 : e.1 = l
    · simp [mapSet, h1]
    · have h2 : l ∈ rest.map Prod.fst := by
        simp only [List.map_cons, List.mem_cons] at h
        rcases h with h | h
        · exact absurd h.symm h1
        · exact h
      simp [mapSet, h1, ih h2]

theorem register_WF (s : shots) (shot : Snapshot) (h : s.WF) : (register s shot).1.WF := by
  unfold register
  cases hg : mapGet s.byLocation shot.location with
  | some v => simpa using h
  | none =>
    have hn := (mapGet_eq_none_iff _ _).1 hg
    simp only [shots.WF, mapSet_of_not_mem _ _ _ hn, List.map_append, List.map_cons,
      List.map_nil, List.mem_append, List.mem_singleton]
    refine ⟨?_, ?_⟩
    · rw [List.nodup_append]
      refine ⟨h.1, by simp, ?_⟩
      intro a ha hb
      simp only [List.mem_singleton] at hb
      subst hb
      exact hn ha
    · intro e he
      rcases he with he | he
      · exact h.2 e he
      · subst he; rfl

end snap

namespace snapsource

theorem ss_mapGet_eq_none_iff (m : List (location × Snapshot)) (l : location) :
    mapGet m l = none ↔ l ∉ m.map Prod.fst := by
  induction m with
  | nil => simp [mapGet]
  | cons e rest ih =>
    by_cases h : e.1 = l
    · simp [mapGet, h]
    · simp only [mapGet, h, if_false, ih, List.map_cons, List.mem_cons, not_or]
      exact ⟨fun h1 => ⟨fun h2 => h h2.symm, h1⟩, fun h1 => h1.2⟩

theorem ss_mapGet_mapSet_self (m : List (location × Snapshot)) (l : location) (v : Snapshot) :
    mapGet (mapSet m l v) l = some v := by
  induction m with
  | nil => simp [mapGet, mapSet]
  | cons e rest ih =>
    by_cases h : e.1 = l
    · simp [mapGet, mapSet, h]
    · simp [mapGet, mapSet, h, ih]

theorem ss_mapGet_mapSet_ne (m : List (location × Snapshot)) (l l1 : location) (v : Snapshot)
    (hne : l1 ≠ l) : mapGet (mapSet m l v) l1 = mapGet m l1 := by
  induction m with
  | nil => simp [mapGet, mapSet, Ne.symm hne]
  | cons e rest ih =>
    by_cases h : e.1 = l
    · have h1 : ¬ e.1 = l1 := fun h2 => hne (h2.symm.trans h)
      simp [mapGet, mapSet, h, h1, Ne.symm hne]
    · by_cases h1 : e.1 = l1
      · rw [mapSet, if_neg h]; simp [mapGet, h1]
      · rw [mapSet, if_neg h]; simp [mapGet, h1, ih]

theorem ss_mapSet_of_not_mem (m : List (location × Snapshot)) (l : location) (v : Snapshot)
    (h : l ∉ m.map Prod.fst) : mapSet m l v = m ++ [(l, v)] := by
  induction m with
  | nil => simp [mapSet]
  | cons e rest ih =>
    simp only [List.map_cons, List.mem_cons, not_or] at h
    have h1 : ¬ e.1 = l := fun h2 => h.1 h2.symm
    simp [mapSet, h1, ih h.2]

theorem ss_register_WF (s : shots) (shot : Snapshot) (h : s.WF) : (register s shot).1.WF := by
  unfold register
  cases hg : mapGet s.byLocation shot.location with
  | some v => simpa using h
  | none =>
    have hn := (ss_mapGet_eq_none_iff _ _).1 hg
    simp only [shots.WF, ss_mapSet_of_not_mem _ _ _ hn, List.map_append, List.map_cons,
      List.map_nil, List.mem_append, List.mem_singleton]
    refine ⟨?_, ?_⟩
    · rw [List.nodup_append]
      refine ⟨h.1, by simp, ?_⟩
      intro a ha hb
      simp only [List.mem_singleton] at hb
      subst hb
      exact hn ha
    · intro e he
      rcases he with he | he
      · exact h.2 e he
      · subst he; rfl

end snapsource

/-- C9: `register` fails (exit in snap, panic in snapsource) exactly when the
registry already holds a record at the location of the new one, and then
leaves the registry unchanged; otherwise it stores the record under its own
location and leaves every other entry unchanged.  A registry in which every
location has at most one entry and every key is the location of its record
stays so. -/
theorem register_exclusive (s : snap.shots) (shot : snap.Snapshot)
    (s2 : snapsource.shots) (shot2 : snapsource.Snapshot)
    (hs : s.WF) (hs2 : s2.WF) :
    (((snap.register s shot).2 = true ↔
        ∃ old, snap.mapGet s.byLocation shot.location = some old) ∧
      ((snap.register s shot).2 = true → (snap.register s shot).1 = s) ∧
      ((snap.register s shot).2 = false →
        snap.mapGet (snap.register s shot).1.byLocation shot.location = some shot ∧
        ∀ l, l ≠ shot.location →
          snap.mapGet (snap.register s shot).1.byLocation l = snap.mapGet s.byLocation l) ∧
      (snap.register s shot).1.WF) ∧
    (((snapsource.register s2 shot2).2 = true ↔
        ∃ old, snapsource.mapGet s2.byLocation shot2.location = some old) ∧
      ((snapsource.register s2 shot2).2 = true → (snapsource.register s2 shot2).1 = s2) ∧
      ((snapsource.register s2 shot2).2 = false →
        snapsource.mapGet (snapsource.register s2 shot2).1.byLocation shot2.location
          = some shot2 ∧
        ∀ l, l ≠ shot2.location →
          snapsource.mapGet (snapsource.register s2 shot2).1.byLocation l
            = snapsource.mapGet s2.byLocation l) ∧
      (snapsource.register s2 shot2).1.WF) := by
  refine ⟨⟨?_, ?_, ?_, snap.register_WF s shot hs⟩,
    ⟨?_, ?_, ?_, snapsource.ss_register_WF s2 shot2 hs2⟩⟩
  · unfold snap.register
    cases hg : snap.mapGet s.byLocation shot.location <;> simp
  · unfold snap.register
    cases hg : snap.mapGet s.byLocation shot.location <;> simp
  · unfold snap.register
    cases hg : snap.mapGet s.byLocation shot.location with
    | some v => simp
    | none =>
      intro _
      exact ⟨snap.mapGet_mapSet_self _ _ _, fun l hl => snap.mapGet_mapSet_ne _ _ _ _ hl⟩
  · unfold snapsource.register
    cases hg : snapsource.mapGet s2.byLocation shot2.location <;> simp
  · unfold snapsource.register
    cases hg : snapsource.mapGet s2.byLocation shot2.location <;> simp
  · unfold snapsource.register
    cases hg : snapsource.mapGet s2.byLocation shot2.location with
    | some v => simp
    | none =>
      intro _
      exact ⟨snapsource.ss_mapGet_mapSet_self _ _ _,
        fun l hl => snapsource.ss_mapGet_mapSet_ne _ _ _ _ hl⟩

/-- C9, at the registries that hold one record at line 3 of a file: a second
record at line 3 is refused, a record at line 4 is stored. -/
theorem register_exclusive_witness :
    (snap.register ⟨[(⟨"a_test.go", 3⟩, ⟨⟨"a_test.go", 3⟩, [], false, [], false, false, false⟩)]⟩
        ⟨⟨"a_test.go", 3⟩, [120], false, [], false, false, false⟩).2 = true ∧
    (snapsource.register ⟨[(⟨"a_test.go", 3⟩, ⟨⟨"a_test.go", 3⟩, [], false, [], false⟩)]⟩
        ⟨⟨"a_test.go", 4⟩, [120], false, [], false⟩).2 = false := by
  have h := register_exclusive
    ⟨[(⟨"a_test.go", 3⟩, ⟨⟨"a_test.go", 3⟩, [], false, [], false, false, false⟩)]⟩
    ⟨⟨"a_test.go", 3⟩, [120], false, [], false, false, false⟩
    ⟨[(⟨"a_test.go", 3⟩, ⟨⟨"a_test.go", 3⟩, [], false, [], false⟩)]⟩
    ⟨⟨"a_test.go", 4⟩, [120], false, [], false⟩
    (by simp [snap.shots.WF]) (by simp [snapsource.shots.WF])
  refine ⟨h.1.1.2 ⟨_, rfl⟩, ?_⟩
  cases hb : (snapsource.register ⟨[(⟨"a_test.go", 3⟩, ⟨⟨"a_test.go", 3⟩, [], false, [], false⟩)]⟩
        ⟨⟨"a_test.go", 4⟩, [120], false, [], false⟩).2 with
  | false => rfl
  | true =>
    obtain ⟨old, ho⟩ := h.2.1.1 hb
    simp [snapsource.mapGet] at ho

/-! ## The comparator -/

/-- C10: in update mode and in normal mode, `CheckString` leaves the record
with `hasActual` set and `actual` equal to the given string; it reports the
"invoked more than once" failure exactly when `hasActual` was set before, and
then sets `calledMultiple`, which otherwise keeps its value; the location, the
expected value, `indentOk` and `updated` keep their values.  On a record held
by the registry the keys of the registry and every other entry are unchanged. -/
theorem CheckString_effect (updateSnapshots : Bool) (actual : Bytes) (r : snap.Snapshot)
    (s : snap.shots) (l : snap.location) :
    (snap.CheckString updateSnapshots actual r).2.hasActual = true ∧
    (snap.CheckString updateSnapshots actual r).2.actual = actual ∧
    (snap.Failure.invokedMoreThanOnce ∈ (snap.CheckString updateSnapshots actual r).1 ↔
      r.hasActual = true) ∧
    (r.hasActual = true →
      (snap.CheckString updateSnapshots actual r).2.calledMultiple = true) ∧
    (r.hasActual = false →
      (snap.CheckString updateSnapshots actual r).2.calledMultiple = r.calledMultiple) ∧
    (snap.CheckString updateSnapshots actual r).2.location = r.location ∧
    (snap.CheckString updateSnapshots actual r).2.expected = r.expected ∧
    (snap.CheckString updateSnapshots actual r).2.indentOk = r.indentOk ∧
    (snap.CheckString updateSnapshots actual r).2.updated = r.updated ∧
    ((snap.CheckStringAt updateSnapshots s actual l).2.byLocation.map Prod.fst
      = s.byLocation.map Prod.fst) ∧
    (∀ l1, l1 ≠ l →
      snap.mapGet (snap.CheckStringAt updateSnapshots s actual l).2.byLocation l1
        = snap.mapGet s.byLocation l1) ∧
    (∀ shot, snap.mapGet s.byLocation l = some shot →
      snap.mapGet (snap.CheckStringAt updateSnapshots s actual l).2.byLocation l
        = some (snap.CheckString updateSnapshots actual shot).2) := by
  refine ⟨?_, ?_, ?_, ?_, ?_, ?_, ?_, ?_, ?_, ?_, ?_, ?_⟩
  · cases hh : r.hasActual <;> simp [snap.CheckString, hh]
  · cases hh : r.hasActual <;> simp [snap.CheckString, hh]
  · cases hh : r.hasActual <;> cases updateSnapshots <;> simp [snap.CheckString, hh]
  · intro hh; simp [snap.CheckString, hh]
  · intro hh; simp [snap.CheckString, hh]
  · cases hh : r.hasActual <;> simp [snap.CheckString, hh]
  · cases hh : r.hasActual <;> simp [snap.CheckString, hh]
  · cases hh : r.hasActual <;> simp [snap.CheckString, hh]
  · cases hh : r.hasActual <;> simp [snap.CheckString, hh]
  · unfold snap.CheckStringAt
    cases hg : snap.mapGet s.byLocation l with
    | none => rfl
    | some shot =>
      have hm : l ∈ s.byLocation.map Prod.fst := by
        by_contra hn
        rw [(snap.mapGet_eq_none_iff _ _).2 hn] at hg
        cases hg
      exact snap.mapSet_keys_of_mem _ _ _ hm
  · intro l1 hl1
    unfold snap.CheckStringAt
    cases hg : snap.mapGet s.byLocation l with
    | none => rfl
    | some shot => exact snap.mapGet_mapSet_ne _ _ _ _ hl1
  · intro shot hg
    unfold snap.CheckStringAt
    rw [hg]
    exact snap.mapGet_mapSet_self _ _ _

/-! ## The formatter -/

section

open utf8

theorem first_cases (b : Byte) :
    (first b = 0xF0 ∧ b.val < 0x80) ∨ first b = 0xF1 ∨
    (0x80 ≤ b.val ∧ (first b = 0x02 ∨ first b = 0x13 ∨ first b = 0x03 ∨ first b = 0x23
      ∨ first b = 0x34 ∨ first b = 0x04 ∨ first b = 0x44)) := by
  unfold first
  split_ifs <;> simp <;> omega

theorem DecodeRune_wide (s : Bytes) (h : 1 < (DecodeRune s).2) :
    (DecodeRune s).2 ≤ s.length ∧ ∀ b ∈ s.take (DecodeRune s).2, 0x80 ≤ b.val := by
  match s with
  | [] => simp [DecodeRune] at h
  | p0 :: rest =>
    rcases first_cases p0 with ⟨hf, _⟩ | hf | ⟨hp, hf⟩
    · simp [DecodeRune, hf] at h
    · simp [DecodeRune, hf] at h
    · rcases hf with hf | hf | hf | hf | hf | hf | hf <;>
      · match rest with
        | [] => simp [DecodeRune, hf] at h
        | b1 :: rest1 =>
          match rest1 with
          | [] =>
            simp only [DecodeRune, hf] at h ⊢
            norm_num [acceptRanges] at h ⊢ <;> (try split_ifs at h ⊢) <;> (try simp at h ⊢) <;>
              (try omega)
          | b2 :: rest2 =>
            match rest2 with
            | [] =>
              simp only [DecodeRune, hf] at h ⊢
              norm_num [acceptRanges] at h ⊢ <;> (try split_ifs at h ⊢) <;> (try simp at h ⊢) <;>
                (try omega)
            | b3 :: rest3 =>
              simp only [DecodeRune, hf] at h ⊢
              norm_num [acceptRanges] at h ⊢ <;> (try split_ifs at h ⊢) <;> (try simp at h ⊢) <;>
                (try omega)

theorem DecodeRune_narrow (p0 : Byte) (rest : Bytes) (h : (DecodeRune (p0 :: rest)).2 ≤ 1)
    (hr : (DecodeRune (p0 :: rest)).1 ≠ RuneError) :
    (DecodeRune (p0 :: rest)).1 = p0.val ∧ (DecodeRune (p0 :: rest)).2 = 1 := by
  rcases first_cases p0 with ⟨hf, _⟩ | hf | ⟨hp, hf⟩
  · simp [DecodeRune, hf]
  · simp [DecodeRune, hf] at hr
  · rcases hf with hf | hf | hf | hf | hf | hf | hf <;>
    · match rest with
      | [] => simp [DecodeRune, hf] at hr
      | b1 :: rest1 =>
        match rest1 with
        | [] =>
          simp only [DecodeRune, hf] at h hr ⊢
          norm_num [acceptRanges] at h hr ⊢ <;> (try split_ifs at h hr ⊢) <;>
            (try simp at h hr ⊢)
        | b2 :: rest2 =>
          match rest2 with
          | [] =>
            simp only [DecodeRune, hf] at h hr ⊢
            norm_num [acceptRanges] at h hr ⊢ <;> (try split_ifs at h hr ⊢) <;>
              (try simp at h hr ⊢)
          | b3 :: rest3 =>
            simp only [DecodeRune, hf] at h hr ⊢
            norm_num [acceptRanges] at h hr ⊢ <;> (try split_ifs at h hr ⊢) <;>
              (try simp at h hr ⊢)

theorem canBackquoteFuel_bytes (fuel : Nat) (s : Bytes)
    (h : strconv.canBackquoteFuel fuel s = true) :
    ∀ b ∈ s, b ≠ 0x60 ∧ b ≠ 0x0D := by
  induction fuel generalizing s with
  | zero =>
    simp only [strconv.canBackquoteFuel, List.isEmpty_iff] at h
    subst h; simp
  | succ fuel ih =>
    match s with
    | [] => simp
    | p0 :: rest =>
      unfold strconv.canBackquoteFuel at h
      simp only [List.isEmpty_cons, Bool.false_eq_true, if_false] at h
      by_cases hw : (DecodeRune (p0 :: rest)).2 > 1
      · have hwide := DecodeRune_wide (p0 :: rest) hw
        simp only [hw, if_true] at h
        split_ifs at h with h1
        have hrest := ih _ h
        intro b hb
        rw [← List.take_append_drop (DecodeRune (p0 :: rest)).2 (p0 :: rest)] at hb
        rcases List.mem_append.1 hb with hb | hb
        · have := hwide.2 b hb
          constructor <;> intro hc <;> subst hc <;> exact absurd this (by decide)
        · exact hrest b hb
      · simp only [hw, if_false] at h
        split_ifs at h with h1 h2
        have hn := DecodeRune_narrow p0 rest (by omega) h1
        rw [hn.2] at h
        have hrest := ih _ h
        intro b hb
        rcases List.mem_cons.1 hb with hb | hb
        · subst hb
          rw [hn.1] at h2
          constructor <;> intro hc <;> subst hc <;> exact h2 (by decide)
        · exact hrest b (by simpa using hb)

theorem ReplaceAll_newline_mem (s : Bytes) (b : Byte) (hb : b ∈ s) (hn : b ≠ 0x0A) :
    b ∈ strings.ReplaceAll s 0x0A [] := by
  unfold strings.ReplaceAll
  rw [List.mem_flatMap]
  exact ⟨b, hb, by simp [hn]⟩

theorem IndexByte_append_self (s : Bytes) (c : Byte) (h : c ∉ s) (t : Bytes) :
    strconv.IndexByte (s ++ c :: t) c = some s.length := by
  induction s with
  | nil => simp [strconv.IndexByte]
  | cons b rest ih =>
    simp only [List.mem_cons, not_or] at h
    have hb : ¬ b = c := fun hc => h.1 hc.symm
    simp [strconv.IndexByte, hb, ih h.2]

theorem UnquoteRaw_backquoted (s : Bytes) (h : ∀ b ∈ s, b ≠ 0x60 ∧ b ≠ 0x0D) :
    strconv.UnquoteRaw ([0x60] ++ s ++ [0x60]) = some s := by
  have h1 : (0x60 : Byte) ∉ s := fun hm => (h _ hm).1 rfl
  have e : ([0x60] : Bytes) ++ s ++ [0x60] = 0x60 :: (s ++ [0x60]) := by simp
  rw [e]
  simp only [strconv.UnquoteRaw, ne_eq, not_true_eq_false, if_false]
  rw [IndexByte_append_self s _ h1 []]
  simp only [List.length_append, List.length_singleton, ne_eq, not_true_eq_false, if_false,
    List.take_left']
  congr 1
  rw [List.filter_eq_self]
  intro b hb
  simpa using (h b hb).2

end

/-- C4: when the string without its newlines can be backquoted, `format` at
indent 0 (and the `format` of snapsource) is a backquote, the string, a
backquote, and decoding that token as a raw string literal gives the string
back. -/
theorem format_raw_roundtrip (Quote : Bytes → Bytes) (s : Bytes)
    (h : strconv.CanBackquote (strings.ReplaceAll s 0x0A []) = true) :
    snap.format Quote s 0 = [0x60] ++ s ++ [0x60] ∧
    snapsource.format Quote s = [0x60] ++ s ++ [0x60] ∧
    strconv.UnquoteRaw (snap.format Quote s 0) = some s ∧
    strconv.UnquoteRaw (snapsource.format Quote s) = some s := by
  have hf : snap.format Quote s 0 = [0x60] ++ s ++ [0x60] := by
    simp [snap.format, h]
  have hg : snapsource.format Quote s = [0x60] ++ s ++ [0x60] := by
    simp [snapsource.format, h]
  have hb : ∀ b ∈ s, b ≠ 0x60 ∧ b ≠ 0x0D := by
    intro b hb
    by_cases hn : b = 0x0A
    · subst hn; constructor <;> decide
    · exact canBackquoteFuel_bytes _ _ h b (ReplaceAll_newline_mem s b hb hn)
  refine ⟨hf, hg, ?_, ?_⟩
  · rw [hf]; exact UnquoteRaw_backquoted s hb
  · rw [hg]; exact UnquoteRaw_backquoted s hb

/-- C4 at the JSON text of the package tests, a string of three lines. -/
theorem format_raw_roundtrip_witness :
    snap.format id (ascii "[\n\t\"huh\"\n]") 0 = [0x60] ++ ascii "[\n\t\"huh\"\n]" ++ [0x60] ∧
    strconv.UnquoteRaw (snap.format id (ascii "[\n\t\"huh\"\n]") 0)
      = some (ascii "[\n\t\"huh\"\n]") :=
  have h := format_raw_roundtrip id (ascii "[\n\t\"huh\"\n]") (by decide)
  ⟨h.1, h.2.2.1⟩

/-! ## The scan loop of `updateFile` -/

namespace snap

theorem suffix_concat_iff {α : Type} (l p : List α) (x y : α) :
    (l ++ [x]) <:+ (p ++ [y]) ↔ l <:+ p ∧ x = y := by
  rw [← List.reverse_prefix, ← List.reverse_prefix]
  simp only [List.reverse_append, List.reverse_cons, List.reverse_nil, List.nil_append,
    List.singleton_append]
  rw [List.cons_prefix_cons]
  tauto

theorem WinInv_init : WinInv [] recentZero := by
  refine ⟨rfl, ?_, ?_, ?_⟩ <;>
    simp [recentZero, matchToks, List.replicate]

theorem WinInv_step (pre recent : List tok) (t : tok) (h : WinInv pre recent) :
    WinInv (pre ++ [t]) (recent.drop 1 ++ [tokKey t]) ∧
    (recent.drop 1 ++ [tokKey t] = matchToks ↔ matchToks <:+ (pre ++ [t]).map tokKey) := by
  obtain ⟨hl, h1, h2, h3⟩ := h
  match recent, hl with
  | [a, b, c, d], _ =>
    simp only [List.drop_succ_cons, List.drop_zero, matchToks, List.take_succ_cons,
      List.take_zero, List.map_append, List.map_cons, List.map_nil,
      List.cons_append, List.nil_append] at h1 h2 h3 ⊢
    have e1 : ∀ (x : tok) (p : List tok) (y : tok), [x] <:+ p ++ [y] ↔ x = y := by
      intro x p y
      have := suffix_concat_iff [] p x y
      simpa using this
    have e2 : ∀ (w x : tok) (p : List tok) (y : tok),
        [w, x] <:+ p ++ [y] ↔ [w] <:+ p ∧ x = y := by
      intro w x p y
      exact suffix_concat_iff [w] p x y
    have e3 : ∀ (v w x : tok) (p : List tok) (y : tok),
        [v, w, x] <:+ p ++ [y] ↔ [v, w] <:+ p ∧ x = y := by
      intro v w x p y
      exact suffix_concat_iff [v, w] p x y
    have e4 : ∀ (u v w x : tok) (p : List tok) (y : tok),
        [u, v, w, x] <:+ p ++ [y] ↔ [u, v, w] <:+ p ∧ x = y := by
      intro u v w x p y
      exact suffix_concat_iff [u, v, w] p x y
    refine ⟨⟨rfl, ?_, ?_, ?_⟩, ?_⟩
    · simp only [List.drop_succ_cons, List.drop_zero, matchToks, List.take_succ_cons,
        List.take_zero, List.map_append, List.map_cons, List.map_nil]
      rw [e1]; simp [eq_comm]
    · simp only [List.drop_succ_cons, List.drop_zero, matchToks, List.take_succ_cons,
        List.take_zero, List.map_append, List.map_cons, List.map_nil]
      rw [e2, ← h1]; simp [eq_comm]
    · simp only [List.drop_succ_cons, List.drop_zero, matchToks, List.take_succ_cons,
        List.take_zero, List.map_append, List.map_cons, List.map_nil]
      rw [e3, ← h2]; simp [eq_comm, and_assoc]
    · rw [e4, ← h3]; simp [eq_comm, and_assoc]

theorem WinInv_close (pre : List tok) (t : tok) (ht : t.token = token.Token.RPAREN) :
    WinInv (pre ++ [t]) matchToks := by
  have e : ∀ (l : List tok) (x : tok), x.token ≠ token.Token.RPAREN →
      ¬ (l ++ [x]) <:+ (pre.map tokKey ++ [tokKey t]) := by
    intro l x hx hs
    have := ((suffix_concat_iff l _ x _).1 hs).2
    rw [this] at hx
    exact hx (by simp [tokKey, ht])
  refine ⟨rfl, ?_, ?_, ?_⟩
  · simp only [List.map_append, List.map_cons, List.map_nil]
    constructor
    · intro h; simp [matchToks] at h
    · intro h; exact absurd h (e [] _ (by simp [matchToks]))
  · simp only [List.map_append, List.map_cons, List.map_nil]
    constructor
    · intro h; simp [matchToks] at h
    · intro h; exact absurd h (e [_] _ (by simp [matchToks]))
  · simp only [List.map_append, List.map_cons, List.map_nil]
    constructor
    · intro h; simp [matchToks] at h
    · intro h; exact absurd h (e [_, _] _ (by simp [matchToks]))


theorem Agree_refl (s : shots) : Agree s s := ⟨rfl, fun _ => rfl⟩

theorem mapGet_some_mem_keys (m : List (location × Snapshot)) (l : location) (v : Snapshot)
    (h : mapGet m l = some v) : l ∈ m.map Prod.fst := by
  by_contra hn
  rw [(mapGet_eq_none_iff _ _).2 hn] at h
  cases h

theorem Agree_mark (s0 s : shots) (l : location) (shot : Snapshot) (h : Agree s0 s)
    (hg : mapGet s.byLocation l = some shot) :
    Agree s0 { byLocation := mapSet s.byLocation l { shot with updated := true } } := by
  refine ⟨?_, ?_⟩
  · simp only
    rw [mapSet_keys_of_mem _ _ _ (mapGet_some_mem_keys _ _ _ hg)]
    exact h.1
  · intro l1
    by_cases hl : l1 = l
    · subst hl
      simp only
      rw [mapGet_mapSet_self, ← h.2 l1, hg]
      rfl
    · simp only
      rw [mapGet_mapSet_ne _ _ _ _ hl]
      exact h.2 l1

theorem Agree_lookup (s0 s : shots) (l : location) (h : Agree s0 s) :
    (mapGet s.byLocation l = none ↔ mapGet s0.byLocation l = none) ∧
    ∀ shot, mapGet s.byLocation l = some shot →
      ∃ shot0, mapGet s0.byLocation l = some shot0 ∧ shot0.hasActual = shot.hasActual ∧
        shot0.calledMultiple = shot.calledMultiple ∧ shot0.actual = shot.actual ∧
        shot0.indentOk = shot.indentOk ∧ shot0.location = shot.location ∧
        shot0.expected = shot.expected := by
  have h2 := h.2 l
  constructor
  · cases h1 : mapGet s.byLocation l <;> cases h0 : mapGet s0.byLocation l <;>
      simp [h1, h0] at h2 ⊢
  · intro shot hs
    rw [hs] at h2
    cases h0 : mapGet s0.byLocation l with
    | none => rw [h0] at h2; simp at h2
    | some shot0 =>
      rw [h0] at h2
      simp only [Option.map_some', Option.some.injEq, forget] at h2
      refine ⟨shot0, rfl, ?_⟩
      cases shot; cases shot0
      simp only [Snapshot.mk.injEq] at h2 ⊢
      obtain ⟨a, b, c, d, e, _, f⟩ := h2
      exact ⟨c.symm, f.symm, d.symm, e.symm, a.symm, b.symm⟩

theorem balance_nil : balance [] = 0 := rfl

theorem balance_cons (t : tok) (seg : List tok) :
    balance (t :: seg) =
      (if t.token = token.Token.LPAREN then 1 else 0)
        - (if t.token = token.Token.RPAREN then 1 else 0) + balance seg := by
  unfold balance
  simp only [List.countP_cons, decide_eq_true_eq]
  split_ifs <;> push_cast <;> ring

theorem closesAt_single (t : tok) (ht : t.token = token.Token.RPAREN) : closesAt 1 [t] := by
  refine ⟨?_, ?_⟩
  · simp [balance_cons, balance_nil, ht]
  · intro p hp hne
    have : p = [] := by
      rcases List.prefix_cons_iff.1 hp with h | ⟨p1, rfl, h1⟩
      · exact h
      · exact absurd (by rw [List.prefix_nil.1 h1]) hne
    subst this
    simp [balance_nil]

theorem closesAt_cons (d d1 : Nat) (t : tok) (seg : List tok)
    (hd : (d1 : Int) = (d : Int) + 1 + ((if t.token = token.Token.LPAREN then 1 else 0)
        - (if t.token = token.Token.RPAREN then 1 else 0)))
    (h : closesAt d1 seg) : closesAt (d + 1) (t :: seg) := by
  refine ⟨?_, ?_⟩
  · have := h.1
    rw [balance_cons]
    push_cast
    omega
  · intro p hp hne
    rcases List.prefix_cons_iff.1 hp with h1 | ⟨p1, rfl, h1⟩
    · subst h1
      simp only [balance_nil]
      push_cast
      omega
    · have := h.2 p1 h1 (fun e => hne (by rw [e]))
      rw [balance_cons]
      push_cast
      omega


theorem slice_some (source : Bytes) (lo hi : Nat) (chunk : Bytes)
    (h : slice source lo hi = some chunk) :
    lo ≤ hi ∧ hi ≤ source.length ∧ chunk = (source.take hi).drop lo := by
  unfold slice at h
  split_ifs at h with hc
  simp only [Option.some.injEq] at h
  exact ⟨hc.1, hc.2, h.symm⟩

theorem tokAt_append (pre : List tok) (t : tok) (rest : List tok) :
    tokAt (pre ++ t :: rest) pre.length = t := by
  unfold tokAt
  rw [List.getD_eq_getElem?_getD, List.getElem?_append_right (le_refl _)]
  simp

theorem take_append_succ (pre : List tok) (t : tok) (rest : List tok) :
    (pre ++ t :: rest).take (pre.length + 1) = pre ++ [t] := by
  rw [List.take_append_eq_append_take]
  simp

theorem Post_skip (Quote : Bytes → Bytes) (file : String) (source : Bytes) (s0 : shots)
    (toks pre rest : List tok) (t : tok) (st st1 : State) (s1 : shots) (out : Bytes)
    (_htoks : toks = pre ++ t :: rest)
    (hout : st1.out = st.out) (hprev : st1.prevOffset = st.prevOffset)
    (hshots : st1.shots = st.shots)
    (hno : ¬ isSite s0 file toks pre.length)
    (h : Post Quote file source s0 toks 0 (pre ++ [t]) rest st1 s1 out) :
    Post Quote file source s0 toks 0 pre (t :: rest) st s1 out := by
  obtain ⟨seg, rest1, sites, prev, hts, h0, _, ho, hvalid, hsites, hsorted, hcomplete, hag,
    hupd, hmono, hmark⟩ := h
  obtain ⟨hseg, hp⟩ := h0 rfl
  subst hseg
  simp only [List.nil_append] at hts
  subst hts
  refine ⟨[], t :: rest, sites, prev, rfl, fun _ => ⟨rfl, by rw [hp, hprev]⟩,
    fun hc => absurd rfl hc, by rw [ho, hout], hvalid, ?_, hsorted, ?_, hag, ?_, ?_, hmark⟩
  · intro p hp1
    obtain ⟨a, b, c⟩ := hsites p hp1
    simp only [List.length_append, List.length_singleton, List.length_nil, Nat.add_zero] at a
    exact ⟨by simp only [List.length_nil]; omega, b, c⟩
  · intro i hi hsite
    simp only [List.length_nil, Nat.add_zero] at hi
    by_cases hieq : i = pre.length
    · subst hieq; exact absurd hsite hno
    · refine hcomplete i ?_ hsite
      simp only [List.length_append, List.length_singleton, List.length_nil]
      omega
  · intro l shot1 hg hu
    rw [← hshots]
    exact hupd l shot1 hg hu
  · intro l shot hg hu
    rw [← hshots] at hg
    exact hmono l shot hg hu

theorem Post_close (Quote : Bytes → Bytes) (file : String) (source : Bytes) (s0 : shots)
    (toks pre rest : List tok) (t : tok) (st : State) (s1 : shots) (out : Bytes)
    (ht : t.token = token.Token.RPAREN)
    (h : Post Quote file source s0 toks 0 (pre ++ [t]) rest
      { st with prevOffset := t.offset + 1 } s1 out) :
    Post Quote file source s0 toks 1 pre (t :: rest) st s1 out := by
  obtain ⟨seg, rest1, sites, prev, hts, h0, _, ho, hvalid, hsites, hsorted, hcomplete, hag,
    hupd, hmono, hmark⟩ := h
  obtain ⟨hseg, hp⟩ := h0 rfl
  subst hseg
  simp only [List.nil_append] at hts
  subst hts
  refine ⟨[t], rest, sites, prev, rfl, fun hc => absurd hc (by decide),
    fun _ => ⟨[], t, rfl, ht, hp, closesAt_single t ht⟩, ho, hvalid, ?_, hsorted, ?_, hag,
    hupd, hmono, hmark⟩
  · intro p hp1
    obtain ⟨a, b, c⟩ := hsites p hp1
    simp only [List.length_append, List.length_singleton, List.length_nil, Nat.add_zero] at a
    exact ⟨by simpa using a, b, c⟩
  · intro i hi hsite
    exact hcomplete i (by simpa using hi) hsite

theorem Post_inner (Quote : Bytes → Bytes) (file : String) (source : Bytes) (s0 : shots)
    (toks pre rest : List tok) (t : tok) (st : State) (s1 : shots) (out : Bytes)
    (d d1 : Nat) (hd1 : d1 ≠ 0)
    (hd : (d1 : Int) = (d : Int) + 1 + ((if t.token = token.Token.LPAREN then 1 else 0)
        - (if t.token = token.Token.RPAREN then 1 else 0)))
    (h : Post Quote file source s0 toks d1 (pre ++ [t]) rest st s1 out) :
    Post Quote file source s0 toks (d + 1) pre (t :: rest) st s1 out := by
  obtain ⟨seg, rest1, sites, prev, hts, _, hdd, ho, hvalid, hsites, hsorted, hcomplete, hag,
    hupd, hmono, hmark⟩ := h
  obtain ⟨seg1, closer, hseg, hct, hp, hcl⟩ := hdd hd1
  subst hts
  refine ⟨t :: seg, rest1, sites, prev, rfl, fun hc => absurd hc (by omega),
    fun _ => ⟨t :: seg1, closer, by rw [hseg]; rfl, hct, hp, closesAt_cons d d1 t seg hd hcl⟩,
    ho, hvalid, ?_, hsorted, ?_, hag, hupd, hmono, hmark⟩
  · intro p hp1
    obtain ⟨a, b, c⟩ := hsites p hp1
    simp only [List.length_append, List.length_singleton, List.length_cons] at a ⊢
    exact ⟨by omega, b, c⟩
  · intro i hi hsite
    simp only [List.length_cons] at hi
    refine hcomplete i ?_ hsite
    simp only [List.length_append, List.length_singleton]
    omega


theorem indentOf_congr (source : Bytes) (a b : Snapshot) (offset : Nat)
    (h : a.indentOk = b.indentOk) : indentOf source a offset = indentOf source b offset := by
  unfold indentOf
  rw [h]

theorem Post_rewrite (Quote : Bytes → Bytes) (file : String) (source : Bytes) (s0 : shots)
    (toks pre rest recent1 : List tok) (t : tok) (st : State) (s1 : shots) (out : Bytes)
    (shot : Snapshot) (chunk : Bytes)
    (htoks : toks = pre ++ t :: rest)
    (hag0 : Agree s0 st.shots)
    (hhead : isHead toks pre.length)
    (hg : mapGet st.shots.byLocation { file := file, line := t.line } = some shot)
    (hact : shot.hasActual = true) (hcm : shot.calledMultiple = false)
    (hslice : slice source st.prevOffset t.offset = some chunk)
    (h : Post Quote file source s0 toks 1 (pre ++ [t]) rest
      { shots := { byLocation := mapSet st.shots.byLocation { file := file, line := t.line }
                    { shot with updated := true } },
        out := st.out ++ chunk ++ [0x28]
          ++ format Quote shot.actual (indentOf source shot t.offset) ++ [0x29],
        prevOffset := st.prevOffset, recent := recent1 } s1 out) :
    Post Quote file source s0 toks 0 pre (t :: rest) st s1 out := by
  obtain ⟨seg, rest1, sites, prev, hts, _, hdd, ho, hvalid, hsites, hsorted, hcomplete, hag,
    hupd, hmono, hmark⟩ := h
  obtain ⟨seg1, closer, hseg, hct, hp, hcl⟩ := hdd (by decide)
  obtain ⟨shot0, hg0, e1, e2, e3, e4, _, _⟩ := (Agree_lookup s0 st.shots _ hag0).2 shot hg
  obtain ⟨hlo, hhi, hchunk⟩ := slice_some _ _ _ _ hslice
  have hti : tokAt toks pre.length = t := by rw [htoks]; exact tokAt_append pre t rest
  have htoks2 : toks = (pre ++ t :: seg1) ++ closer :: rest1 := by
    rw [htoks, hts, hseg]; simp
  have htj : tokAt toks (pre.length + seg.length) = closer := by
    have : pre.length + seg.length = (pre ++ t :: seg1).length := by
      rw [hseg]; simp
    rw [this, htoks2]
    exact tokAt_append _ closer rest1
  have hlen : pre.length + seg.length < toks.length := by
    rw [htoks2, hseg]; simp
  have hsegpos : 0 < seg.length := by rw [hseg]; simp
  have hspan : spanOf Quote file source s0 toks (pre.length, pre.length + seg.length)
      = (t.offset, closer.offset,
          [0x28] ++ format Quote shot.actual (indentOf source shot t.offset) ++ [0x29]) := by
    simp only [spanOf, hti, htj, hg0, e3, indentOf_congr source shot0 shot t.offset e4]
  have hsite : isSite s0 file toks pre.length :=
    ⟨by omega, hhead, shot0, by rw [hti]; exact hg0, by rw [e1, hact], by rw [e2, hcm]⟩
  have hclose : isClose toks pre.length (pre.length + seg.length) := by
    refine ⟨by omega, hlen, ?_⟩
    have : (toks.drop (pre.length + 1)).take (pre.length + seg.length - pre.length) = seg := by
      rw [htoks, hts]
      have e : pre ++ t :: (seg ++ rest1) = (pre ++ [t]) ++ (seg ++ rest1) := by simp
      rw [e, List.drop_left' (by simp)]
      simp
    rw [this]; exact hcl
  refine ⟨[], t :: rest, (pre.length, pre.length + seg.length) :: sites, st.prevOffset, rfl,
    fun _ => ⟨rfl, rfl⟩, fun hc => absurd rfl hc, ?_, ?_, ?_, ?_, ?_, hag, ?_, ?_, ?_⟩
  · rw [ho, List.map_cons, hspan]
    simp only [splice, hchunk, hp, List.append_assoc]
  · rw [List.map_cons, hspan]
    exact ⟨hlo, hhi, by rw [← hp]; exact hvalid⟩
  · intro p hp1
    rcases List.mem_cons.1 hp1 with hp1 | hp1
    · subst hp1
      exact ⟨by simp, hsite, hclose⟩
    · obtain ⟨a, b, c⟩ := hsites p hp1
      simp only [List.length_append, List.length_singleton] at a
      exact ⟨by simp only [List.length_nil]; omega, b, c⟩
  · rw [List.pairwise_cons]
    refine ⟨?_, hsorted⟩
    intro q hq
    have := (hsites q hq).1
    simp only [List.length_append, List.length_singleton] at this
    show pre.length + seg.length < q.1
    omega
  · intro i hi hs
    by_cases hij : i ≤ pre.length + seg.length
    · exact ⟨_, List.mem_cons_self _ _, by simpa using hi, hij⟩
    · have hi2 : (pre ++ [t]).length + seg.length ≤ i := by
        simp only [List.length_append, List.length_singleton]; omega
      obtain ⟨p, hp1, hp2⟩ := hcomplete i hi2 hs
      exact ⟨p, List.mem_cons_of_mem _ hp1, hp2⟩
  · intro l shot1 hg1 hu
    rcases hupd l shot1 hg1 hu with ⟨sh, hsh, hshu⟩ | ⟨p, hp1, hp2⟩
    · by_cases hl : l = { file := file, line := t.line }
      · right
        exact ⟨_, List.mem_cons_self _ _, by rw [hl, hti]⟩
      · left
        simp only at hsh
        rw [mapGet_mapSet_ne _ _ _ _ hl] at hsh
        exact ⟨sh, hsh, hshu⟩
    · right
      exact ⟨p, List.mem_cons_of_mem _ hp1, hp2⟩
  · intro l sh hsh hu
    by_cases hl : l = { file := file, line := t.line }
    · subst hl
      exact hmono _ { shot with updated := true } (mapGet_mapSet_self _ _ _) rfl
    · refine hmono l sh ?_ hu
      simp only
      rw [mapGet_mapSet_ne _ _ _ _ hl]
      exact hsh
  · intro p hp1
    rcases List.mem_cons.1 hp1 with hp1 | hp1
    · subst hp1
      simp only [hti]
      exact hmono _ { shot with updated := true } (mapGet_mapSet_self _ _ _) rfl
    · exact hmark p hp1


theorem Post_finish (Quote : Bytes → Bytes) (file : String) (source : Bytes) (s0 : shots)
    (toks pre : List tok) (st : State) (s1 : shots) (out : Bytes)
    (htoks : toks = pre ++ [])
    (hag : Agree s0 st.shots)
    (h : finish source st = (s1, .ok out)) :
    Post Quote file source s0 toks 0 pre [] st s1 out := by
  unfold finish at h
  cases hs : slice source st.prevOffset source.length with
  | none => rw [hs] at h; simp at h
  | some chunk =>
    rw [hs] at h
    simp only [Prod.mk.injEq, Except.ok.injEq] at h
    obtain ⟨h1, h2⟩ := h
    obtain ⟨hlo, _, hchunk⟩ := slice_some _ _ _ _ hs
    subst h1
    refine ⟨[], [], [], st.prevOffset, rfl, fun _ => ⟨rfl, rfl⟩, fun hc => absurd rfl hc,
      ?_, hlo, ?_, List.Pairwise.nil, ?_, hag, ?_, ?_, ?_⟩
    · rw [← h2, hchunk]; simp [splice]
    · intro p hp; simp at hp
    · intro i hi hsite
      have := hsite.1
      rw [htoks] at this
      simp only [List.length_nil, Nat.add_zero, List.append_nil] at hi this
      omega
    · intro l shot1 hg hu; exact Or.inl ⟨shot1, hg, hu⟩
    · intro l shot hg hu; exact ⟨shot, hg, hu⟩
    · intro p hp; simp at hp


theorem scanLoop_post (Quote : Bytes → Bytes) (file : String) (source : Bytes)
    (err : Option String) (s0 : shots) (toks : List tok)
    (hEOF : ∀ t ∈ toks, t.token ≠ token.Token.EOF) :
    ∀ (ts : List tok) (depth : Nat) (pre : List tok) (st : State) (s1 : shots) (out : Bytes),
      toks = pre ++ ts → Agree s0 st.shots →
      (depth = 0 → WinInv pre st.recent) →
      (depth ≠ 0 → st.recent = matchToks) →
      scanLoop Quote file source err depth st ts = (s1, .ok out) →
      Post Quote file source s0 toks depth pre ts st s1 out := by
  intro ts
  induction ts with
  | nil =>
    intro depth pre st s1 out htoks hag hw hr hrun
    cases depth with
    | zero =>
      simp only [scanLoop] at hrun
      cases err with
      | some msg => simp at hrun
      | none => exact Post_finish Quote file source s0 toks pre st s1 out htoks hag hrun
    | succ d =>
      simp only [scanLoop] at hrun
      cases err <;> simp at hrun
  | cons t rest ih =>
    intro depth pre st s1 out htoks hag hw hr hrun
    have htmem : t ∈ toks := by rw [htoks]; simp
    have hteof := hEOF t htmem
    have htoks1 : toks = (pre ++ [t]) ++ rest := by rw [htoks]; simp
    cases depth with
    | zero =>
      rw [scanLoop] at hrun
      simp only [hteof, if_false] at hrun
      have hwin := WinInv_step pre st.recent t (hw rfl)
      have hhead : isHead toks pre.length ↔
          st.recent.drop 1 ++ [tokKey t] = matchToks := by
        unfold isHead
        rw [htoks, take_append_succ]
        exact hwin.2.symm
      by_cases hm : st.recent.drop 1 ++ [tokKey t] = matchToks
      · have hm1 : (List.drop 1 st.recent ++
            [{ token := t.token, literal := t.literal, line := 0, offset := 0 }]) = matchToks :=
          hm
        simp only [hm1, ne_eq, not_true_eq_false, if_false] at hrun
        have hskip : ∀ (hno : ¬ isSite s0 file toks pre.length)
            (hrun1 : scanLoop Quote file source err 0
              { st with recent := matchToks } rest = (s1, .ok out)),
            Post Quote file source s0 toks 0 pre (t :: rest) st s1 out := by
          intro hno hrun1
          refine Post_skip Quote file source s0 toks pre rest t st
            { st with recent := matchToks } s1 out htoks rfl rfl rfl hno
            (ih 0 (pre ++ [t]) _ s1 out htoks1 hag (fun _ => ?_) (fun hc => absurd rfl hc)
              hrun1)
          have := hwin.1
          rw [hm] at this
          exact this
        have hti : tokAt toks pre.length = t := by rw [htoks]; exact tokAt_append pre t rest
        cases hg : mapGet st.shots.byLocation { file := file, line := t.line } with
        | none =>
          rw [hg] at hrun
          refine hskip ?_ hrun
          rintro ⟨_, _, shot0, hg0, _, _⟩
          have hn := (Agree_lookup s0 st.shots _ hag).1.1 hg
          rw [hti, hn] at hg0
          cases hg0
        | some shot =>
          rw [hg] at hrun
          simp only at hrun
          obtain ⟨shot0, hg0, e1, e2, _⟩ := (Agree_lookup s0 st.shots _ hag).2 shot hg
          by_cases hq : (!shot.hasActual || shot.calledMultiple) = true
          · simp only [hq, if_true] at hrun
            refine hskip ?_ hrun
            rintro ⟨_, _, shot2, hg2, ha2, hc2⟩
            rw [hti, hg0] at hg2
            cases hg2
            rw [e1] at ha2
            rw [e2] at hc2
            simp [ha2, hc2] at hq
          · simp only [hq, if_false] at hrun
            have hact : shot.hasActual = true := by
              cases h1 : shot.hasActual <;> simp [h1] at hq ⊢
            have hcm : shot.calledMultiple = false := by
              cases h1 : shot.calledMultiple <;> simp [h1] at hq ⊢
            cases hs : slice source st.prevOffset t.offset with
            | none => rw [hs] at hrun; simp at hrun
            | some chunk =>
              rw [hs] at hrun
              simp only at hrun
              exact Post_rewrite Quote file source s0 toks pre rest matchToks t st s1 out shot
                chunk htoks hag (hhead.2 hm) hg hact hcm hs
                (ih 1 (pre ++ [t]) _ s1 out htoks1 (Agree_mark s0 st.shots _ shot hag hg)
                  (fun hc => absurd hc (by decide)) (fun _ => rfl) hrun)
      · have hm1 : (List.drop 1 st.recent ++
            [{ token := t.token, literal := t.literal, line := 0, offset := 0 }]) ≠ matchToks :=
          hm
        simp only [hm1, ne_eq, not_false_eq_true, if_true] at hrun
        refine Post_skip Quote file source s0 toks pre rest t st
          { st with recent := st.recent.drop 1 ++ [tokKey t] } s1 out htoks rfl rfl rfl ?_
          (ih 0 (pre ++ [t]) _ s1 out htoks1 hag (fun _ => hwin.1) (fun hc => absurd rfl hc)
            hrun)
        intro hsite
        exact hm (hhead.1 hsite.2.1)
    | succ d =>
      rw [scanLoop] at hrun
      simp only [hteof, if_false] at hrun
      by_cases hl : t.token = token.Token.LPAREN
      · simp only [hl] at hrun
        simp only [Nat.add_eq_zero, OfNat.ofNat_ne_zero, and_false, if_false] at hrun
        refine Post_inner Quote file source s0 toks pre rest t st s1 out d (d + 2) (by omega)
          ?_ (ih (d + 2) (pre ++ [t]) st s1 out htoks1 hag (fun hc => absurd hc (by omega))
            (fun _ => hr (by omega)) hrun)
        simp [hl]
        ring
      · by_cases hrp : t.token = token.Token.RPAREN
        · simp only [hrp] at hrun
          by_cases hd0 : d = 0
          · subst hd0
            simp only [if_true] at hrun
            exact Post_close Quote file source s0 toks pre rest t st s1 out hrp
              (ih 0 (pre ++ [t]) _ s1 out htoks1 hag
                (fun _ => by
                  have := WinInv_close pre t hrp
                  rw [hr (by decide)]
                  exact this)
                (fun hc => absurd rfl hc) hrun)
          · simp only [hd0, if_false] at hrun
            refine Post_inner Quote file source s0 toks pre rest t st s1 out d d hd0
              ?_ (ih d (pre ++ [t]) st s1 out htoks1 hag (fun hc => absurd hc hd0)
                (fun _ => hr (by omega)) hrun)
            simp [hrp]
        · have hrun1 : scanLoop Quote file source err (d + 1) st rest = (s1, .ok out) := by
            generalize t.token = k at hrun hl hrp
            cases k <;> first | exact absurd rfl hl | exact absurd rfl hrp | simpa using hrun
          refine Post_inner Quote file source s0 toks pre rest t st s1 out d (d + 1) (by omega)
            ?_ (ih (d + 1) (pre ++ [t]) st s1 out htoks1 hag (fun hc => absurd hc (by omega))
              (fun _ => hr (by omega)) hrun1)
          simp [hl, hrp]

end snap

namespace snap

theorem scanLoop_rewrites (Quote : Bytes → Bytes) (file : String) (source : Bytes)
    (err : Option String) (s : shots) (toks : List tok) (s1 : shots) (out : Bytes)
    (hEOF : ∀ t ∈ toks, t.token ≠ token.Token.EOF)
    (h : scanLoop Quote file source err 0
      { shots := s, out := [], prevOffset := 0, recent := recentZero } toks = (s1, .ok out)) :
    Post Quote file source s toks 0 [] toks
      { shots := s, out := [], prevOffset := 0, recent := recentZero } s1 out :=
  scanLoop_post Quote file source err s toks hEOF toks 0 [] _ s1 out rfl (Agree_refl s)
    (fun _ => WinInv_init) (fun hc => absurd rfl hc) h

theorem Post_outer (Quote : Bytes → Bytes) (file : String) (source : Bytes)
    (s : shots) (toks : List tok) (s1 : shots) (out : Bytes)
    (h : Post Quote file source s toks 0 [] toks
      { shots := s, out := [], prevOffset := 0, recent := recentZero } s1 out) :
    RewritesOuterSites Quote file source s toks out := by
  obtain ⟨seg, rest, sites, prev, _, h0, _, ho, hvalid, hsites, hsorted, hcomplete, _⟩ := h
  obtain ⟨hseg, hp⟩ := h0 rfl
  subst hseg
  simp only at hp
  subst hp
  refine ⟨sites, by simpa using ho, hvalid, fun p hp => (hsites p hp).2, hsorted, ?_⟩
  intro i hi
  exact hcomplete i (by simp) hi

/-- What `updateFile` returns in terms of its scan loop. -/
theorem updateFile_ok (Quote : Bytes → Bytes) (Scan : String → Bytes → Scanned)
    (s : shots) (fs : os.FileSystem) (file : String) (source : Bytes)
    (hread : fs.read file = some source)
    (hok : (updateFile Quote Scan s fs file).2.2 = none) :
    ∃ out, scanLoop Quote file source (Scan file source).err 0
        { shots := s, out := [], prevOffset := 0, recent := recentZero } (Scan file source).toks
        = ((updateFile Quote Scan s fs file).1, .ok out) ∧
      (updateFile Quote Scan s fs file).2.1.read file = some out := by
  unfold updateFile at hok ⊢
  simp only [hread] at hok ⊢
  cases hrun : scanLoop Quote file source (Scan file source).err 0
      { shots := s, out := [], prevOffset := 0, recent := recentZero }
      (Scan file source).toks with
  | mk s1 res =>
    rw [hrun] at hok
    cases res with
    | error e => simp at hok
    | ok out =>
      simp only at hok ⊢
      by_cases hne : out = source
      · exact ⟨out, by simp [hne], by simp [hne, hread]⟩
      · simp only [ne_eq, hne, not_false_eq_true, if_true] at hok ⊢
        unfold os.FileSystem.write at hok ⊢
        by_cases hw : fs.canWrite file = true
        · exact ⟨out, by simp [hw], by simp [hw]⟩
        · simp [hw] at hok

end snap

/-- C1 (amended): when `updateFile` succeeds on a file, the file then holds the
source in which, for every call site that is not inside the parentheses of a
rewritten call (a `snap.Source(` whose opening-parenthesis line has a record
with `hasActual` set and `calledMultiple` unset), exactly the span from the
opening parenthesis through its matching closing parenthesis is replaced by the
formatted actual value in parentheses; every other byte is copied in order. -/
theorem updateFile_output (Quote : Bytes → Bytes) (Scan : String → Bytes → snap.Scanned)
    (s : snap.shots) (fs : os.FileSystem) (file : String) (source : Bytes)
    (hread : fs.read file = some source)
    (hEOF : ∀ t ∈ (Scan file source).toks, t.token ≠ token.Token.EOF)
    (hok : (snap.updateFile Quote Scan s fs file).2.2 = none) :
    ∃ out, (snap.updateFile Quote Scan s fs file).2.1.read file = some out ∧
      snap.RewritesOuterSites Quote file source s (Scan file source).toks out := by
  obtain ⟨out, hrun, hfile⟩ := snap.updateFile_ok Quote Scan s fs file source hread hok
  exact ⟨out, hfile, snap.Post_outer Quote file source s _ _ out
    (snap.scanLoop_rewrites Quote file source _ s _ _ out hEOF hrun)⟩

/-- C1 (amended) at the call of the package documentation. -/
theorem updateFile_output_witness :
    ∃ out, (snap.updateFile id (snap.scanned snap.docToks) snap.docShots
        (os.oneFile "x_test.go" snap.docSource) "x_test.go").2.1.read "x_test.go" = some out ∧
      snap.RewritesOuterSites id "x_test.go" snap.docSource snap.docShots snap.docToks out :=
  updateFile_output id (snap.scanned snap.docToks) snap.docShots
    (os.oneFile "x_test.go" snap.docSource) "x_test.go" snap.docSource
    (by decide) (by decide) (by decide)

namespace snap

theorem pairwise_either {α : Type} (R : α → α → Prop) (l : List α) (h : l.Pairwise R)
    (a b : α) (ha : a ∈ l) (hb : b ∈ l) (hne : a ≠ b) : R a b ∨ R b a := by
  have h1 : l.Pairwise (fun x y => R x y ∨ R y x) := h.imp (fun hxy => Or.inl hxy)
  exact h1.forall (fun x y hxy => hxy.symm) ha hb hne

theorem nested_site_outer : isSite nestedShots "x_test.go" nestedToks 3 :=
  ⟨by decide, ⟨[], by decide⟩, _, rfl, rfl, rfl⟩

theorem nested_site_inner : isSite nestedShots "x_test.go" nestedToks 9 :=
  ⟨by decide, ⟨(nestedToks.take 6).map tokKey, by decide⟩, _, rfl, rfl, rfl⟩

end snap

/-- C1 as stated fails on a call nested inside a rewritten call: both calls are
`snap.Source(` sequences whose line has a record compared once, `updateFile`
succeeds, and the output replaces the span of the outer call only. -/
theorem updateFile_nested_call :
    (snap.updateFile id (snap.scanned snap.nestedToks) snap.nestedShots
      (os.oneFile "x_test.go" snap.nestedSource) "x_test.go").2.2 = none ∧
    (snap.updateFile id (snap.scanned snap.nestedToks) snap.nestedShots
      (os.oneFile "x_test.go" snap.nestedSource) "x_test.go").2.1.read "x_test.go"
      = some (ascii "snap.Source(\x60a\x60)\n") ∧
    ¬ snap.RewritesAllSites id "x_test.go" snap.nestedSource snap.nestedShots
      snap.nestedToks (ascii "snap.Source(\x60a\x60)\n") := by
  refine ⟨by decide, by decide, ?_⟩
  rintro ⟨sites, _, _, hs, hp, hall⟩
  obtain ⟨p, hpm, hp1⟩ := hall 3 snap.nested_site_outer
  obtain ⟨q, hqm, hq1⟩ := hall 9 snap.nested_site_inner
  have hne : p ≠ q := by
    intro h; rw [h, hq1] at hp1; exact absurd hp1 (by decide)
  obtain ⟨hpl, hpu, hpc⟩ := (hs p hpm).2
  obtain ⟨hql, hqu, hqc⟩ := (hs q hqm).2
  rcases snap.pairwise_either _ sites hp p q hpm hqm hne with h | h
  · rw [hq1] at h
    rw [hp1] at hpl hpc
    have hb := hpc.1
    generalize p.2 = j at h hpl hb
    interval_cases j <;> revert hb <;> decide
  · omega

namespace snap

theorem isHead_lparen (toks : List tok) (i : Nat) (hi : i < toks.length)
    (h : isHead toks i) : (tokAt toks i).token = token.Token.LPAREN := by
  unfold isHead at h
  obtain ⟨pre, rest, hsplit, hlen⟩ : ∃ pre rest, toks = pre ++ tokAt toks i :: rest ∧
      pre.length = i := by
    refine ⟨toks.take i, toks.drop (i + 1), ?_, by simp; omega⟩
    have : tokAt toks i = toks[i] := by
      simp [tokAt, List.getD_eq_getElem?_getD, hi]
    rw [this]
    simp
  subst hlen
  rw [hsplit, take_append_succ] at h
  have hm : matchToks = matchToks.take 3 ++
      [{ token := token.Token.LPAREN, literal := [], line := 0, offset := 0 }] := by decide
  rw [hm, List.map_append, List.map_cons, List.map_nil] at h
  have := ((suffix_concat_iff _ _ _ _).1 h).2
  have h2 := congrArg tok.token this
  simp only [tokKey] at h2
  exact h2.symm

theorem balance_append (a b : List tok) : balance (a ++ b) = balance a + balance b := by
  unfold balance
  simp only [List.countP_append]
  push_cast
  ring

theorem closesAt_last (seg : List tok) (x : tok) (h : closesAt 1 (seg ++ [x])) :
    x.token = token.Token.RPAREN := by
  have h1 := h.1
  have h2 := h.2 seg (List.prefix_append _ _) (by simp)
  rw [balance_append, balance_cons, balance_nil] at h1
  by_contra hx
  simp only [hx, if_false] at h1
  split_ifs at h1 <;> omega

theorem isClose_rparen (toks : List tok) (i j : Nat) (h : isClose toks i j) :
    (tokAt toks j).token = token.Token.RPAREN := by
  obtain ⟨hij, hj, hc⟩ := h
  have hseg : (toks.drop (i + 1)).take (j - i) =
      (toks.drop (i + 1)).take (j - i - 1) ++ [tokAt toks j] := by
    have hj2 : j - i - 1 < (toks.drop (i + 1)).length := by simp; omega
    have e : j - i = (j - i - 1) + 1 := by omega
    rw [e, List.take_succ, Nat.add_sub_cancel]
    congr 1
    rw [List.getElem?_drop]
    have e2 : i + 1 + (j - i - 1) = j := by omega
    rw [e2]
    simp [tokAt, List.getD_eq_getElem?_getD, hj]
  rw [hseg] at hc
  exact closesAt_last _ _ hc

theorem tokAt_mem (toks : List tok) (i : Nat) (hi : i < toks.length) :
    tokAt toks i ∈ toks := by
  unfold tokAt
  rw [List.getD_eq_getElem?_getD, List.getElem?_eq_getElem hi]
  exact List.getElem_mem hi

theorem tokAt_offset_lt (toks : List tok) (i j : Nat) (hij : i < j) (hj : j < toks.length)
    (h : toks.Pairwise (fun a b => a.offset < b.offset)) :
    (tokAt toks i).offset < (tokAt toks j).offset := by
  have hi : i < toks.length := by omega
  unfold tokAt
  rw [List.getD_eq_getElem?_getD, List.getElem?_eq_getElem hi,
    List.getD_eq_getElem?_getD, List.getElem?_eq_getElem hj]
  exact (List.pairwise_iff_getElem.1 h) i j hi hj hij

end snap

namespace snap

theorem drop_split (l : Bytes) (a b : Nat) (hab : a ≤ b) (hb : b ≤ l.length) :
    l.drop a = (l.take b).drop a ++ l.drop b := by
  conv_lhs => rw [← List.take_append_drop b l]
  rw [List.drop_append_of_le_length (by simp; omega)]

theorem slice_infix (source : Bytes) (lo hi A B : Nat) (h1 : lo ≤ A) (h2 : A ≤ B + 1)
    (h3 : B + 1 ≤ hi) (h4 : hi ≤ source.length) :
    (source.take (B + 1)).drop A <:+: (source.take hi).drop lo := by
  refine ⟨(source.take A).drop lo, (source.take hi).drop (B + 1), ?_⟩
  have e1 := drop_split (source.take hi) lo A h1 (by simp; omega)
  have e2 := drop_split (source.take hi) A (B + 1) h2 (by simp; omega)
  rw [List.take_take] at e1 e2
  rw [Nat.min_eq_left (by omega)] at e1
  rw [Nat.min_eq_left (by omega)] at e2
  rw [e1, e2]
  simp

theorem splice_infix (source : Bytes) (A B : Nat) (hAB : A ≤ B) (hB : B < source.length) :
    ∀ (spans : List (Nat × Nat × Bytes)) (prev : Nat),
      validSpans source prev spans → prev ≤ A →
      (∀ sp ∈ spans, sp.2.1 < A ∨ B < sp.1) →
      (source.take (B + 1)).drop A <:+: splice source prev spans := by
  intro spans
  induction spans with
  | nil =>
    intro prev _ hp _
    have := slice_infix source prev source.length A B hp (by omega) (by omega) (le_refl _)
    simpa [splice] using this
  | cons sp rest ih =>
    intro prev hv hp hsp
    obtain ⟨hlo, hhi, hv1⟩ := hv
    rw [splice]
    rcases hsp sp (List.mem_cons_self _ _) with h | h
    · have := ih (sp.2.1 + 1) hv1 (by omega) (fun q hq => hsp q (List.mem_cons_of_mem _ hq))
      exact this.trans ⟨(source.take sp.1).drop prev ++ sp.2.2, [], by simp⟩
    · have := slice_infix source prev sp.1 A B hp (by omega) (by omega) hhi
      exact this.trans ⟨[], sp.2.2 ++ splice source (sp.2.1 + 1) rest, by simp⟩

theorem Frame_mark (s : shots) (l : location) (shot : Snapshot)
    (hg : mapGet s.byLocation l = some shot) (ha : shot.hasActual = true)
    (hc : shot.calledMultiple = false) :
    Frame s { byLocation := mapSet s.byLocation l { shot with updated := true } } := by
  constructor
  · intro l1 h1
    have hne : l1 ≠ l := by
      intro e; rw [e, hg] at h1; cases h1
    simp only
    rw [mapGet_mapSet_ne _ _ _ _ hne]
    exact h1
  · intro l1 sh h1 hq
    have hne : l1 ≠ l := by
      intro e
      rw [e, hg] at h1
      cases h1
      rcases hq with hq | hq
      · rw [ha] at hq; cases hq
      · rw [hc] at hq; cases hq
    simp only
    rw [mapGet_mapSet_ne _ _ _ _ hne]
    exact h1

theorem Frame_trans (a b c : shots) (h1 : Frame a b) (h2 : Frame b c) : Frame a c :=
  ⟨fun l h => h2.1 l (h1.1 l h), fun l shot h hq => h2.2 l shot (h1.2 l shot h hq) hq⟩

theorem Frame_refl (a : shots) : Frame a a := ⟨fun _ h => h, fun _ _ h _ => h⟩

theorem scanLoop_frame_aux (Quote : Bytes → Bytes) (file : String) (source : Bytes)
    (err : Option String) :
    ∀ (ts : List tok) (depth : Nat) (st : State) (s : shots), s = st.shots →
      Frame s (scanLoop Quote file source err depth st ts).1 := by
  intro ts
  induction ts with
  | nil =>
    intro depth st s hs
    subst hs
    cases depth with
    | zero =>
      simp only [scanLoop]
      cases err with
      | some msg => exact Frame_refl _
      | none =>
        simp only [finish]
        split <;> exact Frame_refl _
    | succ d =>
      simp only [scanLoop]
      cases err <;> exact Frame_refl _
  | cons t rest ih =>
    intro depth st s hs
    subst hs
    cases depth with
    | zero =>
      rw [scanLoop]
      split
      · simp only [finish]
        split <;> exact Frame_refl _
      · simp only
        split
        · exact ih 0 _ _ rfl
        · split
          · exact ih 0 _ _ rfl
          · rename_i shot hg
            split
            · exact ih 0 _ _ rfl
            · rename_i hq
              have hact : shot.hasActual = true := by
                cases h1 : shot.hasActual <;> simp [h1] at hq ⊢
              have hcm : shot.calledMultiple = false := by
                cases h1 : shot.calledMultiple <;> simp [h1] at hq ⊢
              have hf := Frame_mark st.shots _ shot hg hact hcm
              split
              · exact hf
              · exact Frame_trans _ _ _ hf (ih 1 _ _ rfl)
    | succ d =>
      rw [scanLoop]
      split
      · exact Frame_refl _
      · simp only
        split
        · exact ih 0 _ _ rfl
        · exact ih _ _ _ rfl

theorem scanLoop_frame (Quote : Bytes → Bytes) (file : String) (source : Bytes)
    (err : Option String) (ts : List tok) (depth : Nat) (st : State) :
    Frame st.shots (scanLoop Quote file source err depth st ts).1 :=
  scanLoop_frame_aux Quote file source err ts depth st _ rfl

theorem spanOf_fst (Quote : Bytes → Bytes) (file : String) (source : Bytes) (s : shots)
    (toks : List tok) (p : Nat × Nat) :
    (spanOf Quote file source s toks p).1 = (tokAt toks p.1).offset ∧
    (spanOf Quote file source s toks p).2.1 = (tokAt toks p.2).offset := by
  simp only [spanOf]
  cases h : mapGet s.byLocation { file := file, line := (tokAt toks p.1).line } <;>
    exact ⟨rfl, rfl⟩

theorem closesAt_of_take (d : Nat) (seg : List tok) (h1 : (d : Int) + balance seg = 0)
    (h2 : ∀ n, n < seg.length → 0 < (d : Int) + balance (seg.take n)) : closesAt d seg := by
  refine ⟨h1, ?_⟩
  intro p hp hne
  have hlen : p.length < seg.length := by
    rcases Nat.lt_or_ge p.length seg.length with h | h
    · exact h
    · exact absurd (List.IsPrefix.eq_of_length_le hp h) hne
  have := h2 p.length hlen
  rw [← List.prefix_iff_eq_take.1 hp] at this
  exact this

theorem rewrites_copy (Quote : Bytes → Bytes) (file : String) (source : Bytes)
    (s : shots) (toks : List tok) (out : Bytes) (hscan : ScannedAt source toks)
    (h : RewritesOuterSites Quote file source s toks out) :
    CopiesUntouchedCalls Quote file source s toks out := by
  obtain ⟨sites, ho, hvalid, hsites, hsorted, hcomplete⟩ := h
  refine ⟨sites, ho, hsites, hsorted, hcomplete, ?_⟩
  intro i j hi _ hclose _ hfree
  have hB : (tokAt toks j).offset < source.length := by
    have hg := (hscan.2 _ (tokAt_mem toks j hclose.2.1)).2 (isClose_rparen toks i j hclose)
    by_contra hn
    rw [List.get?_eq_none.2 (by omega)] at hg
    cases hg
  have hAB := tokAt_offset_lt toks i j hclose.1 hclose.2.1 hscan.1
  rw [ho]
  unfold callText
  refine splice_infix source _ _ (le_of_lt hAB) hB _ 0 hvalid (Nat.zero_le _) ?_
  intro sp hsp
  obtain ⟨p, hp, rfl⟩ := List.mem_map.1 hsp
  obtain ⟨e1, e2⟩ := spanOf_fst Quote file source s toks p
  rw [e1, e2]
  rcases hfree p hp with h | h
  · exact Or.inl (tokAt_offset_lt toks p.2 i h hi hscan.1)
  · exact Or.inr (tokAt_offset_lt toks j p.1 h (hsites p hp).1.1 hscan.1)

theorem updateFile_registry_frame (Quote : Bytes → Bytes) (Scan : String → Bytes → Scanned)
    (s : shots) (fs : os.FileSystem) (file : String) :
    Frame s (updateFile Quote Scan s fs file).1 := by
  unfold updateFile
  cases hread : fs.read file with
  | none => exact Frame_refl _
  | some source =>
    simp only
    have hf := scanLoop_frame Quote file source (Scan file source).err (Scan file source).toks 0
      { shots := s, out := [], prevOffset := 0, recent := recentZero }
    revert hf
    cases scanLoop Quote file source (Scan file source).err 0
      { shots := s, out := [], prevOffset := 0, recent := recentZero }
      (Scan file source).toks with
    | mk s1 res =>
      intro hf
      cases res with
      | error e => exact hf
      | ok out =>
        simp only
        split
        · split <;> exact hf
        · exact hf

end snap

/-- C6 (amended): `updateFile` leaves every record that has no actual value or
was compared more than once as it is, so it does not set the `updated` flag of
such a record, and adds no record.  When it succeeds on a file whose tokens are
at their places in the source, the parenthesised text of a `snap.Source(` call
whose line has no record to write is copied into the output, unless the span of
a rewritten call overlaps it: the call lies inside the parentheses of a
rewritten call, or a call inside its own parentheses is rewritten. -/
theorem updateFile_skips (Quote : Bytes → Bytes) (Scan : String → Bytes → snap.Scanned)
    (s : snap.shots) (fs : os.FileSystem) (file : String) (source : Bytes)
    (hread : fs.read file = some source)
    (hEOF : ∀ t ∈ (Scan file source).toks, t.token ≠ token.Token.EOF)
    (hscan : snap.ScannedAt source (Scan file source).toks) :
    snap.Frame s (snap.updateFile Quote Scan s fs file).1 ∧
    ((snap.updateFile Quote Scan s fs file).2.2 = none →
      ∃ out, (snap.updateFile Quote Scan s fs file).2.1.read file = some out ∧
        snap.CopiesUntouchedCalls Quote file source s (Scan file source).toks out) := by
  refine ⟨snap.updateFile_registry_frame Quote Scan s fs file, ?_⟩
  intro hok
  obtain ⟨out, hrun, hfile⟩ := snap.updateFile_ok Quote Scan s fs file source hread hok
  exact ⟨out, hfile, snap.rewrites_copy Quote file source s _ out hscan
    (snap.Post_outer Quote file source s _ _ out
      (snap.scanLoop_rewrites Quote file source _ s _ _ out hEOF hrun))⟩

/-- C6 (amended) at the nested calls with a record on line 2 only. -/
theorem updateFile_skips_witness :
    snap.Frame snap.innerShots
      (snap.updateFile id (snap.scanned snap.nestedToks) snap.innerShots
        (os.oneFile "x_test.go" snap.nestedSource) "x_test.go").1 ∧
    ((snap.updateFile id (snap.scanned snap.nestedToks) snap.innerShots
        (os.oneFile "x_test.go" snap.nestedSource) "x_test.go").2.2 = none →
      ∃ out, (snap.updateFile id (snap.scanned snap.nestedToks) snap.innerShots
          (os.oneFile "x_test.go" snap.nestedSource) "x_test.go").2.1.read "x_test.go"
          = some out ∧
        snap.CopiesUntouchedCalls id "x_test.go" snap.nestedSource snap.innerShots
          snap.nestedToks out) :=
  updateFile_skips id (snap.scanned snap.nestedToks) snap.innerShots
    (os.oneFile "x_test.go" snap.nestedSource) "x_test.go" snap.nestedSource
    (by decide) (by decide) ⟨by decide, by decide⟩

/-- C6 as stated fails on a call whose line has no record and whose parentheses
hold a call that is rewritten: `updateFile` succeeds and the text of the outer
call is not in the output. -/
theorem updateFile_rewrites_inside_skipped :
    (snap.updateFile id (snap.scanned snap.nestedToks) snap.innerShots
      (os.oneFile "x_test.go" snap.nestedSource) "x_test.go").2.2 = none ∧
    (snap.updateFile id (snap.scanned snap.nestedToks) snap.innerShots
      (os.oneFile "x_test.go" snap.nestedSource) "x_test.go").2.1.read "x_test.go"
      = some (ascii "snap.Source(f(\nsnap.Source(\x60b\x60)))\n") ∧
    ¬ snap.CopiesSkippedCalls "x_test.go" snap.nestedSource snap.innerShots snap.nestedToks
      (ascii "snap.Source(f(\nsnap.Source(\x60b\x60)))\n") := by
  refine ⟨by decide, by decide, ?_⟩
  intro h
  have hclose : snap.isClose snap.nestedToks 3 13 :=
    ⟨by decide, by decide, snap.closesAt_of_take 1 _ (by decide) (by decide)⟩
  have hskip : snap.isSkipped snap.innerShots "x_test.go" snap.nestedToks 3 := by
    intro shot hg
    have hn : snap.mapGet snap.innerShots.byLocation
        { file := "x_test.go", line := (snap.tokAt snap.nestedToks 3).line } = none := by
      decide
    rw [hn] at hg
    cases hg
  exact absurd (h 3 13 (by decide) ⟨[], by decide⟩ hclose hskip) (by decide)

namespace snap

theorem mapGet_mem (m : List (location × Snapshot)) (l : location) (v : Snapshot)
    (h : mapGet m l = some v) : (l, v) ∈ m := by
  induction m with
  | nil => simp [mapGet] at h
  | cons e rest ih =>
    unfold mapGet at h
    split_ifs at h with he
    · simp only [Option.some.injEq] at h
      subst h; subst he
      exact List.mem_cons_self _ _
    · exact List.mem_cons_of_mem _ (ih h)

theorem forget_eq (a b : Snapshot) (h : forget a = forget b) (hu : a.updated = b.updated) :
    a = b := by
  cases a; cases b
  simp only [forget, Snapshot.mk.injEq] at h ⊢
  simp only at hu
  tauto

theorem Post_unmarked (Quote : Bytes → Bytes) (file : String) (source : Bytes)
    (s : shots) (toks : List tok) (s1 : shots) (out : Bytes)
    (h : Post Quote file source s toks 0 [] toks
      { shots := s, out := [], prevOffset := 0, recent := recentZero } s1 out)
    (l : location) (shot : Snapshot) (hg : mapGet s.byLocation l = some shot)
    (hu : shot.updated = false)
    (hno : ∀ i, i < toks.length → isHead toks i →
      ({ file := file, line := (tokAt toks i).line } : location) ≠ l) :
    mapGet s1.byLocation l = some shot := by
  obtain ⟨seg, rest, sites, prev, _, _, _, _, _, hsites, _, _, hag, hupd, _, _⟩ := h
  have h2 := hag.2 l
  rw [hg] at h2
  cases hg1 : mapGet s1.byLocation l with
  | none => rw [hg1] at h2; simp at h2
  | some shot1 =>
    rw [hg1] at h2
    simp only [Option.map_some', Option.some.injEq] at h2
    have hu1 : shot1.updated = false := by
      cases hb : shot1.updated with
      | false => rfl
      | true =>
        rcases hupd l shot1 hg1 hb with ⟨sh, hsh, hshu⟩ | ⟨p, hp, hl⟩
        · simp only at hsh
          rw [hg] at hsh
          cases hsh
          rw [hu] at hshu
          cases hshu
        · obtain ⟨⟨hi, hhead, _⟩, _⟩ := (hsites p hp).2
          exact absurd hl.symm (hno p.1 hi hhead)
    rw [forget_eq shot1 shot h2 (by rw [hu1, hu])]

theorem updateFile_unmarked (Quote : Bytes → Bytes) (Scan : String → Bytes → Scanned)
    (s : shots) (fs : os.FileSystem) (file : String)
    (hEOF : ∀ source, ∀ t ∈ (Scan file source).toks, t.token ≠ token.Token.EOF)
    (hok : (updateFile Quote Scan s fs file).2.2 = none)
    (l : location) (shot : Snapshot) (hg : mapGet s.byLocation l = some shot)
    (hu : shot.updated = false)
    (hno : ∀ source, fs.read file = some source → ∀ i, i < (Scan file source).toks.length →
      isHead (Scan file source).toks i →
      ({ file := file, line := (tokAt (Scan file source).toks i).line } : location) ≠ l) :
    mapGet (updateFile Quote Scan s fs file).1.byLocation l = some shot := by
  cases hread : fs.read file with
  | none => simp [updateFile, hread] at hok
  | some source =>
    obtain ⟨out, hrun, _⟩ := updateFile_ok Quote Scan s fs file source hread hok
    exact Post_unmarked Quote file source s _ _ out
      (scanLoop_rewrites Quote file source _ s _ _ out (hEOF source) hrun) l shot hg hu
      (hno source hread)

theorem updateFile_read_other (Quote : Bytes → Bytes) (Scan : String → Bytes → Scanned)
    (s : shots) (fs : os.FileSystem) (file f : String) (hne : f ≠ file) :
    (updateFile Quote Scan s fs file).2.1.read f = fs.read f := by
  unfold updateFile
  cases fs.read file with
  | none => rfl
  | some source =>
    simp only
    cases scanLoop Quote file source (Scan file source).err 0
      { shots := s, out := [], prevOffset := 0, recent := recentZero }
      (Scan file source).toks with
    | mk s1 res =>
      cases res with
      | error e => rfl
      | ok out =>
        simp only
        by_cases hd : out = source
        · simp [hd]
        · simp only [ne_eq, hd, not_false_eq_true, if_true]
          unfold os.FileSystem.write
          by_cases hw : fs.canWrite file = true
          · simp [hw, hne]
          · simp [hw]

theorem updateFiles_unmarked (Quote : Bytes → Bytes) (Scan : String → Bytes → Scanned)
    (hEOF : ∀ f source, ∀ t ∈ (Scan f source).toks, t.token ≠ token.Token.EOF)
    (l : location) (shot : Snapshot) (hu : shot.updated = false) :
    ∀ (files : List String) (s : shots) (fs : os.FileSystem), files.Nodup →
      (updateFiles Quote Scan files s fs).2.2 = none →
      mapGet s.byLocation l = some shot →
      (∀ f ∈ files, ∀ source, fs.read f = some source →
        ∀ i, i < (Scan f source).toks.length → isHead (Scan f source).toks i →
        ({ file := f, line := (tokAt (Scan f source).toks i).line } : location) ≠ l) →
      mapGet (updateFiles Quote Scan files s fs).1.byLocation l = some shot := by
  intro files
  induction files with
  | nil => intro s fs _ _ hg _; exact hg
  | cons f rest ih =>
    intro s fs hnd hok hg hno
    rw [updateFiles] at hok ⊢
    have hread := updateFile_read_other Quote Scan s fs f
    have hun := updateFile_unmarked Quote Scan s fs f (hEOF f)
    revert hok hread hun
    cases updateFile Quote Scan s fs f with
    | mk s1 r =>
      cases r with
      | mk fs1 e =>
        cases e with
        | some e => intro hok; simp at hok
        | none =>
          intro hok hread hun
          simp only at hok hread hun ⊢
          have hg1 := hun trivial l shot hg hu (hno f (List.mem_cons_self _ _))
          refine ih s1 fs1 (List.nodup_cons.1 hnd).2 hok hg1 ?_
          intro f1 hf1 source hr
          have hne : f1 ≠ f := by
            intro e; subst e; exact (List.nodup_cons.1 hnd).1 hf1
          rw [hread f1 hne] at hr
          exact hno f1 (List.mem_cons_of_mem _ hf1) source hr

theorem update_error_iff (Quote : Bytes → Bytes) (Scan : String → Bytes → Scanned)
    (s : shots) (fs : os.FileSystem)
    (hfiles : (updateFiles Quote Scan
      (s.byLocation.map (fun e => e.2.location.file)).dedup s fs).2.2 = none) :
    (update Quote Scan s fs).1 = (updateFiles Quote Scan
      (s.byLocation.map (fun e => e.2.location.file)).dedup s fs).1 ∧
    ((update Quote Scan s fs).2.2 ≠ none ↔
      ∃ e ∈ (update Quote Scan s fs).1.byLocation,
        e.2.hasActual = true ∧ e.2.updated = false) := by
  unfold update
  simp only
  revert hfiles
  cases updateFiles Quote Scan (s.byLocation.map (fun e => e.2.location.file)).dedup s fs with
  | mk s1 r =>
    cases r with
    | mk fs1 e =>
      intro hfiles
      simp only at hfiles
      subst hfiles
      simp only
      cases hfind : s1.byLocation.find? (fun e => e.2.hasActual && !e.2.updated) with
      | some e =>
        simp only [ne_eq, reduceCtorEq, not_false_eq_true, true_iff, true_and]
        have h1 := List.find?_some hfind
        have h2 := List.mem_of_find?_eq_some hfind
        simp only [Bool.and_eq_true, Bool.not_eq_true'] at h1
        exact ⟨e, h2, h1⟩
      | none =>
        simp only [ne_eq, not_true_eq_false, false_iff, not_exists, not_and, true_and]
        intro e he ha
        have := List.find?_eq_none.1 hfind e he
        simp only [ha, Bool.true_and, Bool.not_eq_true', Bool.not_eq_false] at this
        simp [this]

end snap

/-- C8: when every file is processed without error, `update` returns an error
exactly when some record of the registry has `hasActual` set and `updated`
still unset after the files were processed; and a record that was compared
exactly once and whose line has no `snap.Source(` opening parenthesis in its
file makes `update` fail. -/
theorem update_sweep (Quote : Bytes → Bytes) (Scan : String → Bytes → snap.Scanned)
    (s : snap.shots) (fs : os.FileSystem)
    (hEOF : ∀ f source, ∀ t ∈ (Scan f source).toks, t.token ≠ token.Token.EOF)
    (hfiles : (snap.updateFiles Quote Scan
      (s.byLocation.map (fun e => e.2.location.file)).dedup s fs).2.2 = none) :
    ((snap.update Quote Scan s fs).2.2 ≠ none ↔
      ∃ e ∈ (snap.update Quote Scan s fs).1.byLocation,
        e.2.hasActual = true ∧ e.2.updated = false) ∧
    ∀ l shot, snap.mapGet s.byLocation l = some shot →
      shot.hasActual = true → shot.calledMultiple = false → shot.updated = false →
      (∀ source, fs.read l.file = some source →
        ∀ i, i < (Scan l.file source).toks.length → snap.isHead (Scan l.file source).toks i →
        (snap.tokAt (Scan l.file source).toks i).line ≠ l.line) →
      (snap.update Quote Scan s fs).2.2 ≠ none := by
  obtain ⟨hreg, hiff⟩ := snap.update_error_iff Quote Scan s fs hfiles
  refine ⟨hiff, ?_⟩
  intro l shot hg ha _ hu hno
  rw [hiff, hreg]
  have := snap.updateFiles_unmarked Quote Scan hEOF l shot hu _ s fs (List.nodup_dedup _)
    hfiles hg (by
      intro f _ source hr i hi hhead hl
      have hf : f = l.file := by rw [← hl]
      subst hf
      exact hno source hr i hi hhead (by rw [← hl]))
  exact ⟨(l, shot), snap.mapGet_mem _ _ _ this, ha, hu⟩

/-- C8 at the call of the package documentation on line 1 with a registry
whose record is on line 2: `update` fails. -/
theorem update_sweep_witness :
    (snap.update id (snap.scanned snap.docToks) snap.innerShots
      (os.oneFile "x_test.go" snap.docSource)).2.2 ≠ none :=
  (update_sweep id (snap.scanned snap.docToks) snap.innerShots
    (os.oneFile "x_test.go" snap.docSource)
    (fun _ _ => (by decide : ∀ t ∈ snap.docToks, t.token ≠ token.Token.EOF))
    (by decide)).2 { file := "x_test.go", line := 2 } _ rfl rfl rfl rfl
    (by
      intro source _ i hi _
      have key : ∀ i, i < 7 → (snap.tokAt snap.docToks i).line ≠ 2 := by decide
      exact key i hi)

/-- C2: the loop scenario.  The registry after `Source` on line 1 and two calls
of `CheckString` on its snapshot holds one record with `hasActual` and
`calledMultiple` set; its call site is in the file; `update` leaves the file as
it is and returns the lost-update error for that record. -/
theorem update_loop_scenario :
    snap.loopShots = ⟨[(⟨"x_test.go", 1⟩,
      ⟨⟨"x_test.go", 1⟩, ascii "old", true, ascii "v", false, false, true⟩)]⟩ ∧
    snap.isHead snap.loopToks 5 ∧
    (snap.update id (snap.scanned snap.loopToks) snap.loopShots
      (os.oneFile "x_test.go" snap.loopSource)).2.1.read "x_test.go" = some snap.loopSource ∧
    (snap.update id (snap.scanned snap.loopToks) snap.loopShots
      (os.oneFile "x_test.go" snap.loopSource)).2.2
      = some (snap.UpdateError.lost ⟨"x_test.go", 1⟩) :=
  ⟨by decide, ⟨(snap.loopToks.take 2).map snap.tokKey, by decide⟩, by decide, by decide⟩

namespace snap

end snap

namespace snapsource

end snapsource

namespace snapsource

end snapsource

namespace snapsource

end snapsource

namespace snap

end snap

namespace snap

end snap

namespace snap

end snap

namespace snap

theorem foldl_enumFrom_pos (pfx : Bytes) (ls : List Bytes) (k : Nat) (hk : 0 < k) (b : Bytes) :
    (ls.enumFrom k).foldl
      (fun b il => (if il.1 > 0 then b ++ [0x0A] ++ pfx else b) ++ il.2) b
      = b ++ ls.flatMap (fun x => [0x0A] ++ pfx ++ x) := by
  induction ls generalizing k b with
  | nil => simp
  | cons l ls ih =>
    simp only [List.enumFrom_cons, List.foldl_cons, gt_iff_lt, hk, if_true, List.flatMap_cons]
    rw [ih (k + 1) (by omega)]
    simp

theorem writeLines_cons (pfx : Bytes) (l : Bytes) (ls : List Bytes) (b : Bytes) :
    writeLines pfx (l :: ls) b = b ++ l ++ ls.flatMap (fun x => [0x0A] ++ pfx ++ x) := by
  unfold writeLines
  simp only [List.enum, List.enumFrom_cons, List.foldl_cons, gt_iff_lt, lt_self_iff_false,
    if_false]
  exact foldl_enumFrom_pos pfx ls 1 (by omega) (b ++ l)

theorem Split_ne_nil (s : Bytes) (sep : Byte) : strings.Split s sep ≠ [] := by
  induction s with
  | nil => simp [strings.Split]
  | cons b rest ih =>
    unfold strings.Split
    split_ifs
    · simp
    · cases h : strings.Split rest sep <;> simp

theorem Split_join (s : Bytes) (pfx : Bytes) :
    ∃ l ls, strings.Split s 0x0A = l :: ls ∧
      l ++ ls.flatMap (fun x => [0x0A] ++ pfx ++ x)
        = s.flatMap (fun b => if b = 0x0A then [0x0A] ++ pfx else [b]) := by
  induction s with
  | nil => exact ⟨[], [], by simp [strings.Split], by simp⟩
  | cons b rest ih =>
    obtain ⟨l, ls, hs, hj⟩ := ih
    unfold strings.Split
    by_cases hb : b = 0x0A
    · refine ⟨[], l :: ls, by simp [hb, hs], ?_⟩
      simp only [List.nil_append, List.flatMap_cons, hb, if_true]
      rw [← hj]
      simp
    · refine ⟨b :: l, ls, by simp [hb, hs], ?_⟩
      simp only [List.flatMap_cons, hb, if_false]
      rw [← hj]
      simp

theorem reindent_zero (s : Bytes) : reindent s 0 = s := by
  unfold reindent
  induction s with
  | nil => rfl
  | cons b rest ih =>
    rw [List.flatMap_cons, ih]
    by_cases hb : b = 0x0A <;> simp [hb]

theorem format_raw (Quote : Bytes → Bytes) (s : Bytes) (n : Nat)
    (h : strconv.CanBackquote (strings.ReplaceAll s 0x0A []) = true) :
    format Quote s n = [0x60] ++ reindent s n ++ [0x60] := by
  unfold format
  simp only [h, if_true]
  by_cases hn : (n : Int) > 0
  · simp only [hn, if_true]
    obtain ⟨l, ls, hs, hj⟩ := Split_join s (strings.Repeat 0x09 (n : Int).toNat)
    rw [hs, writeLines_cons, List.append_assoc [0x60], hj]
    simp [reindent, strings.Repeat]
  · have h0 : n = 0 := by omega
    subst h0
    simp [reindent_zero]

end snap

namespace snap

theorem Split_append_left (p x : Bytes) (sep : Byte) (hp : sep ∉ p) :
    strings.Split (p ++ x) sep
      = (p ++ (strings.Split x sep).headD []) :: (strings.Split x sep).tail := by
  induction p with
  | nil =>
    cases h : strings.Split x sep with
    | nil => exact absurd h (Split_ne_nil x sep)
    | cons l ls => simp [h]
  | cons b rest ih =>
    simp only [List.mem_cons, not_or] at hp
    have hb : ¬ b = sep := fun hc => hp.1 hc.symm
    rw [List.cons_append, strings.Split, if_neg hb, ih hp.2]
    simp

theorem Split_reindent (s : Bytes) (n : Nat) :
    strings.Split (reindent s n) 0x0A
      = pfxTail (List.replicate n 0x09) (strings.Split s 0x0A) := by
  induction s with
  | nil => simp [reindent, strings.Split, pfxTail]
  | cons b rest ih =>
    have hcons : reindent (b :: rest) n
        = (if b = 0x0A then [0x0A] ++ List.replicate n 0x09 else [b]) ++ reindent rest n := by
      simp [reindent]
    rw [hcons]
    obtain ⟨l, ls, hs⟩ : ∃ l ls, strings.Split rest 0x0A = l :: ls := by
      cases h : strings.Split rest 0x0A with
      | nil => exact absurd h (Split_ne_nil rest _)
      | cons l ls => exact ⟨l, ls, rfl⟩
    rw [hs, pfxTail] at ih
    by_cases hb : b = 0x0A
    · have htab : (0x0A : Byte) ∉ List.replicate n (0x09 : Byte) := by
        intro hm
        exact absurd (List.eq_of_mem_replicate hm) (by decide)
      simp only [hb, if_true, List.singleton_append, List.cons_append, List.nil_append]
      rw [strings.Split, if_pos rfl, Split_append_left _ _ _ htab, ih]
      rw [strings.Split, if_pos rfl, hs]
      simp [pfxTail]
    · simp only [hb, if_false, List.singleton_append]
      rw [strings.Split, if_neg hb, ih, strings.Split, if_neg hb, hs]
      simp [pfxTail]

theorem trimSpaceStart_tabs (n : Nat) (l : Bytes) :
    strings.trimSpaceStart (List.replicate n 0x09 ++ l) = strings.trimSpaceStart l := by
  induction n with
  | zero => simp
  | succ n ih =>
    rw [List.replicate_succ, List.cons_append, strings.trimSpaceStart]
    have h1 : ¬ ((0x09 : Byte).val ≥ utf8.RuneSelf) := by decide
    have h2 : ¬ (strings.asciiSpace 0x09 = false) := by decide
    rw [if_neg h1, if_neg h2, ih]

theorem TrimSpace_tabs (n : Nat) (l : Bytes) :
    strings.TrimSpace (List.replicate n 0x09 ++ l) = strings.TrimSpace l := by
  unfold strings.TrimSpace
  rw [trimSpaceStart_tabs]

theorem trimLines_reindent (s : Bytes) (n : Nat) :
    trimLines (reindent s n) = trimLines s := by
  unfold trimLines
  simp only
  rw [Split_reindent]
  congr 1
  cases h : strings.Split s 0x0A with
  | nil => rfl
  | cons l ls =>
    simp only [pfxTail, List.map_cons, List.map_map]
    congr 1
    apply List.map_congr_left
    intro x _
    exact TrimSpace_tabs n x

end snap

namespace strings

end strings

/-- C20: the formatter of snapsource is the formatter of snap at every indent
that is not positive. -/
theorem format_agree (Quote : Bytes → Bytes) (s : Bytes) (indent : Int) (h : indent ≤ 0) :
    snapsource.format Quote s = snap.format Quote s indent := by
  have hn : ¬ indent > 0 := by omega
  unfold snapsource.format snap.format
  simp only [hn, if_false]

/-- C20 at a string of two lines and the indents 0 and -1. -/
theorem format_agree_witness :
    snapsource.format strconv.quotePlain (ascii "a\nb")
      = snap.format strconv.quotePlain (ascii "a\nb") 0 ∧
    snapsource.format strconv.quotePlain (ascii "a\nb")
      = snap.format strconv.quotePlain (ascii "a\nb") (-1) :=
  ⟨format_agree strconv.quotePlain (ascii "a\nb") 0 (by decide),
    format_agree strconv.quotePlain (ascii "a\nb") (-1) (by decide)⟩

namespace snap

theorem reindent_bytes (s : Bytes) (n : Nat) (b : Byte) (hb : b ∈ reindent s n) :
    b ∈ s ∨ b = 0x09 := by
  unfold reindent at hb
  rw [List.mem_flatMap] at hb
  obtain ⟨c, hc, hbc⟩ := hb
  by_cases h : c = 0x0A
  · rw [if_pos h] at hbc
    simp only [List.singleton_append, List.mem_cons] at hbc
    rcases hbc with hbc | hbc
    · left; rw [hbc, ← h]; exact hc
    · right; exact List.eq_of_mem_replicate hbc
  · rw [if_neg h] at hbc
    left
    rw [List.mem_singleton.1 hbc]; exact hc

end snap

/-- C12: when the string without its newlines can be backquoted, `format` at an
indent `n ≥ 0` is, between two backquotes, the string with `n` tabs inserted
after each newline; decoding that raw literal gives this content; `trimLines`
of the content is `trimLines` of the string; so `CheckString` in normal mode of
the string against a whitespace-tolerant record whose expected value is the
content reports no value mismatch. -/
theorem format_reindent (Quote : Bytes → Bytes) (s : Bytes) (n : Nat) (r : snap.Snapshot)
    (h : strconv.CanBackquote (strings.ReplaceAll s 0x0A []) = true) :
    snap.format Quote s n = [0x60] ++ snap.reindent s n ++ [0x60] ∧
    strconv.UnquoteRaw (snap.format Quote s n) = some (snap.reindent s n) ∧
    snap.trimLines (snap.reindent s n) = snap.trimLines s ∧
    ∀ e a, snap.Failure.different e a ∉
      (snap.CheckString false s
        { r with expected := snap.reindent s n, indentOk := true }).1 := by
  have hf := snap.format_raw Quote s n h
  have hb : ∀ b ∈ s, b ≠ 0x60 ∧ b ≠ 0x0D := by
    intro b hb
    by_cases hn : b = 0x0A
    · subst hn; constructor <;> decide
    · exact canBackquoteFuel_bytes _ _ h b (ReplaceAll_newline_mem s b hb hn)
  refine ⟨hf, ?_, snap.trimLines_reindent s n, ?_⟩
  · rw [hf]
    apply UnquoteRaw_backquoted
    intro b hbr
    rcases snap.reindent_bytes s n b hbr with hm | ht
    · exact hb b hm
    · subst ht; constructor <;> decide
  · intro e a
    cases hh : r.hasActual <;>
      simp [snap.CheckString, hh, snap.trimLines_reindent s n]

/-- C12 at the JSON text of a list, a string of three lines, and one tab. -/
theorem format_reindent_witness :
    snap.format strconv.quotePlain (ascii "[\n\t1\n]") 1 = ascii "\x60[\n\t\t1\n\t]\x60" ∧
    snap.trimLines (ascii "[\n\t\t1\n\t]") = snap.trimLines (ascii "[\n\t1\n]") := by
  have h := format_reindent strconv.quotePlain (ascii "[\n\t1\n]") 1
    (snap.compared "x_test.go" 1 [] [] true).2 (by decide)
  exact ⟨h.1, h.2.2.1⟩

/-- C19: the strings `ab` and `a`, newline, `b` do not have the same trimmed
lines, yet `trimLines` of the two is the same, so `CheckString` in normal mode
of one against a whitespace-tolerant record that expects the other reports no
value mismatch. -/
theorem CheckString_joins_lines :
    ∃ expected actual : Bytes,
      (strings.Split expected 0x0A).map strings.TrimSpace
        ≠ (strings.Split actual 0x0A).map strings.TrimSpace ∧
      snap.trimLines expected = snap.trimLines actual ∧
      ∀ r : snap.Snapshot, r.indentOk = true → r.expected = expected →
        ∀ e a, snap.Failure.different e a ∉ (snap.CheckString false actual r).1 := by
  refine ⟨ascii "ab", ascii "a\nb", by decide, by decide, ?_⟩
  intro r hi he e a
  have ht : snap.trimLines (ascii "ab") = snap.trimLines (ascii "a\nb") := by decide
  cases hh : r.hasActual <;> simp [snap.CheckString, hh, hi, he, ht]

/-! ## Decoding runes -/

section

open utf8

theorem first_ranges (b : Byte) :
    (first b = 0xF0 ∧ b.val < 0x80) ∨
    (first b = 0xF1 ∧ 0x80 ≤ b.val ∧ (b.val < 0xC2 ∨ 0xF4 < b.val)) ∨
    (first b = 0x02 ∧ 0xC2 ≤ b.val ∧ b.val < 0xE0) ∨
    (first b = 0x13 ∧ b.val = 0xE0) ∨
    (first b = 0x03 ∧ 0xE1 ≤ b.val ∧ b.val < 0xF0 ∧ b.val ≠ 0xED) ∨
    (first b = 0x23 ∧ b.val = 0xED) ∨
    (first b = 0x34 ∧ b.val = 0xF0) ∨
    (first b = 0x04 ∧ 0xF1 ≤ b.val ∧ b.val < 0xF4) ∨
    (first b = 0x44 ∧ b.val = 0xF4) := by
  unfold first
  split_ifs <;> simp <;> omega

/-- The decoding of a sequence that starts with a two-byte lead. -/
theorem DecodeRune_two (p0 : Byte) (rest : Bytes) (hf : first p0 = 0x02) :
    DecodeRune (p0 :: rest) =
      match rest with
      | [] => (RuneError, 1)
      | b1 :: _ =>
        if b1.val < 0x80 ∨ 0xBF < b1.val then (RuneError, 1)
        else ((p0.val % 32) * 64 + b1.val % 64, 2) := by
  cases rest with
  | nil => simp [DecodeRune, hf]
  | cons b1 rest1 => simp [DecodeRune, hf, acceptRanges]

theorem DecodeRune_three (p0 : Byte) (rest : Bytes) (lo hi : Nat)
    (hf : first p0 % 8 = 3 ∧ first p0 < 0xF0 ∧ acceptRanges (first p0 / 16) = (lo, hi)) :
    DecodeRune (p0 :: rest) =
      match rest with
      | b1 :: b2 :: _ =>
        if b1.val < lo ∨ hi < b1.val then (RuneError, 1)
        else if b2.val < 0x80 ∨ 0xBF < b2.val then (RuneError, 1)
        else ((p0.val % 16) * 4096 + (b1.val % 64) * 64 + b2.val % 64, 3)
      | _ => (RuneError, 1) := by
  obtain ⟨h1, h2, h3⟩ := hf
  have h2n : ¬ first p0 ≥ 0xF0 := by omega
  match rest with
  | [] => simp [DecodeRune, h2n, h1]
  | [b1] => simp [DecodeRune, h2n, h1]
  | b1 :: b2 :: rest2 =>
    simp only [DecodeRune, h2n, if_false, h1, h3, List.length_cons]
    have : ¬ (rest2.length + 1 + 1 + 1 < 3) := by omega
    simp only [this, if_false]
    have : ¬ (3 ≤ 2) := by omega
    simp only [this, if_false, le_refl, if_true]

theorem DecodeRune_four (p0 : Byte) (rest : Bytes) (lo hi : Nat)
    (hf : first p0 % 8 = 4 ∧ first p0 < 0xF0 ∧ acceptRanges (first p0 / 16) = (lo, hi)) :
    DecodeRune (p0 :: rest) =
      match rest with
      | b1 :: b2 :: b3 :: _ =>
        if b1.val < lo ∨ hi < b1.val then (RuneError, 1)
        else if b2.val < 0x80 ∨ 0xBF < b2.val then (RuneError, 1)
        else if b3.val < 0x80 ∨ 0xBF < b3.val then (RuneError, 1)
        else ((p0.val % 8) * 262144 + (b1.val % 64) * 4096 + (b2.val % 64) * 64
          + b3.val % 64, 4)
      | _ => (RuneError, 1) := by
  obtain ⟨h1, h2, h3⟩ := hf
  have h2n : ¬ first p0 ≥ 0xF0 := by omega
  match rest with
  | [] => simp [DecodeRune, h2n, h1]
  | [b1] => simp [DecodeRune, h2n, h1]
  | [b1, b2] => simp [DecodeRune, h2n, h1]
  | b1 :: b2 :: b3 :: rest3 =>
    simp only [DecodeRune, h2n, if_false, h1, h3, List.length_cons]
    have : ¬ (rest3.length + 1 + 1 + 1 + 1 < 4) := by omega
    simp only [this, if_false]
    have : ¬ (4 ≤ 2) := by omega
    simp only [this, if_false]
    have : ¬ (4 ≤ 3) := by omega
    simp only [this, if_false]

theorem DecodeRune_two_ok (p0 b1 : Byte) (rest : Bytes)
    (h0 : 0xC2 ≤ p0.val ∧ p0.val < 0xE0) (h1 : 0x80 ≤ b1.val ∧ b1.val ≤ 0xBF) :
    DecodeRune (p0 :: b1 :: rest) = ((p0.val % 32) * 64 + b1.val % 64, 2) := by
  have hf : first p0 = 0x02 := by
    rcases first_ranges p0 with h | h | h | h | h | h | h | h | h <;> first | exact h.1 | omega
  rw [DecodeRune_two p0 _ hf]
  have : ¬ (b1.val < 0x80 ∨ 0xBF < b1.val) := by omega
  simp only [this, if_false]

theorem DecodeRune_three_ok (p0 b1 b2 : Byte) (rest : Bytes)
    (h0 : 0xE0 ≤ p0.val ∧ p0.val < 0xF0) (h1 : 0x80 ≤ b1.val ∧ b1.val ≤ 0xBF)
    (hlo : p0.val = 0xE0 → 0xA0 ≤ b1.val) (hhi : p0.val = 0xED → b1.val ≤ 0x9F)
    (h2 : 0x80 ≤ b2.val ∧ b2.val ≤ 0xBF) :
    DecodeRune (p0 :: b1 :: b2 :: rest)
      = ((p0.val % 16) * 4096 + (b1.val % 64) * 64 + b2.val % 64, 3) := by
  rcases first_ranges p0 with h | h | h | h | h | h | h | h | h <;> try omega
  · rw [DecodeRune_three p0 _ 0xA0 0xBF ⟨by rw [h.1], by rw [h.1]; decide, by rw [h.1]; rfl⟩]
    have : ¬ (b1.val < 0xA0 ∨ 0xBF < b1.val) := by have := hlo h.2; omega
    have h2n : ¬ (b2.val < 0x80 ∨ 0xBF < b2.val) := by omega
    simp only [this, h2n, if_false]
  · rw [DecodeRune_three p0 _ 0x80 0xBF ⟨by rw [h.1], by rw [h.1]; decide, by rw [h.1]; rfl⟩]
    have : ¬ (b1.val < 0x80 ∨ 0xBF < b1.val) := by omega
    have h2n : ¬ (b2.val < 0x80 ∨ 0xBF < b2.val) := by omega
    simp only [this, h2n, if_false]
  · rw [DecodeRune_three p0 _ 0x80 0x9F ⟨by rw [h.1], by rw [h.1]; decide, by rw [h.1]; rfl⟩]
    have : ¬ (b1.val < 0x80 ∨ 0x9F < b1.val) := by have := hhi h.2; omega
    have h2n : ¬ (b2.val < 0x80 ∨ 0xBF < b2.val) := by omega
    simp only [this, h2n, if_false]

theorem DecodeRune_four_ok (p0 b1 b2 b3 : Byte) (rest : Bytes)
    (h0 : 0xF0 ≤ p0.val ∧ p0.val ≤ 0xF4) (h1 : 0x80 ≤ b1.val ∧ b1.val ≤ 0xBF)
    (hlo : p0.val = 0xF0 → 0x90 ≤ b1.val) (hhi : p0.val = 0xF4 → b1.val ≤ 0x8F)
    (h2 : 0x80 ≤ b2.val ∧ b2.val ≤ 0xBF) (h3 : 0x80 ≤ b3.val ∧ b3.val ≤ 0xBF) :
    DecodeRune (p0 :: b1 :: b2 :: b3 :: rest)
      = ((p0.val % 8) * 262144 + (b1.val % 64) * 4096 + (b2.val % 64) * 64 + b3.val % 64, 4) := by
  have h2n : ¬ (b2.val < 0x80 ∨ 0xBF < b2.val) := by omega
  have h3n : ¬ (b3.val < 0x80 ∨ 0xBF < b3.val) := by omega
  rcases first_ranges p0 with h | h | h | h | h | h | h | h | h <;> try omega
  · rw [DecodeRune_four p0 _ 0x90 0xBF ⟨by rw [h.1], by rw [h.1]; decide, by rw [h.1]; rfl⟩]
    have : ¬ (b1.val < 0x90 ∨ 0xBF < b1.val) := by have := hlo h.2; omega
    simp only [this, h2n, h3n, if_false]
  · rw [DecodeRune_four p0 _ 0x80 0xBF ⟨by rw [h.1], by rw [h.1]; decide, by rw [h.1]; rfl⟩]
    have : ¬ (b1.val < 0x80 ∨ 0xBF < b1.val) := by omega
    simp only [this, h2n, h3n, if_false]
  · rw [DecodeRune_four p0 _ 0x80 0x8F ⟨by rw [h.1], by rw [h.1]; decide, by rw [h.1]; rfl⟩]
    have : ¬ (b1.val < 0x80 ∨ 0x8F < b1.val) := by have := hhi h.2; omega
    simp only [this, h2n, h3n, if_false]

theorem DecodeRune_three_inv (p0 : Byte) (rest : Bytes) (lo hi : Nat)
    (hf : first p0 % 8 = 3 ∧ first p0 < 0xF0 ∧ acceptRanges (first p0 / 16) = (lo, hi)) :
    DecodeRune (p0 :: rest) = (RuneError, 1) ∨
    ∃ b1 b2 rest2, rest = b1 :: b2 :: rest2 ∧ (lo ≤ b1.val ∧ b1.val ≤ hi) ∧
      (0x80 ≤ b2.val ∧ b2.val ≤ 0xBF) ∧
      DecodeRune (p0 :: rest)
        = ((p0.val % 16) * 4096 + (b1.val % 64) * 64 + b2.val % 64, 3) := by
  have e := DecodeRune_three p0 rest lo hi hf
  match rest with
  | [] => left; exact e
  | [b1] => left; exact e
  | b1 :: b2 :: rest2 =>
    simp only at e
    by_cases hb : b1.val < lo ∨ hi < b1.val
    · rw [if_pos hb] at e; left; exact e
    · rw [if_neg hb] at e
      by_cases hc : b2.val < 0x80 ∨ 0xBF < b2.val
      · rw [if_pos hc] at e; left; exact e
      · rw [if_neg hc] at e
        right
        exact ⟨b1, b2, rest2, rfl, by omega, by omega, e⟩

theorem DecodeRune_four_inv (p0 : Byte) (rest : Bytes) (lo hi : Nat)
    (hf : first p0 % 8 = 4 ∧ first p0 < 0xF0 ∧ acceptRanges (first p0 / 16) = (lo, hi)) :
    DecodeRune (p0 :: rest) = (RuneError, 1) ∨
    ∃ b1 b2 b3 rest3, rest = b1 :: b2 :: b3 :: rest3 ∧ (lo ≤ b1.val ∧ b1.val ≤ hi) ∧
      (0x80 ≤ b2.val ∧ b2.val ≤ 0xBF) ∧ (0x80 ≤ b3.val ∧ b3.val ≤ 0xBF) ∧
      DecodeRune (p0 :: rest)
        = ((p0.val % 8) * 262144 + (b1.val % 64) * 4096 + (b2.val % 64) * 64
          + b3.val % 64, 4) := by
  have e := DecodeRune_four p0 rest lo hi hf
  match rest with
  | [] => left; exact e
  | [b1] => left; exact e
  | [b1, b2] => left; exact e
  | b1 :: b2 :: b3 :: rest3 =>
    simp only at e
    by_cases hb : b1.val < lo ∨ hi < b1.val
    · rw [if_pos hb] at e; left; exact e
    · rw [if_neg hb] at e
      by_cases hc : b2.val < 0x80 ∨ 0xBF < b2.val
      · rw [if_pos hc] at e; left; exact e
      · rw [if_neg hc] at e
        by_cases hd : b3.val < 0x80 ∨ 0xBF < b3.val
        · rw [if_pos hd] at e; left; exact e
        · rw [if_neg hd] at e
          right
          exact ⟨b1, b2, b3, rest3, rfl, by omega, by omega, by omega, e⟩

/-- Every result of `DecodeRune`: the empty input, an ASCII byte, an invalid
encoding, or a valid encoding of two, three or four bytes. -/
theorem DecodeRune_cases (s : Bytes) :
    (s = [] ∧ DecodeRune s = (RuneError, 0)) ∨
    (∃ p0 rest, s = p0 :: rest ∧ p0.val < 0x80 ∧ DecodeRune s = (p0.val, 1)) ∨
    (∃ p0 rest, s = p0 :: rest ∧ 0x80 ≤ p0.val ∧ DecodeRune s = (RuneError, 1)) ∨
    (∃ p0 b1 rest, s = p0 :: b1 :: rest ∧ (0xC2 ≤ p0.val ∧ p0.val < 0xE0) ∧
      (0x80 ≤ b1.val ∧ b1.val ≤ 0xBF) ∧
      DecodeRune s = ((p0.val % 32) * 64 + b1.val % 64, 2)) ∨
    (∃ p0 b1 b2 rest, s = p0 :: b1 :: b2 :: rest ∧ (0xE0 ≤ p0.val ∧ p0.val < 0xF0) ∧
      (0x80 ≤ b1.val ∧ b1.val ≤ 0xBF) ∧ (p0.val = 0xE0 → 0xA0 ≤ b1.val) ∧
      (p0.val = 0xED → b1.val ≤ 0x9F) ∧ (0x80 ≤ b2.val ∧ b2.val ≤ 0xBF) ∧
      DecodeRune s = ((p0.val % 16) * 4096 + (b1.val % 64) * 64 + b2.val % 64, 3)) ∨
    (∃ p0 b1 b2 b3 rest, s = p0 :: b1 :: b2 :: b3 :: rest ∧ (0xF0 ≤ p0.val ∧ p0.val ≤ 0xF4) ∧
      (0x80 ≤ b1.val ∧ b1.val ≤ 0xBF) ∧ (p0.val = 0xF0 → 0x90 ≤ b1.val) ∧
      (p0.val = 0xF4 → b1.val ≤ 0x8F) ∧ (0x80 ≤ b2.val ∧ b2.val ≤ 0xBF) ∧
      (0x80 ≤ b3.val ∧ b3.val ≤ 0xBF) ∧
      DecodeRune s = ((p0.val % 8) * 262144 + (b1.val % 64) * 4096 + (b2.val % 64) * 64
        + b3.val % 64, 4)) := by
  match s with
  | [] => left; exact ⟨rfl, rfl⟩
  | p0 :: rest =>
    right
    have bad : 0x80 ≤ p0.val → DecodeRune (p0 :: rest) = (RuneError, 1) →
        (∃ q0 rest1, p0 :: rest = q0 :: rest1 ∧ 0x80 ≤ q0.val ∧
          DecodeRune (p0 :: rest) = (RuneError, 1)) :=
      fun h1 h2 => ⟨p0, rest, rfl, h1, h2⟩
    rcases first_ranges p0 with h | h | h | h | h | h | h | h | h
    · left
      exact ⟨p0, rest, rfl, h.2, by simp [DecodeRune, h.1]⟩
    · right; left
      exact ⟨p0, rest, rfl, h.2.1, by simp [DecodeRune, h.1]⟩
    · have e := DecodeRune_two p0 rest h.1
      match rest with
      | [] => right; left; exact bad (by omega) e
      | b1 :: rest1 =>
        simp only at e
        by_cases hb : b1.val < 0x80 ∨ 0xBF < b1.val
        · rw [if_pos hb] at e
          right; left; exact bad (by omega) e
        · rw [if_neg hb] at e
          right; right; left
          exact ⟨p0, b1, rest1, rfl, by omega, by omega, e⟩
    · rcases DecodeRune_three_inv p0 rest 0xA0 0xBF
        ⟨by rw [h.1], by rw [h.1]; decide, by rw [h.1]; rfl⟩ with e | ⟨b1, b2, r2, hr, h1, h2, e⟩
      · right; left; exact bad (by omega) e
      · right; right; right; left
        exact ⟨p0, b1, b2, r2, by rw [hr], by omega, by omega, by omega, by omega, h2, e⟩
    · rcases DecodeRune_three_inv p0 rest 0x80 0xBF
        ⟨by rw [h.1], by rw [h.1]; decide, by rw [h.1]; rfl⟩ with e | ⟨b1, b2, r2, hr, h1, h2, e⟩
      · right; left; exact bad (by omega) e
      · right; right; right; left
        exact ⟨p0, b1, b2, r2, by rw [hr], by omega, by omega, by omega, by omega, h2, e⟩
    · rcases DecodeRune_three_inv p0 rest 0x80 0x9F
        ⟨by rw [h.1], by rw [h.1]; decide, by rw [h.1]; rfl⟩ with e | ⟨b1, b2, r2, hr, h1, h2, e⟩
      · right; left; exact bad (by omega) e
      · right; right; right; left
        exact ⟨p0, b1, b2, r2, by rw [hr], by omega, by omega, by omega, by omega, h2, e⟩
    · rcases DecodeRune_four_inv p0 rest 0x90 0xBF
        ⟨by rw [h.1], by rw [h.1]; decide, by rw [h.1]; rfl⟩
        with e | ⟨b1, b2, b3, r3, hr, h1, h2, h3, e⟩
      · right; left; exact bad (by omega) e
      · right; right; right; right
        exact ⟨p0, b1, b2, b3, r3, by rw [hr], by omega, by omega, by omega, by omega, h2, h3, e⟩
    · rcases DecodeRune_four_inv p0 rest 0x80 0xBF
        ⟨by rw [h.1], by rw [h.1]; decide, by rw [h.1]; rfl⟩
        with e | ⟨b1, b2, b3, r3, hr, h1, h2, h3, e⟩
      · right; left; exact bad (by omega) e
      · right; right; right; right
        exact ⟨p0, b1, b2, b3, r3, by rw [hr], by omega, by omega, by omega, by omega, h2, h3, e⟩
    · rcases DecodeRune_four_inv p0 rest 0x80 0x8F
        ⟨by rw [h.1], by rw [h.1]; decide, by rw [h.1]; rfl⟩
        with e | ⟨b1, b2, b3, r3, hr, h1, h2, h3, e⟩
      · right; left; exact bad (by omega) e
      · right; right; right; right
        exact ⟨p0, b1, b2, b3, r3, by rw [hr], by omega, by omega, by omega, by omega, h2, h3, e⟩

end

section

open utf8

theorem findStart_le (p : Bytes) (lim k : Nat) : findStart p lim k ≤ (k : Int) := by
  induction k with
  | zero =>
    unfold findStart
    split_ifs <;> simp
  | succ k ih =>
    unfold findStart
    split_ifs
    · exact le_refl _
    · exact le_refl _
    · have : ((k : Nat) : Int) ≤ ((k + 1 : Nat) : Int) := by push_cast; omega
      exact le_trans ih this

theorem DecodeRune_size_pos (s : Bytes) (hs : s ≠ []) : 1 ≤ (DecodeRune s).2 := by
  rcases DecodeRune_cases s with ⟨h, _⟩ | ⟨_, _, _, _, e⟩ | ⟨_, _, _, _, e⟩ |
    ⟨_, _, _, _, _, _, e⟩ | ⟨_, _, _, _, _, _, _, _, _, _, e⟩ |
    ⟨_, _, _, _, _, _, _, _, _, _, _, _, e⟩
  · exact absurd h hs
  all_goals rw [e]
  all_goals simp

theorem DecodeRune_wide_rune (s : Bytes) (h : 1 < (DecodeRune s).2) :
    0x80 ≤ (DecodeRune s).1 := by
  rcases DecodeRune_cases s with ⟨_, e⟩ | ⟨_, _, _, _, e⟩ | ⟨_, _, _, _, e⟩ |
    ⟨p0, b1, _, _, h0, h1, e⟩ | ⟨p0, b1, b2, _, _, h0, h1, hlo, hhi, h2, e⟩ |
    ⟨p0, b1, b2, b3, _, _, h0, h1, hlo, hhi, h2, h3, e⟩
  all_goals rw [e] at h ⊢
  all_goals simp only at h ⊢
  all_goals omega

/-- The last rune of a sequence that ends with the byte `c`: its width is at
least 1 and at most the length; it is a newline exactly when `c` is; and when
it is not, none of the bytes it spans is a newline. -/
theorem DecodeLastRune_spec (q : Bytes) (c : Byte) :
    1 ≤ (DecodeLastRune (q ++ [c])).2 ∧ (DecodeLastRune (q ++ [c])).2 ≤ q.length + 1 ∧
    ((DecodeLastRune (q ++ [c])).1 = 0x0A ↔ c = 0x0A) ∧
    ((DecodeLastRune (q ++ [c])).1 ≠ 0x0A →
      ∀ b ∈ (q ++ [c]).drop (q.length + 1 - (DecodeLastRune (q ++ [c])).2), b ≠ 0x0A) := by
  have hlen : (q ++ [c]).length = q.length + 1 := by simp
  have hn0 : ¬ (q ++ [c]).length = 0 := by omega
  have hlast : (((q ++ [c]).get? ((q ++ [c]).length - 1)).map (fun b => b.val)).getD 0
      = c.val := by
    rw [hlen]
    simp [List.getElem?_append_right]
  have hdrop1 : (q ++ [c]).drop (q.length + 1 - 1) = [c] := by simp
  have one : (1 ≤ 1 ∧ 1 ≤ q.length + 1) := ⟨le_refl _, by omega⟩
  by_cases hr : c.val < RuneSelf
  · have e : DecodeLastRune (q ++ [c]) = (c.val, 1) := by
      unfold DecodeLastRune
      simp only [hn0, if_false, hlast, hr, if_true]
    rw [e]
    refine ⟨one.1, one.2, ?_, ?_⟩
    · constructor
      · intro h; exact Fin.ext h
      · intro h; rw [h]; rfl
    · intro hne b hb
      rw [hdrop1, List.mem_singleton] at hb
      subst hb
      intro hc; exact hne (by rw [hc]; rfl)
  · have hge : 0x80 ≤ c.val := by unfold RuneSelf at hr; omega
    have hcne : c ≠ 0x0A := by
      intro hc; rw [hc] at hge; exact absurd hge (by decide)
    have hbad : ((RuneError, 1) : Nat × Nat).1 ≠ 0x0A := by decide
    -- the start of the last rune
    obtain ⟨start, hstart, e⟩ : ∃ start, start < q.length + 1 ∧
        DecodeLastRune (q ++ [c]) =
          if start + (DecodeRune ((q ++ [c]).drop start)).2 ≠ q.length + 1 then (RuneError, 1)
          else DecodeRune ((q ++ [c]).drop start) := by
      refine ⟨(if (q ++ [c]).length < 2 then (-1 : Int)
          else findStart (q ++ [c]) ((q ++ [c]).length - UTFMax)
            ((q ++ [c]).length - 2)).toNat, ?_, ?_⟩
      · split_ifs with h2
        · simp
        · have := findStart_le (q ++ [c]) ((q ++ [c]).length - UTFMax) ((q ++ [c]).length - 2)
          rw [hlen] at this ⊢
          omega
      · unfold DecodeLastRune
        simp only [hn0, if_false, hlast, hr, List.take_length]
        rw [hlen]
    rw [e]
    by_cases hs : start + (DecodeRune ((q ++ [c]).drop start)).2 ≠ q.length + 1
    · rw [if_pos hs]
      refine ⟨one.1, one.2, ?_, ?_⟩
      · constructor
        · intro h; exact absurd h (by decide)
        · intro h; exact absurd h hcne
      · intro _ b hb
        rw [hdrop1, List.mem_singleton] at hb
        rw [hb]; exact hcne
    · rw [if_neg hs]
      have hs1 : start + (DecodeRune ((q ++ [c]).drop start)).2 = q.length + 1 := by
        by_contra hc; exact hs hc
      have hne : (q ++ [c]).drop start ≠ [] := by
        intro hc
        have := congrArg List.length hc
        simp at this
        omega
      have hpos := DecodeRune_size_pos _ hne
      have hds : q.length + 1 - (DecodeRune ((q ++ [c]).drop start)).2 = start := by omega
      refine ⟨hpos, by omega, ?_, ?_⟩
      · constructor
        · intro h
          exfalso
          by_cases hw : 1 < (DecodeRune ((q ++ [c]).drop start)).2
          · have := DecodeRune_wide_rune _ hw
            omega
          · have h1 : start = q.length := by omega
            rw [h1] at h
            simp only [List.drop_left'] at h
            rcases DecodeRune_cases [c] with ⟨hh, _⟩ | ⟨p0, _, hh, hlt, e1⟩ | ⟨_, _, _, _, e1⟩ |
              ⟨_, _, _, hh, _⟩ | ⟨_, _, _, _, hh, _⟩ | ⟨_, _, _, _, _, hh, _⟩
            · cases hh
            · simp only [List.cons.injEq] at hh
              rw [← hh.1] at hlt
              omega
            · rw [e1] at h; exact absurd h (by decide)
            · simp at hh
            · simp at hh
            · simp at hh
        · intro h; exact absurd h hcne
      · intro _ b hb
        rw [hds] at hb
        by_cases hw : 1 < (DecodeRune ((q ++ [c]).drop start)).2
        · have hwide := DecodeRune_wide _ hw
          have hall : ((q ++ [c]).drop start).take (DecodeRune ((q ++ [c]).drop start)).2
              = (q ++ [c]).drop start := by
            apply List.take_of_length_le
            simp
            omega
          rw [hall] at hwide
          have := hwide.2 b hb
          intro hc; rw [hc] at this; exact absurd this (by decide)
        · have h1 : start = q.length := by omega
          rw [h1] at hb
          simp only [List.drop_left', List.mem_singleton] at hb
          rw [hb]; exact hcne

end

/-! ## The indentation of a call -/

namespace snap

theorem take_succ_last (source : Bytes) (k : Nat) (hk : k < source.length) :
    source.take (k + 1) = source.take k ++ [source.get ⟨k, hk⟩] := by
  rw [List.take_succ, List.getElem?_eq_getElem hk]
  rfl

theorem lineStart_spec (source : Bytes) (fuel offset : Nat) (hf : offset ≤ fuel)
    (hl : offset ≤ source.length) :
    IsLineStart source offset (lineStart source fuel offset) := by
  induction fuel generalizing offset with
  | zero =>
    have : offset = 0 := by omega
    subst this
    exact ⟨le_refl _, Or.inl rfl, fun i _ hi => absurd hi (by omega)⟩
  | succ fuel ih =>
    unfold lineStart
    by_cases h0 : offset > 0
    · obtain ⟨k, rfl⟩ : ∃ k, offset = k + 1 := ⟨offset - 1, by omega⟩
      have hk : k < source.length := by omega
      have hget : source.get? k = some (source.get ⟨k, hk⟩) := List.get?_eq_get hk
      rw [if_pos h0, take_succ_last source k hk]
      have spec := DecodeLastRune_spec (source.take k) (source.get ⟨k, hk⟩)
      rcases hd : utf8.DecodeLastRune (source.take k ++ [source.get ⟨k, hk⟩]) with ⟨r, n⟩
      rw [hd] at spec
      simp only [List.length_take, min_eq_left (le_of_lt hk)] at spec
      obtain ⟨h1, h2, h3, h4⟩ := spec
      simp only
      by_cases hr : r = 0x0A
      · rw [if_pos hr]
        refine ⟨le_refl _, Or.inr ?_, fun i h5 h6 => absurd h6 (by omega)⟩
        rw [Nat.add_sub_cancel, hget, h3.1 hr]
      · rw [if_neg hr]
        obtain ⟨a1, a2, a3⟩ := ih (k + 1 - n) (by omega) (by omega)
        refine ⟨by omega, a2, ?_⟩
        intro i hi1 hi2
        by_cases hi : i < k + 1 - n
        · exact a3 i hi1 hi
        · intro hc
          have hmem : source.get ⟨i, by omega⟩ ∈
              (source.take k ++ [source.get ⟨k, hk⟩]).drop (k + 1 - n) := by
            rw [← take_succ_last source k hk]
            rw [List.mem_iff_getElem]
            refine ⟨i - (k + 1 - n), by simp; omega, ?_⟩
            simp only [List.getElem_drop, List.getElem_take, List.get_eq_getElem]
            congr 1
            omega
          have := h4 hr _ hmem
          rw [List.get?_eq_get (by omega : i < source.length)] at hc
          exact this (Option.some.inj hc)
    · rw [if_neg h0]
      have : offset = 0 := by omega
      subst this
      exact ⟨le_refl _, Or.inl rfl, fun i _ hi => absurd hi (by omega)⟩

theorem lineStart_le (source : Bytes) (fuel offset : Nat) (hf : offset ≤ fuel)
    (hl : offset ≤ source.length) : lineStart source fuel offset ≤ offset :=
  (lineStart_spec source fuel offset hf hl).1

theorem lineStartChecked_eq (source : Bytes) (fuel offset : Nat) (hf : offset ≤ fuel)
    (hl : offset ≤ source.length) :
    lineStartChecked source fuel (offset : Int) = some ((lineStart source fuel offset : Nat) : Int) := by
  induction fuel generalizing offset with
  | zero =>
    have : offset = 0 := by omega
    subst this
    simp [lineStartChecked, lineStart]
  | succ fuel ih =>
    unfold lineStartChecked lineStart
    by_cases h0 : offset > 0
    · have h0i : (offset : Int) > 0 := by omega
      have hli : ¬ ((offset : Int) > (source.length : Int)) := by omega
      rw [if_pos h0i, if_neg hli, if_pos h0, Int.toNat_ofNat]
      obtain ⟨k, rfl⟩ : ∃ k, offset = k + 1 := ⟨offset - 1, by omega⟩
      have hk : k < source.length := by omega
      have spec := DecodeLastRune_spec (source.take k) (source.get ⟨k, hk⟩)
      rw [← take_succ_last source k hk] at spec
      rcases hd : utf8.DecodeLastRune (source.take (k + 1)) with ⟨r, n⟩
      rw [hd] at spec
      simp only [List.length_take, min_eq_left (le_of_lt hk)] at spec
      simp only
      by_cases hr : r = 0x0A
      · rw [if_pos hr, if_pos hr]
      · rw [if_neg hr, if_neg hr]
        have := ih (k + 1 - n) (by omega) (by omega)
        rw [← this]
        congr 1
        omega
    · have h0i : ¬ (offset : Int) > 0 := by omega
      rw [if_neg h0i, if_neg h0]

theorem IsLineStart_unique (source : Bytes) (offset b b1 : Nat)
    (h : IsLineStart source offset b) (h1 : IsLineStart source offset b1) : b = b1 := by
  obtain ⟨a1, a2, a3⟩ := h
  obtain ⟨c1, c2, c3⟩ := h1
  by_contra hne
  rcases Nat.lt_or_gt_of_ne hne with hlt | hgt
  · rcases c2 with c2 | c2
    · omega
    · exact a3 (b1 - 1) (by omega) (by omega) c2
  · rcases a2 with a2 | a2
    · omega
    · exact c3 (b - 1) (by omega) (by omega) a2

end snap

/-- C16: for a call whose opening parenthesis is at an offset inside the
source, the indent `updateFile` computes, and passes to `format`, is 1 when the
record is whitespace-tolerant and the first byte of the line that holds the
parenthesis is a tab, and 0 otherwise; and no slice or index expression of the
computation is out of range. -/
theorem indent_one_tab (source : Bytes) (shot : snap.Snapshot) (offset : Nat)
    (h : offset ≤ source.length) :
    (∃ b, snap.IsLineStart source offset b) ∧
    (∀ b, snap.IsLineStart source offset b →
      snap.indentOf source shot offset
        = if shot.indentOk = true ∧ source.get? b = some 0x09 then 1 else 0) ∧
    (0 ≤ snap.indentOf source shot offset ∧ snap.indentOf source shot offset ≤ 1) ∧
    snap.indentChecked source shot offset = some (snap.indentOf source shot offset) := by
  have hspec := snap.lineStart_spec source offset offset (le_refl _) h
  have hchk := snap.lineStartChecked_eq source offset offset (le_refl _) h
  have heq : snap.indentOf source shot offset
      = if shot.indentOk = true ∧
          source.get? (snap.lineStart source offset offset) = some 0x09 then 1 else 0 := by
    unfold snap.indentOf
    cases hi : shot.indentOk
    · simp
    · simp only [if_true, Int.toNat_zero, Nat.add_zero, true_and, zero_add]
      by_cases ht : source.get? (snap.lineStart source offset offset) = some 0x09
      · have hlt : snap.lineStart source offset offset < source.length := by
          by_contra hc
          rw [List.get?_eq_none.2 (by omega)] at ht
          cases ht
        simp [ht, hlt]
      · have ht2 := ht
        rw [List.get?_eq_getElem?] at ht2
        simp [ht, ht2]
  refine ⟨⟨_, hspec⟩, ?_, ?_, ?_⟩
  · intro b hb
    rw [snap.IsLineStart_unique source offset b _ hb hspec]
    exact heq
  · rw [heq]
    split_ifs <;> simp
  · rw [heq]
    unfold snap.indentChecked
    cases hi : shot.indentOk
    · simp
    · simp only [if_true, hchk, add_zero, zero_add, true_and]
      have hnn : ¬ ((snap.lineStart source offset offset : Nat) : Int) < 0 := by omega
      simp only [hnn, if_false, Int.toNat_ofNat, Nat.cast_lt]
      by_cases ht : source.get? (snap.lineStart source offset offset) = some 0x09
      · have hlt : snap.lineStart source offset offset < source.length := by
          by_contra hc
          rw [List.get?_eq_none.2 (by omega)] at ht
          cases ht
        rw [if_pos hlt, if_pos ht, if_pos ht]
      · rw [if_neg ht, if_neg ht]
        split_ifs <;> rfl

/-- C16 at a call on a line that begins with a tab, for a whitespace-tolerant
record. -/
theorem indent_one_tab_witness :
    snap.indentOf (ascii "x\n\tsnap.Source(1)\n")
      (snap.compared "x_test.go" 2 [] [] true).2 14 = 1 ∧
    snap.indentChecked (ascii "x\n\tsnap.Source(1)\n")
      (snap.compared "x_test.go" 2 [] [] true).2 14 = some 1 := by
  have h := indent_one_tab (ascii "x\n\tsnap.Source(1)\n")
    (snap.compared "x_test.go" 2 [] [] true).2 14 (by decide)
  have e : snap.indentOf (ascii "x\n\tsnap.Source(1)\n")
      (snap.compared "x_test.go" 2 [] [] true).2 14 = 1 := by decide
  exact ⟨e, by rw [← e]; exact h.2.2.2⟩

/-! ## When the file is written -/

namespace snap

theorem finish_recent (source : Bytes) (st : State) (recent : List tok) :
    finish source { st with recent := recent } = finish source st := rfl

/-- Without a call site in the file the scan loop copies the source: the run
from any state of the outer loop ends in `finish`. -/
theorem scanLoop_no_site (Quote : Bytes → Bytes) (file : String) (source : Bytes)
    (s : shots) (toks : List tok)
    (hEOF : ∀ t ∈ toks, t.token ≠ token.Token.EOF)
    (hno : ∀ i, ¬ isSite s file toks i) :
    ∀ (ts pre : List tok) (st : State),
      toks = pre ++ ts → st.shots = s → WinInv pre st.recent →
      scanLoop Quote file source none 0 st ts = finish source st := by
  intro ts
  induction ts with
  | nil =>
    intro pre st _ _ _
    simp only [scanLoop]
  | cons t rest ih =>
    intro pre st htoks hs hw
    have htmem : t ∈ toks := by rw [htoks]; simp
    have hteof := hEOF t htmem
    have htoks1 : toks = (pre ++ [t]) ++ rest := by rw [htoks]; simp
    have hwin := WinInv_step pre st.recent t hw
    have hhead : isHead toks pre.length ↔
        st.recent.drop 1 ++ [tokKey t] = matchToks := by
      unfold isHead
      rw [htoks, take_append_succ]
      exact hwin.2.symm
    have hti : tokAt toks pre.length = t := by rw [htoks]; exact tokAt_append pre t rest
    have hlen : pre.length < toks.length := by rw [htoks]; simp
    have hnext : scanLoop Quote file source none 0
        { st with recent := st.recent.drop 1 ++ [tokKey t] } rest = finish source st := by
      rw [ih (pre ++ [t]) { st with recent := st.recent.drop 1 ++ [tokKey t] } htoks1 hs hwin.1]
      rfl
    rw [scanLoop]
    simp only [hteof, if_false]
    by_cases hm : st.recent.drop 1 ++ [tokKey t] = matchToks
    · have hm1 : (List.drop 1 st.recent ++
          [{ token := t.token, literal := t.literal, line := 0, offset := 0 }]) = matchToks :=
        hm
      rw [hm] at hnext
      simp only [hm1, ne_eq, not_true_eq_false, if_false]
      cases hg : mapGet st.shots.byLocation { file := file, line := t.line } with
      | none => exact hnext
      | some shot =>
        simp only
        by_cases hq : (!shot.hasActual || shot.calledMultiple) = true
        · simp only [hq, if_true]
          exact hnext
        · exfalso
          have hact : shot.hasActual = true := by
            cases h1 : shot.hasActual <;> simp [h1] at hq ⊢
          have hcm : shot.calledMultiple = false := by
            cases h1 : shot.calledMultiple <;> simp [h1] at hq ⊢
          refine hno pre.length ⟨hlen, hhead.2 hm, shot, ?_, hact, hcm⟩
          rw [hti, ← hs]
          exact hg
    · have hm1 : (List.drop 1 st.recent ++
          [{ token := t.token, literal := t.literal, line := 0, offset := 0 }]) ≠ matchToks :=
        hm
      simp only [hm1, ne_eq, not_false_eq_true, if_true]
      exact hnext

theorem finish_init (source : Bytes) (s : shots) :
    finish source { shots := s, out := [], prevOffset := 0, recent := recentZero }
      = (s, .ok source) := by
  simp [finish, slice]

/-- Replacing spans by the text they hold gives the source back. -/
theorem splice_same (source : Bytes) (spans : List (Nat × Nat × Bytes)) (prev : Nat)
    (hv : validSpans source prev spans)
    (h : ∀ sp ∈ spans, sp.2.2 = (source.take (sp.2.1 + 1)).drop sp.1 ∧ sp.2.2 ≠ []) :
    splice source prev spans = source.drop prev := by
  induction spans generalizing prev with
  | nil => rfl
  | cons sp rest ih =>
    obtain ⟨h1, h2, h3⟩ := hv
    obtain ⟨e, hne⟩ := h sp (List.mem_cons_self _ _)
    have hlt : sp.1 < sp.2.1 + 1 := by
      by_contra hc
      apply hne
      rw [e]
      apply List.drop_eq_nil_of_le
      rw [List.length_take]
      omega
    rw [splice, ih (sp.2.1 + 1) h3 (fun q hq => h q (List.mem_cons_of_mem _ hq)), e]
    have a1 : source.drop prev = (source.take sp.1).drop prev ++ source.drop sp.1 := by
      conv_lhs => rw [← List.take_append_drop sp.1 source]
      rw [List.drop_append_of_le_length (by rw [List.length_take]; omega)]
    have a2 : source.drop sp.1
        = (source.take (sp.2.1 + 1)).drop sp.1 ++ source.drop (sp.2.1 + 1) := by
      conv_lhs => rw [← List.take_append_drop (sp.2.1 + 1) source]
      by_cases hl : sp.2.1 + 1 ≤ source.length
      · rw [List.drop_append_of_le_length (by rw [List.length_take]; omega)]
      · rw [List.take_of_length_le (by omega),
          List.drop_of_length_le (by omega : source.length ≤ sp.2.1 + 1)]
        simp
    rw [a1, a2, List.append_assoc]

end snap

/-- C15: after a scan that ends with an output, `updateFile` leaves the file
system as it is when the output is the source, and otherwise writes the output
to the file (or returns the write error); when the scanner reports no error and
no `snap.Source(` qualifies for rewriting, the output is the source and nothing
is written; and when `updateFile` returns no error and the text of every
qualifying call, from its opening parenthesis through the matching closing one,
already is the formatted actual value in parentheses, nothing is written. -/
theorem updateFile_writes_iff (Quote : Bytes → Bytes) (Scan : String → Bytes → snap.Scanned)
    (s : snap.shots) (fs : os.FileSystem) (file : String) (source : Bytes)
    (hread : fs.read file = some source)
    (hEOF : ∀ t ∈ (Scan file source).toks, t.token ≠ token.Token.EOF) :
    (∀ s1 out, snap.scanLoop Quote file source (Scan file source).err 0
        { shots := s, out := [], prevOffset := 0, recent := snap.recentZero }
        (Scan file source).toks = (s1, .ok out) →
      (out = source → snap.updateFile Quote Scan s fs file = (s1, fs, none)) ∧
      (out ≠ source → fs.canWrite file = true →
        ∃ fs1, snap.updateFile Quote Scan s fs file = (s1, fs1, none) ∧
          fs1.read file = some out ∧ ∀ f, f ≠ file → fs1.read f = fs.read f) ∧
      (out ≠ source → fs.canWrite file = false →
        snap.updateFile Quote Scan s fs file = (s1, fs, some (.write file)))) ∧
    ((Scan file source).err = none →
      (∀ i, ¬ snap.isSite s file (Scan file source).toks i) →
      snap.updateFile Quote Scan s fs file = (s, fs, none)) ∧
    ((snap.updateFile Quote Scan s fs file).2.2 = none →
      (∀ i j shot, snap.isSite s file (Scan file source).toks i →
        snap.isClose (Scan file source).toks i j →
        snap.mapGet s.byLocation
          { file := file, line := (snap.tokAt (Scan file source).toks i).line } = some shot →
        snap.callText source (Scan file source).toks i j
          = [0x28] ++ snap.format Quote shot.actual
              (snap.indentOf source shot (snap.tokAt (Scan file source).toks i).offset)
            ++ [0x29]) →
      (snap.updateFile Quote Scan s fs file).2.1 = fs) := by
  refine ⟨?_, ?_, ?_⟩
  · intro s1 out hrun
    refine ⟨?_, ?_, ?_⟩
    · intro he
      simp [snap.updateFile, hread, hrun, he]
    · intro hne hw
      refine ⟨{ fs with read := fun f => if f = file then some out else fs.read f }, ?_, ?_, ?_⟩
      · simp [snap.updateFile, hread, hrun, hne, os.FileSystem.write, hw]
      · simp
      · intro f hf; simp [hf]
    · intro hne hw
      simp [snap.updateFile, hread, hrun, hne, os.FileSystem.write, hw]
  · intro herr hno
    have hrun := snap.scanLoop_no_site Quote file source s (Scan file source).toks hEOF hno
      (Scan file source).toks []
      { shots := s, out := [], prevOffset := 0, recent := snap.recentZero } rfl rfl
      snap.WinInv_init
    rw [snap.finish_init] at hrun
    simp [snap.updateFile, hread, herr, hrun]
  · intro hok hsame
    obtain ⟨out, hrun, _⟩ := snap.updateFile_ok Quote Scan s fs file source hread hok
    obtain ⟨sites, ho, hvalid, hsites, _, _⟩ := snap.Post_outer Quote file source s _ _ out
      (snap.scanLoop_rewrites Quote file source _ s _ _ out hEOF hrun)
    have hout : out = source := by
      rw [ho, snap.splice_same source _ 0 hvalid]
      · rfl
      · intro sp hsp
        obtain ⟨p, hp, rfl⟩ := List.mem_map.1 hsp
        obtain ⟨hsite, hclose⟩ := hsites p hp
        obtain ⟨_, _, shot, hg, _, _⟩ := hsite
        have e := hsame p.1 p.2 shot (hsites p hp).1 hclose hg
        simp only [snap.spanOf, hg]
        exact ⟨e.symm, by simp⟩
    unfold snap.updateFile
    simp only [hread]
    rw [hrun]
    simp [hout]

/-- C15 at the call of the package documentation with an empty registry. -/
theorem updateFile_writes_iff_witness :
    snap.updateFile id (snap.scanned snap.docToks) snap.globalShots
        (os.oneFile "x_test.go" snap.docSource) "x_test.go"
      = (snap.globalShots, os.oneFile "x_test.go" snap.docSource, none) :=
  (updateFile_writes_iff id (snap.scanned snap.docToks) snap.globalShots
    (os.oneFile "x_test.go" snap.docSource) "x_test.go" snap.docSource
    (by decide) (by decide)).2.1 rfl
    (fun i h => by
      obtain ⟨_, _, shot, hg, _⟩ := h
      cases hg)

/-! ## Errors of the scan -/

namespace snap

/-- One iteration of the loops of `updateFile` on a token that is not EOF: the
run goes on with the next token, the copy offset unchanged or moved behind a
closing parenthesis, or the slice expression at an opening parenthesis is out
of range. -/
theorem scanLoop_step (Quote : Bytes → Bytes) (file : String) (source : Bytes)
    (err : Option String) (depth : Nat) (st : State) (t : tok) (rest : List tok)
    (ht : t.token ≠ token.Token.EOF) :
    (∃ depth1 st1, scanLoop Quote file source err depth st (t :: rest)
        = scanLoop Quote file source err depth1 st1 rest ∧
      (st1.prevOffset = st.prevOffset ∨
        (t.token = token.Token.RPAREN ∧ st1.prevOffset = t.offset + 1))) ∨
    (∃ s1, scanLoop Quote file source err depth st (t :: rest) = (s1, .error .outOfRange) ∧
      t.token = token.Token.LPAREN ∧ slice source st.prevOffset t.offset = none) := by
  cases depth with
  | zero =>
    rw [scanLoop]
    simp only [ht, if_false]
    by_cases hm : (List.drop 1 st.recent ++
        [{ token := t.token, literal := t.literal, line := 0, offset := 0 }]) = matchToks
    · simp only [hm, ne_eq, not_true_eq_false, if_false]
      have hlp : t.token = token.Token.LPAREN := by
        have h1 := congrArg List.getLast? hm
        simp [matchToks] at h1
        exact h1.1
      cases hg : mapGet st.shots.byLocation { file := file, line := t.line } with
      | none => exact Or.inl ⟨0, _, rfl, Or.inl rfl⟩
      | some shot =>
        simp only
        by_cases hq : (!shot.hasActual || shot.calledMultiple) = true
        · simp only [hq, if_true]
          exact Or.inl ⟨0, _, rfl, Or.inl rfl⟩
        · simp only [hq, if_false]
          cases hs : slice source st.prevOffset t.offset with
          | none => exact Or.inr ⟨_, rfl, hlp, rfl⟩
          | some chunk => exact Or.inl ⟨1, _, rfl, Or.inl rfl⟩
    · simp only [hm, ne_eq, not_false_eq_true, if_true]
      exact Or.inl ⟨0, _, rfl, Or.inl rfl⟩
  | succ d =>
    rw [scanLoop]
    simp only [ht, if_false]
    left
    by_cases hl : t.token = token.Token.LPAREN
    · simp only [hl]
      simp only [Nat.add_eq_zero, OfNat.ofNat_ne_zero, and_false, if_false]
      exact ⟨d + 2, st, rfl, Or.inl rfl⟩
    · by_cases hrp : t.token = token.Token.RPAREN
      · simp only [hrp]
        by_cases hd0 : d = 0
        · subst hd0
          simp only [if_true]
          exact ⟨0, _, rfl, Or.inr ⟨trivial, rfl⟩⟩
        · simp only [hd0, if_false]
          exact ⟨d, st, rfl, Or.inl rfl⟩
      · refine ⟨d + 1, st, ?_, Or.inl rfl⟩
        generalize t.token = k at hl hrp
        cases k <;> first | exact absurd rfl hl | exact absurd rfl hrp | simp

/-- The errors a run of the scan loop can end with. -/
theorem scanLoop_error_kinds (Quote : Bytes → Bytes) (file : String) (source : Bytes)
    (err : Option String) :
    ∀ (ts : List tok) (depth : Nat) (st : State) (s1 : shots) (e : UpdateError),
      scanLoop Quote file source err depth st ts = (s1, .error e) →
      e = .unexpectedEOF ∨ e = .outOfRange ∨ ∃ msg, err = some msg ∧ e = .parse msg := by
  intro ts
  induction ts with
  | nil =>
    intro depth st s1 e h
    cases depth with
    | zero =>
      simp only [scanLoop] at h
      cases err with
      | some msg =>
        simp only [Prod.mk.injEq, Except.error.injEq] at h
        exact Or.inr (Or.inr ⟨msg, rfl, h.2.symm⟩)
      | none =>
        simp only [finish] at h
        cases hs : slice source st.prevOffset source.length with
        | none =>
          rw [hs] at h
          simp only [Prod.mk.injEq, Except.error.injEq] at h
          exact Or.inr (Or.inl h.2.symm)
        | some r => rw [hs] at h; simp at h
    | succ d =>
      simp only [scanLoop] at h
      cases err with
      | some msg =>
        simp only [Prod.mk.injEq, Except.error.injEq] at h
        exact Or.inr (Or.inr ⟨msg, rfl, h.2.symm⟩)
      | none =>
        simp only [Prod.mk.injEq, Except.error.injEq] at h
        exact Or.inl h.2.symm
  | cons t rest ih =>
    intro depth st s1 e h
    by_cases ht : t.token = token.Token.EOF
    · cases depth with
      | zero =>
        rw [scanLoop] at h
        simp only [ht, if_true, finish] at h
        cases hs : slice source st.prevOffset source.length with
        | none =>
          rw [hs] at h
          simp only [Prod.mk.injEq, Except.error.injEq] at h
          exact Or.inr (Or.inl h.2.symm)
        | some r => rw [hs] at h; simp at h
      | succ d =>
        rw [scanLoop] at h
        simp only [ht, if_true, Prod.mk.injEq, Except.error.injEq] at h
        exact Or.inl h.2.symm
    · rcases scanLoop_step Quote file source err depth st t rest ht with
        ⟨d1, st1, e1, _⟩ | ⟨s2, e1, _⟩
      · rw [e1] at h
        exact ih d1 st1 s1 e h
      · rw [e1] at h
        simp only [Prod.mk.injEq, Except.error.injEq] at h
        exact Or.inr (Or.inl h.2.symm)

theorem get?_some_lt (source : Bytes) (i : Nat) (b : Byte) (h : source.get? i = some b) :
    i < source.length := by
  by_contra hc
  rw [List.get?_eq_none.2 (by omega)] at h
  cases h

/-- With the token positions of a scan no slice expression is out of range. -/
theorem scanLoop_in_range (Quote : Bytes → Bytes) (file : String) (source : Bytes)
    (err : Option String) :
    ∀ (ts : List tok) (depth : Nat) (st : State), OffsetsOk source st.prevOffset ts →
      (scanLoop Quote file source err depth st ts).2 ≠ .error .outOfRange := by
  intro ts
  induction ts with
  | nil =>
    intro depth st hok
    have hs : slice source st.prevOffset source.length
        = some ((source.take source.length).drop st.prevOffset) := by
      simp [slice, hok.1]
    cases depth with
    | zero =>
      simp only [scanLoop]
      cases err with
      | some msg => simp
      | none => simp [finish, hs]
    | succ d =>
      simp only [scanLoop]
      cases err <;> simp
  | cons t rest ih =>
    intro depth st hok
    obtain ⟨h1, h2, h3, h4⟩ := hok
    by_cases ht : t.token = token.Token.EOF
    · have hs : slice source st.prevOffset source.length
          = some ((source.take source.length).drop st.prevOffset) := by
        simp [slice, h1]
      cases depth with
      | zero =>
        rw [scanLoop]
        simp [ht, finish, hs]
      | succ d =>
        rw [scanLoop]
        simp [ht]
    · have h3' := List.pairwise_cons.1 h3
      rcases scanLoop_step Quote file source err depth st t rest ht with
        ⟨d1, st1, e1, hp⟩ | ⟨s2, _, hlp, hs⟩
      · rw [e1]
        apply ih
        rcases hp with hp | ⟨hrp, hp⟩
        · rw [hp]
          exact ⟨h1, fun x hx => h2 x (List.mem_cons_of_mem _ hx), h3'.2,
            fun x hx => h4 x (List.mem_cons_of_mem _ hx)⟩
        · rw [hp]
          have := get?_some_lt _ _ _ ((h4 t (List.mem_cons_self _ _)).2 hrp)
          exact ⟨by omega, fun x hx => by have := h3'.1 x hx; omega, h3'.2,
            fun x hx => h4 x (List.mem_cons_of_mem _ hx)⟩
      · exfalso
        have := get?_some_lt _ _ _ ((h4 t (List.mem_cons_self _ _)).1 hlp)
        have := h2 t (List.mem_cons_self _ _)
        simp only [slice] at hs
        rw [if_pos ⟨by omega, by omega⟩] at hs
        cases hs

/-- After a lexical error the run ends with an error other than unexpected
EOF. -/
theorem scanLoop_after_error (Quote : Bytes → Bytes) (file : String) (source : Bytes)
    (msg : String) :
    ∀ (ts : List tok) (depth : Nat) (st : State),
      (∀ t ∈ ts, t.token ≠ token.Token.EOF) →
      ∃ s1 e, scanLoop Quote file source (some msg) depth st ts = (s1, .error e) ∧
        e ≠ .unexpectedEOF := by
  intro ts
  induction ts with
  | nil =>
    intro depth st _
    cases depth <;>
      exact ⟨st.shots, .parse msg, by simp only [scanLoop], by simp⟩
  | cons t rest ih =>
    intro depth st hEOF
    have ht := hEOF t (List.mem_cons_self _ _)
    rcases scanLoop_step Quote file source (some msg) depth st t rest ht with
      ⟨d1, st1, e1, _⟩ | ⟨s2, e1, _⟩
    · rw [e1]
      exact ih d1 st1 (fun x hx => hEOF x (List.mem_cons_of_mem _ hx))
    · exact ⟨s2, _, e1, by simp⟩

/-- A token sequence whose balance brings a positive depth to 0 or below has a
first closing parenthesis that brings the depth to 0. -/
theorem exists_close (l : List tok) :
    ∀ d : Nat, 0 < d → (d : Int) + balance l ≤ 0 →
      ∃ m, m ≤ l.length ∧ 0 < m ∧ closesAt d (l.take m) := by
  induction l with
  | nil =>
    intro d hd h
    rw [balance_nil] at h
    omega
  | cons t rest ih =>
    intro d hd h
    obtain ⟨d0, rfl⟩ : ∃ d0, d = d0 + 1 := ⟨d - 1, by omega⟩
    rw [balance_cons] at h
    by_cases hz : ((d0 : Int) + 1 + ((if t.token = token.Token.LPAREN then 1 else 0)
        - (if t.token = token.Token.RPAREN then 1 else 0))) = 0
    · refine ⟨1, by simp, by omega, ?_⟩
      have := closesAt_cons d0 0 t [] (by push_cast; omega) ?_
      · simpa using this
      · refine ⟨by simp [balance_nil], ?_⟩
        intro p hp hne
        exact absurd (List.prefix_nil.1 hp) hne
    · obtain ⟨d1, hd1⟩ : ∃ d1 : Nat, (d1 : Int) = (d0 : Int) + 1 +
          ((if t.token = token.Token.LPAREN then 1 else 0)
            - (if t.token = token.Token.RPAREN then 1 else 0)) := by
        refine ⟨((d0 : Int) + 1 + ((if t.token = token.Token.LPAREN then 1 else 0)
          - (if t.token = token.Token.RPAREN then 1 else 0))).toNat, ?_⟩
        rw [Int.toNat_of_nonneg]
        split_ifs <;> omega
      obtain ⟨m, hm1, hm2, hm3⟩ := ih d1 (by omega) (by push_cast at h ⊢; omega)
      refine ⟨m + 1, by simp; omega, by omega, ?_⟩
      rw [List.take_succ_cons]
      exact closesAt_cons d0 d1 t _ hd1 hm3

/-- A token inside the parentheses of a closed call has a matching closing
parenthesis of its own. -/
theorem isClose_inner (toks : List tok) (a b i : Nat) (h : isClose toks a b)
    (hai : a ≤ i) (hib : i < b) : ∃ j, isClose toks i j := by
  obtain ⟨hab, hb, hc1, hc2⟩ := h
  -- the tokens after `a` up to `i` and those after `i` up to `b`
  have hsplit : (toks.drop (a + 1)).take (b - a)
      = (toks.drop (a + 1)).take (i - a) ++ (toks.drop (i + 1)).take (b - i) := by
    have e1 : b - a = (i - a) + (b - i) := by omega
    rw [e1, List.take_add, List.drop_drop]
    congr 3
    omega
  have hpos : 0 < (1 : Int) + balance ((toks.drop (a + 1)).take (i - a)) := by
    apply hc2
    · rw [hsplit]; exact List.prefix_append _ _
    · intro hc
      have := congrArg List.length hc
      simp at this
      omega
  rw [hsplit, balance_append] at hc1
  obtain ⟨m, hm1, hm2, hm3⟩ := exists_close ((toks.drop (i + 1)).take (b - i)) 1 (by omega)
    (by push_cast at hc1 ⊢; omega)
  have hlen : ((toks.drop (i + 1)).take (b - i)).length = b - i := by
    simp; omega
  rw [hlen] at hm1
  rw [List.take_take, min_eq_left hm1] at hm3
  refine ⟨i + m, by omega, by omega, ?_⟩
  have e : i + m - i = m := by omega
  rw [e]
  exact hm3

end snap

/-- C18: with the token positions of a scan, if the scanner reports a lexical
error, `updateFile` returns that parse error, and if it reports none and some
call site has no matching closing parenthesis, `updateFile` returns the
unexpected-EOF error; in both cases the file system is left as it is. -/
theorem updateFile_scan_errors (Quote : Bytes → Bytes) (Scan : String → Bytes → snap.Scanned)
    (s : snap.shots) (fs : os.FileSystem) (file : String) (source : Bytes)
    (hread : fs.read file = some source)
    (hEOF : ∀ t ∈ (Scan file source).toks, t.token ≠ token.Token.EOF)
    (hscan : snap.ScannedAt source (Scan file source).toks) :
    (∀ msg, (Scan file source).err = some msg →
      (snap.updateFile Quote Scan s fs file).2 = (fs, some (.parse msg))) ∧
    ((Scan file source).err = none →
      (∃ i, snap.isSite s file (Scan file source).toks i ∧
        ∀ j, ¬ snap.isClose (Scan file source).toks i j) →
      (snap.updateFile Quote Scan s fs file).2 = (fs, some .unexpectedEOF)) := by
  have hok : snap.OffsetsOk source 0 (Scan file source).toks :=
    ⟨Nat.zero_le _, fun _ _ => Nat.zero_le _, hscan.1, hscan.2⟩
  have hrange := snap.scanLoop_in_range Quote file source (Scan file source).err
    (Scan file source).toks 0
    { shots := s, out := [], prevOffset := 0, recent := snap.recentZero } hok
  constructor
  · intro msg herr
    obtain ⟨s1, e, hrun, hne⟩ := snap.scanLoop_after_error Quote file source msg
      (Scan file source).toks 0
      { shots := s, out := [], prevOffset := 0, recent := snap.recentZero } hEOF
    rw [herr] at hrange
    rw [hrun] at hrange
    rcases snap.scanLoop_error_kinds Quote file source (some msg) _ _ _ _ _ hrun with
      h | h | ⟨m, hm, h⟩
    · exact absurd h hne
    · rw [h] at hrange; exact absurd rfl hrange
    · cases hm
      simp [snap.updateFile, hread, herr, hrun, h]
  · intro herr ⟨i, hsite, hnc⟩
    cases hrun : snap.scanLoop Quote file source (Scan file source).err 0
        { shots := s, out := [], prevOffset := 0, recent := snap.recentZero }
        (Scan file source).toks with
    | mk s1 res =>
      cases res with
      | ok out =>
        exfalso
        obtain ⟨sites, _, _, hsites, _, hcover⟩ := snap.Post_outer Quote file source s _ _ out
          (snap.scanLoop_rewrites Quote file source _ s _ _ out hEOF hrun)
        obtain ⟨p, hp, h1, h2⟩ := hcover i hsite
        have hcl := (hsites p hp).2
        have hlp := snap.isHead_lparen _ i hsite.1 hsite.2.1
        have hrp := snap.isClose_rparen _ _ _ hcl
        have hne : i ≠ p.2 := by
          intro hc
          rw [← hc, hlp] at hrp
          cases hrp
        obtain ⟨j, hj⟩ := snap.isClose_inner _ p.1 p.2 i hcl h1 (by omega)
        exact hnc j hj
      | error e =>
        rw [hrun] at hrange
        rcases snap.scanLoop_error_kinds Quote file source _ _ _ _ _ _ hrun with
          h | h | ⟨m, hm, _⟩
        · simp [snap.updateFile, hread, hrun, h]
        · rw [h] at hrange; exact absurd rfl hrange
        · rw [herr] at hm; cases hm

/-- C18 at a call whose closing parenthesis is missing. -/
theorem updateFile_scan_errors_witness :
    (snap.updateFile id (snap.scanned snap.unclosedToks) snap.docShots
      (os.oneFile "x_test.go" snap.unclosedSource) "x_test.go").2
      = (os.oneFile "x_test.go" snap.unclosedSource, some snap.UpdateError.unexpectedEOF) :=
  (updateFile_scan_errors id (snap.scanned snap.unclosedToks) snap.docShots
    (os.oneFile "x_test.go" snap.unclosedSource) "x_test.go" snap.unclosedSource
    (by decide) (by decide) ⟨by decide, by decide⟩).2 rfl
    ⟨3, ⟨by decide, ⟨[], by decide⟩, _, rfl, rfl, rfl⟩, fun j hj => by
      obtain ⟨h1, h2, h3, _⟩ := hj
      have h4 : j < 6 := h2
      interval_cases j <;> revert h3 <;> decide⟩

/-! ## Runs on concrete files -/

/-- C14 fails on a call whose line begins with two tabs: the indent is 1, and
`updateFile` writes the continuation lines of the literal with one tab in
front, not two. -/
theorem updateFile_two_tabs :
    (snap.tabsSource.takeWhile (fun b => b = 0x09)).length = 2 ∧
    snap.indentOf snap.tabsSource (snap.compared "x_test.go" 1 [] [] true).2 18 = 1 ∧
    (snap.updateFile strconv.quotePlain (snap.scanned snap.tabsToks) snap.tabsShots
      (os.oneFile "x_test.go" snap.tabsSource) "x_test.go").2.2 = none ∧
    (snap.updateFile strconv.quotePlain (snap.scanned snap.tabsToks) snap.tabsShots
      (os.oneFile "x_test.go" snap.tabsSource) "x_test.go").2.1.read "x_test.go"
      = some (ascii "\t\ts := snap.Source(\x60[\n\t\t1\n\t]\x60)\n") := by
  refine ⟨by decide, by decide, by decide, by decide⟩

/-- C17 fails on a file that ends with an empty line: no record has an actual
value, yet the output of `rewrite` ends with the last token, so it is not the
source, and the file is written without its last byte. -/
theorem rewriteFile_drops_tail :
    (snapsource.rewriteFile strconv.quotePlain token.stringOf
      (fun _ _ => (snapsource.tailItems, none)) snapsource.tailShots
      (os.oneFile "x_test.go" snapsource.tailSource) "x_test.go").2.2 = none ∧
    (snapsource.rewriteFile strconv.quotePlain token.stringOf
      (fun _ _ => (snapsource.tailItems, none)) snapsource.tailShots
      (os.oneFile "x_test.go" snapsource.tailSource) "x_test.go").2.1.read "x_test.go"
      = some (ascii "var s = snapsource.S(\x60a\x60)\n") ∧
    ascii "var s = snapsource.S(\x60a\x60)\n" ≠ snapsource.tailSource := by
  refine ⟨by decide, by decide, by decide⟩

/-! ## The round trip of the quoted form -/

section

open utf8

theorem AppendRune_append (p : Bytes) (r : Nat) : AppendRune p r = p ++ AppendRune [] r := by
  unfold AppendRune
  dsimp only
  split_ifs <;> simp

theorem ofNat_eq_byte (b : Byte) (x : Nat) (h : x % 256 = b.val) : (Fin.ofNat x : Byte) = b := by
  apply Fin.ext
  exact h

/-- Decoding then encoding: a valid encoding of more than one byte is what
`AppendRune` writes for its rune, which is a valid rune from U+0080 on. -/
theorem DecodeRune_encode (s : Bytes) (h : 1 < (DecodeRune s).2) :
    AppendRune [] (DecodeRune s).1 = s.take (DecodeRune s).2 ∧
    0x80 ≤ (DecodeRune s).1 ∧ (DecodeRune s).1 ≤ 0x10FFFF ∧
    ValidRune (DecodeRune s).1 = true ∧
    ∀ T, DecodeRune (s.take (DecodeRune s).2 ++ T) = DecodeRune s := by
  rcases DecodeRune_cases s with ⟨_, e⟩ | ⟨_, _, _, _, e⟩ | ⟨_, _, _, _, e⟩ |
    ⟨p0, b1, rest, hs, h0, h1, e⟩ | ⟨p0, b1, b2, rest, hs, h0, h1, hlo, hhi, h2, e⟩ |
    ⟨p0, b1, b2, b3, rest, hs, h0, h1, hlo, hhi, h2, h3, e⟩
  · rw [e] at h; simp at h
  · rw [e] at h; simp at h
  · rw [e] at h; simp at h
  · rw [e]
    subst hs
    simp only [List.take_succ_cons, List.take_zero]
    refine ⟨?_, by omega, by omega, ?_, ?_⟩
    · unfold AppendRune
      have c1 : ¬ ((p0.val % 32) * 64 + b1.val % 64 ≤ 0x7F) := by omega
      have c2 : (p0.val % 32) * 64 + b1.val % 64 ≤ 0x7FF := by omega
      rw [if_neg c1, if_pos c2]
      simp only [List.nil_append]
      rw [ofNat_eq_byte p0 _ (by omega), ofNat_eq_byte b1 _ (by omega)]
    · unfold ValidRune surrogateMin
      rw [if_pos (by omega)]
    · intro T
      exact DecodeRune_two_ok p0 b1 T h0 h1
  · rw [e]
    subst hs
    simp only [List.take_succ_cons, List.take_zero]
    have hr1 : 0x800 ≤ (p0.val % 16) * 4096 + (b1.val % 64) * 64 + b2.val % 64 := by
      by_cases hp : p0.val = 0xE0
      · have := hlo hp; omega
      · omega
    have hr2 : (p0.val % 16) * 4096 + (b1.val % 64) * 64 + b2.val % 64 ≤ 0xFFFF := by omega
    have hr3 : ¬ (0xD800 ≤ (p0.val % 16) * 4096 + (b1.val % 64) * 64 + b2.val % 64 ∧
        (p0.val % 16) * 4096 + (b1.val % 64) * 64 + b2.val % 64 ≤ 0xDFFF) := by
      by_cases hp : p0.val = 0xED
      · have := hhi hp; omega
      · omega
    refine ⟨?_, by omega, by omega, ?_, ?_⟩
    · unfold AppendRune MaxRune surrogateMin surrogateMax
      have c1 : ¬ ((p0.val % 16) * 4096 + (b1.val % 64) * 64 + b2.val % 64 ≤ 0x7F) := by omega
      have c2 : ¬ ((p0.val % 16) * 4096 + (b1.val % 64) * 64 + b2.val % 64 ≤ 0x7FF) := by omega
      have c3 : ¬ ((p0.val % 16) * 4096 + (b1.val % 64) * 64 + b2.val % 64 > 0x10FFFF ∨
          (0xD800 ≤ (p0.val % 16) * 4096 + (b1.val % 64) * 64 + b2.val % 64 ∧
            (p0.val % 16) * 4096 + (b1.val % 64) * 64 + b2.val % 64 ≤ 0xDFFF)) := by omega
      rw [if_neg c1, if_neg c2]
      simp only [c3, if_false, hr2, if_true, List.nil_append]
      rw [ofNat_eq_byte p0 _ (by omega), ofNat_eq_byte b1 _ (by omega),
        ofNat_eq_byte b2 _ (by omega)]
    · unfold ValidRune surrogateMin surrogateMax MaxRune
      split_ifs <;> first | rfl | omega
    · intro T
      exact DecodeRune_three_ok p0 b1 b2 T h0 h1 hlo hhi h2
  · rw [e]
    subst hs
    simp only [List.take_succ_cons, List.take_zero]
    have hr1 : 0x10000 ≤ (p0.val % 8) * 262144 + (b1.val % 64) * 4096 + (b2.val % 64) * 64
        + b3.val % 64 := by
      by_cases hp : p0.val = 0xF0
      · have := hlo hp; omega
      · omega
    have hr2 : (p0.val % 8) * 262144 + (b1.val % 64) * 4096 + (b2.val % 64) * 64
        + b3.val % 64 ≤ 0x10FFFF := by
      by_cases hp : p0.val = 0xF4
      · have := hhi hp; omega
      · omega
    refine ⟨?_, by omega, by omega, ?_, ?_⟩
    · unfold AppendRune MaxRune surrogateMin surrogateMax
      have c1 : ¬ ((p0.val % 8) * 262144 + (b1.val % 64) * 4096 + (b2.val % 64) * 64
          + b3.val % 64 ≤ 0x7F) := by omega
      have c2 : ¬ ((p0.val % 8) * 262144 + (b1.val % 64) * 4096 + (b2.val % 64) * 64
          + b3.val % 64 ≤ 0x7FF) := by omega
      have c3 : ¬ ((p0.val % 8) * 262144 + (b1.val % 64) * 4096 + (b2.val % 64) * 64
          + b3.val % 64 > 0x10FFFF ∨
          (0xD800 ≤ (p0.val % 8) * 262144 + (b1.val % 64) * 4096 + (b2.val % 64) * 64
            + b3.val % 64 ∧
            (p0.val % 8) * 262144 + (b1.val % 64) * 4096 + (b2.val % 64) * 64
              + b3.val % 64 ≤ 0xDFFF)) := by omega
      have c4 : ¬ ((p0.val % 8) * 262144 + (b1.val % 64) * 4096 + (b2.val % 64) * 64
          + b3.val % 64 ≤ 0xFFFF) := by omega
      rw [if_neg c1, if_neg c2]
      simp only [c3, if_false, c4, List.nil_append]
      rw [ofNat_eq_byte p0 _ (by omega), ofNat_eq_byte b1 _ (by omega),
        ofNat_eq_byte b2 _ (by omega), ofNat_eq_byte b3 _ (by omega)]
    · unfold ValidRune surrogateMin surrogateMax MaxRune
      split_ifs <;> first | rfl | omega
    · intro T
      exact DecodeRune_four_ok p0 b1 b2 b3 T h0 h1 hlo hhi h2 h3

end

namespace strconv

theorem unhex_lowerhex (d : Nat) (h : d < 16) : unhex (lowerhex d) = some d := by
  interval_cases d <;> decide

theorem hexDigits_length (r n : Nat) : (hexDigits r n).length = n := by
  induction n with
  | zero => rfl
  | succ n ih => simp [hexDigits, ih]

theorem hexValue_digits (r : Nat) : ∀ (n v : Nat),
    hexValue v (hexDigits r n) = some (v * 16 ^ n + r % 16 ^ n) := by
  intro n
  induction n with
  | zero => intro v; simp [hexDigits, hexValue, Nat.mod_one]
  | succ n ih =>
    intro v
    simp only [hexDigits, hexValue]
    rw [unhex_lowerhex _ (Nat.mod_lt _ (by norm_num))]
    simp only
    rw [ih, Nat.mod_pow_succ]
    congr 1
    ring

theorem hexValue_two (a b : Nat) (ha : a < 16) (hb : b < 16) :
    hexValue 0 [lowerhex a, lowerhex b] = some (a * 16 + b) := by
  simp [hexValue, unhex_lowerhex a ha, unhex_lowerhex b hb]

theorem UnquoteChar_ascii (c : Byte) (T : Bytes) (h1 : c.val < 0x80) (h2 : c ≠ 0x22)
    (h3 : c ≠ 0x5C) : UnquoteChar (c :: T) 0x22 = some (c.val, false, T) := by
  have h1n : ¬ c.val ≥ utf8.RuneSelf := by unfold utf8.RuneSelf; omega
  simp [UnquoteChar, h1n, h2, h3]

theorem UnquoteChar_wide (c : Byte) (T : Bytes) (h1 : 0x80 ≤ c.val) :
    UnquoteChar (c :: T) 0x22
      = some ((utf8.DecodeRune (c :: T)).1, true, (c :: T).drop (utf8.DecodeRune (c :: T)).2) := by
  have h1n : c.val ≥ utf8.RuneSelf := by unfold utf8.RuneSelf; omega
  have h2 : c ≠ 0x22 := by
    intro hc; rw [hc] at h1; exact absurd h1 (by decide)
  simp [UnquoteChar, h1n, h2]

theorem UnquoteChar_letter (c : Byte) (v : Nat) (T : Bytes)
    (h : (c, v) ∈ [((0x61 : Byte), 0x07), (0x62, 0x08), (0x66, 0x0C), (0x6E, 0x0A),
      (0x72, 0x0D), (0x74, 0x09), (0x76, 0x0B), (0x5C, 0x5C), (0x22, 0x22)]) :
    UnquoteChar (0x5C :: c :: T) 0x22 = some (v, false, T) := by
  simp only [List.mem_cons, Prod.mk.injEq, List.mem_singleton, List.not_mem_nil, or_false] at h
  rcases h with ⟨rfl, rfl⟩ | ⟨rfl, rfl⟩ | ⟨rfl, rfl⟩ | ⟨rfl, rfl⟩ | ⟨rfl, rfl⟩ | ⟨rfl, rfl⟩ |
    ⟨rfl, rfl⟩ | ⟨rfl, rfl⟩ | ⟨rfl, rfl⟩ <;> rfl

theorem UnquoteChar_x (h1 h2 : Byte) (v : Nat) (T : Bytes)
    (hv : hexValue 0 [h1, h2] = some v) :
    UnquoteChar (0x5C :: 0x78 :: h1 :: h2 :: T) 0x22 = some (v, false, T) := by
  have hbs : ¬ (128 ≤ ((0x5C : Byte) : Nat)) := by decide
  simp [UnquoteChar, hv, utf8.RuneSelf, hbs]

theorem UnquoteChar_u (ds : Bytes) (v : Nat) (T : Bytes) (hl : ds.length = 4)
    (hv : hexValue 0 ds = some v) (hvalid : utf8.ValidRune v = true) :
    UnquoteChar (0x5C :: 0x75 :: (ds ++ T)) 0x22 = some (v, true, T) := by
  have ht : (ds ++ T).take 4 = ds := by rw [← hl]; simp
  have hd : (ds ++ T).drop 4 = T := by rw [← hl]; simp
  have hlen : ¬ (ds ++ T).length < 4 := by simp [hl]
  have hbs : ¬ (128 ≤ ((0x5C : Byte) : Nat)) := by decide
  simp [UnquoteChar, ht, hd, hv, hvalid, hl, utf8.RuneSelf, hbs]

theorem UnquoteChar_U (ds : Bytes) (v : Nat) (T : Bytes) (hl : ds.length = 8)
    (hv : hexValue 0 ds = some v) (hvalid : utf8.ValidRune v = true) :
    UnquoteChar (0x5C :: 0x55 :: (ds ++ T)) 0x22 = some (v, true, T) := by
  have ht : (ds ++ T).take 8 = ds := by rw [← hl]; simp
  have hd : (ds ++ T).drop 8 = T := by rw [← hl]; simp
  have hbs : ¬ (128 ≤ ((0x5C : Byte) : Nat)) := by decide
  simp [UnquoteChar, ht, hd, hv, hvalid, hl, utf8.RuneSelf, hbs]

/-- One iteration of the loop of `unquote` on a character that is neither the
quote nor a newline. -/
theorem unquoteLoop_step (F : Nat) (c : Byte) (rest ubuf : Bytes) (r : Nat) (mb : Bool)
    (rem : Bytes) (hq : c ≠ 0x22) (hn : c ≠ 0x0A)
    (hu : UnquoteChar (c :: rest) 0x22 = some (r, mb, rem)) :
    unquoteLoop 0x22 (F + 1) (c :: rest) ubuf
      = unquoteLoop 0x22 F rem
          (if r < utf8.RuneSelf ∨ mb = false then ubuf ++ [Fin.ofNat r]
            else utf8.AppendRune ubuf r) := by
  rw [unquoteLoop]
  simp only [ne_eq, hq, not_false_eq_true, if_true, hu, hn, if_false]
  have : ¬ ((0x22 : Byte) = 0x27) := by decide
  simp only [this, if_false]

end strconv

namespace strconv

theorem ofNat_val (b : Byte) : (Fin.ofNat b.val : Byte) = b :=
  ofNat_eq_byte b _ (Nat.mod_eq_of_lt b.isLt)

/-- The loop of `unquote` on an escape sequence that starts with a backslash. -/
theorem unquoteLoop_escape (F : Nat) (e T ubuf chunk : Bytes) (r : Nat) (mb : Bool)
    (he : ∃ e1, e = 0x5C :: e1)
    (hu : UnquoteChar (e ++ T) 0x22 = some (r, mb, T))
    (hb : (if r < utf8.RuneSelf ∨ mb = false then ubuf ++ [Fin.ofNat r]
            else utf8.AppendRune ubuf r) = ubuf ++ chunk) :
    unquoteLoop 0x22 (F + 1) (e ++ T) ubuf = unquoteLoop 0x22 F T (ubuf ++ chunk) := by
  obtain ⟨e1, rfl⟩ := he
  rw [List.cons_append] at hu ⊢
  rw [unquoteLoop_step F 0x5C (e1 ++ T) ubuf r mb T (by decide) (by decide) hu, hb]

/-- What a step of `Quote` writes for an ASCII byte. -/
theorem quoteFirst_ascii (tbl : Nat → Bool) (s0 : Byte) (t : Bytes) (h : s0.val < 0x80) :
    quoteFirst tbl (s0 :: t) = (appendEscapedRune tbl [] s0.val, 1) := by
  have h1 : ¬ s0.val ≥ utf8.RuneSelf := by unfold utf8.RuneSelf; omega
  have h2 : ¬ s0.val = utf8.RuneError := by unfold utf8.RuneError; omega
  simp [quoteFirst, h1, h2]

theorem quoteFirst_spec_ascii (tbl : Nat → Bool) (s0 : Byte) (t : Bytes) (h : s0.val < 0x80) :
    ∃ e, quoteFirst tbl (s0 :: t) = (e, 1) ∧
      (∀ T ubuf F, unquoteLoop 0x22 (F + 1) (e ++ T) ubuf
        = unquoteLoop 0x22 F T (ubuf ++ [s0])) ∧
      ((e = [s0] ∧ (0x22 : Byte) ∉ e ∧ (0x5C : Byte) ∉ e) ∨ ∃ e1, e = 0x5C :: e1) := by
  refine ⟨_, quoteFirst_ascii tbl s0 t h, ?_⟩
  have hsmall : s0.val < utf8.RuneSelf := by unfold utf8.RuneSelf; omega
  have hbuf : ∀ (ubuf : Bytes) (mb : Bool),
      (if s0.val < utf8.RuneSelf ∨ mb = false then ubuf ++ [Fin.ofNat s0.val]
        else utf8.AppendRune ubuf s0.val) = ubuf ++ [s0] := by
    intro ubuf mb
    rw [if_pos (Or.inl hsmall), ofNat_val]
  -- an escape with a letter, a backslash or a quote
  have letter : ∀ (c : Byte), appendEscapedRune tbl [] s0.val = [0x5C, c] →
      (c, s0.val) ∈ [((0x61 : Byte), 0x07), (0x62, 0x08), (0x66, 0x0C), (0x6E, 0x0A),
        (0x72, 0x0D), (0x74, 0x09), (0x76, 0x0B), (0x5C, 0x5C), (0x22, 0x22)] →
      (∀ T ubuf F, unquoteLoop 0x22 (F + 1) (appendEscapedRune tbl [] s0.val ++ T) ubuf
        = unquoteLoop 0x22 F T (ubuf ++ [s0])) ∧
      ((appendEscapedRune tbl [] s0.val = [s0] ∧
          (0x22 : Byte) ∉ appendEscapedRune tbl [] s0.val ∧
          (0x5C : Byte) ∉ appendEscapedRune tbl [] s0.val) ∨
        ∃ e1, appendEscapedRune tbl [] s0.val = 0x5C :: e1) := by
    intro c he hc
    rw [he]
    refine ⟨fun T ubuf F => ?_, Or.inr ⟨_, rfl⟩⟩
    exact unquoteLoop_escape F _ T ubuf [s0] s0.val false ⟨_, rfl⟩
      (UnquoteChar_letter c s0.val T hc) (hbuf ubuf false)
  by_cases hq : s0.val = 0x22 ∨ s0.val = 0x5C
  · have he : appendEscapedRune tbl [] s0.val = [0x5C, s0] := by
      simp [appendEscapedRune, hq, ofNat_val]
    rcases hq with hq | hq
    · exact letter s0 he (by rw [hq, show s0 = 0x22 from Fin.ext hq]; simp)
    · exact letter s0 he (by rw [hq, show s0 = 0x5C from Fin.ext hq]; simp)
  · by_cases hp : IsPrint tbl s0.val = true
    · have hrange : 0x20 ≤ s0.val := by
        unfold IsPrint at hp
        by_contra hc
        have c1 : s0.val ≤ 0xFF := by omega
        have c2 : ¬ (0x20 ≤ s0.val ∧ s0.val < 0x7F) := by omega
        have c3 : ¬ (0xA1 ≤ s0.val ∧ s0.val ≤ 0xFF) := by omega
        simp [c1, c2] at hp
        omega
      have he : appendEscapedRune tbl [] s0.val = [s0] := by
        have c1 : s0.val ≤ 0x7F := by omega
        simp [appendEscapedRune, hq, hp, utf8.AppendRune, c1, ofNat_val]
      have hne1 : s0 ≠ 0x22 := fun hc => hq (Or.inl (by rw [hc]; rfl))
      have hne2 : s0 ≠ 0x5C := fun hc => hq (Or.inr (by rw [hc]; rfl))
      have hne3 : s0 ≠ 0x0A := by
        intro hc; rw [hc] at hrange; exact absurd hrange (by decide)
      rw [he]
      refine ⟨fun T ubuf F => ?_, Or.inl ⟨rfl, ?_, ?_⟩⟩
      · rw [List.singleton_append,
          unquoteLoop_step F s0 T ubuf s0.val false T hne1 hne3
            (UnquoteChar_ascii s0 T h hne1 hne2), hbuf ubuf false]
      · simpa using hne1.symm
      · simpa using hne2.symm
    · have hlow : s0.val < 0x20 ∨ s0.val = 0x7F := by
        by_contra hc
        apply hp
        unfold IsPrint
        have c1 : s0.val ≤ 0xFF := by omega
        have c2 : 0x20 ≤ s0.val ∧ s0.val < 0x7F := by omega
        simp [c1, c2]
      have hq1 : ¬ s0.val = 0x22 := fun hc => hq (Or.inl hc)
      have hq2 : ¬ s0.val = 0x5C := fun hc => hq (Or.inr hc)
      have hpf : IsPrint tbl s0.val = false := by
        cases hh : IsPrint tbl s0.val
        · rfl
        · exact absurd hh hp
      by_cases k1 : s0.val = 0x07
      · exact letter 0x61 (by rw [k1] at hpf ⊢; simp [appendEscapedRune, hpf]) (by rw [k1]; simp)
      by_cases k2 : s0.val = 0x08
      · exact letter 0x62 (by rw [k2] at hpf ⊢; simp [appendEscapedRune, hpf]) (by rw [k2]; simp)
      by_cases k3 : s0.val = 0x0C
      · exact letter 0x66 (by rw [k3] at hpf ⊢; simp [appendEscapedRune, hpf]) (by rw [k3]; simp)
      by_cases k4 : s0.val = 0x0A
      · exact letter 0x6E (by rw [k4] at hpf ⊢; simp [appendEscapedRune, hpf]) (by rw [k4]; simp)
      by_cases k5 : s0.val = 0x0D
      · exact letter 0x72 (by rw [k5] at hpf ⊢; simp [appendEscapedRune, hpf]) (by rw [k5]; simp)
      by_cases k6 : s0.val = 0x09
      · exact letter 0x74 (by rw [k6] at hpf ⊢; simp [appendEscapedRune, hpf]) (by rw [k6]; simp)
      by_cases k7 : s0.val = 0x0B
      · exact letter 0x76 (by rw [k7] at hpf ⊢; simp [appendEscapedRune, hpf]) (by rw [k7]; simp)
      have he : appendEscapedRune tbl [] s0.val
          = [0x5C, 0x78, lowerhex (s0.val % 256 / 16), lowerhex (s0.val % 256 % 16)] := by
        simp [appendEscapedRune, hpf, hq1, hq2, k1, k2, k3, k4, k5, k6, k7, hlow]
      rw [he]
      refine ⟨fun T ubuf F => ?_, Or.inr ⟨_, rfl⟩⟩
      have hv := hexValue_two (s0.val % 256 / 16) (s0.val % 256 % 16) (by omega) (by omega)
      have hval : s0.val % 256 / 16 * 16 + s0.val % 256 % 16 = s0.val := by omega
      rw [hval] at hv
      exact unquoteLoop_escape F _ T ubuf [s0] s0.val false ⟨_, rfl⟩
        (UnquoteChar_x _ _ _ T hv) (hbuf ubuf false)

end strconv

namespace strconv

theorem quoteFirst_spec_wide (tbl : Nat → Bool) (s0 : Byte) (t : Bytes) (h : 0x80 ≤ s0.val) :
    ∃ e w, quoteFirst tbl (s0 :: t) = (e, w) ∧ 1 ≤ w ∧ w ≤ t.length + 1 ∧
      (∀ T ubuf F, unquoteLoop 0x22 (F + 1) (e ++ T) ubuf
        = unquoteLoop 0x22 F T (ubuf ++ (s0 :: t).take w)) ∧
      ((e = (s0 :: t).take w ∧ (0x22 : Byte) ∉ e ∧ (0x5C : Byte) ∉ e) ∨
        ∃ e1, e = 0x5C :: e1) := by
  have hbig : s0.val ≥ utf8.RuneSelf := by unfold utf8.RuneSelf; omega
  have hq : quoteFirst tbl (s0 :: t) =
      if (utf8.DecodeRune (s0 :: t)).2 = 1 ∧ (utf8.DecodeRune (s0 :: t)).1 = utf8.RuneError then
        ([0x5C, 0x78, lowerhex (s0.val / 16), lowerhex (s0.val % 16)],
          (utf8.DecodeRune (s0 :: t)).2)
      else (appendEscapedRune tbl [] (utf8.DecodeRune (s0 :: t)).1,
        (utf8.DecodeRune (s0 :: t)).2) := by
    simp only [quoteFirst, hbig, if_true]
  by_cases hw : 1 < (utf8.DecodeRune (s0 :: t)).2
  · obtain ⟨henc, hr1, hr2, hvalid, hstable⟩ := DecodeRune_encode (s0 :: t) hw
    obtain ⟨hwl, hbytes⟩ := DecodeRune_wide (s0 :: t) hw
    have hne : ¬ ((utf8.DecodeRune (s0 :: t)).2 = 1 ∧
        (utf8.DecodeRune (s0 :: t)).1 = utf8.RuneError) := by omega
    rw [if_neg hne] at hq
    refine ⟨_, _, hq, by omega, by simpa using hwl, ?_⟩
    generalize hr : (utf8.DecodeRune (s0 :: t)).1 = r at *
    generalize hwd : (utf8.DecodeRune (s0 :: t)).2 = w at *
    have hbuf : ∀ ubuf : Bytes,
        (if r < utf8.RuneSelf ∨ true = false then ubuf ++ [Fin.ofNat r]
          else utf8.AppendRune ubuf r) = ubuf ++ (s0 :: t).take w := by
      intro ubuf
      have : ¬ (r < utf8.RuneSelf ∨ true = false) := by
        unfold utf8.RuneSelf; simp; omega
      rw [if_neg this, AppendRune_append, henc]
    have hq1 : ¬ (r = 0x22 ∨ r = 0x5C) := by omega
    by_cases hp : IsPrint tbl r = true
    · have he : appendEscapedRune tbl [] r = (s0 :: t).take w := by
        simp only [appendEscapedRune, hq1, if_false, hp, if_true]
        exact henc
      rw [he]
      refine ⟨fun T ubuf F => ?_, Or.inl ⟨rfl, ?_, ?_⟩⟩
      · obtain ⟨w1, rfl⟩ : ∃ w1, w = w1 + 1 := ⟨w - 1, by omega⟩
        rw [List.take_succ_cons, List.cons_append]
        have hs0 : s0 ≠ 0x22 := by
          intro hc; rw [hc] at h; exact absurd h (by decide)
        have hs1 : s0 ≠ 0x0A := by
          intro hc; rw [hc] at h; exact absurd h (by decide)
        have hst := hstable T
        rw [List.take_succ_cons, List.cons_append] at hst
        have hu := UnquoteChar_wide s0 (t.take w1 ++ T) h
        rw [hst, hr, hwd] at hu
        have hdrop : (s0 :: (t.take w1 ++ T)).drop (w1 + 1) = T := by
          rw [List.drop_succ_cons]
          have hl : (t.take w1).length = w1 := by
            rw [List.length_take]
            simp at hwl
            omega
          have := List.drop_left (t.take w1) T
          rw [hl] at this
          exact this
        rw [hdrop] at hu
        rw [unquoteLoop_step F s0 _ ubuf r true T hs0 hs1 hu, hbuf ubuf, List.take_succ_cons]
      · intro hm
        have := hbytes _ hm
        exact absurd this (by decide)
      · intro hm
        have := hbytes _ hm
        exact absurd this (by decide)
    · have hpf : IsPrint tbl r = false := by
        cases hh : IsPrint tbl r
        · rfl
        · exact absurd hh hp
      have hnl : ¬ (r < 0x20 ∨ r = 0x7F) := by omega
      have k : ∀ v : Nat, v < 0x80 → ¬ r = v := fun v hv hc => by omega
      by_cases hsmall : r < 0x10000
      · have he : appendEscapedRune tbl [] r = [0x5C, 0x75] ++ hexDigits r 4 := by
          simp [appendEscapedRune, hq1, hpf, k, hnl, hvalid, hsmall]
          omega
        rw [he]
        refine ⟨fun T ubuf F => ?_, Or.inr ⟨_, rfl⟩⟩
        have hv : hexValue 0 (hexDigits r 4) = some r := by
          rw [hexValue_digits]
          congr 1
          rw [Nat.mod_eq_of_lt (by norm_num; omega)]
          simp
        apply unquoteLoop_escape F _ T ubuf _ r true ⟨_, rfl⟩ _ (hbuf ubuf)
        have := UnquoteChar_u (hexDigits r 4) r T (hexDigits_length r 4) hv hvalid
        simpa using this
      · have he : appendEscapedRune tbl [] r = [0x5C, 0x55] ++ hexDigits r 8 := by
          simp [appendEscapedRune, hq1, hpf, k, hnl, hvalid, hsmall]
          omega
        rw [he]
        refine ⟨fun T ubuf F => ?_, Or.inr ⟨_, rfl⟩⟩
        have hv : hexValue 0 (hexDigits r 8) = some r := by
          rw [hexValue_digits]
          congr 1
          rw [Nat.mod_eq_of_lt (by norm_num; omega)]
          simp
        apply unquoteLoop_escape F _ T ubuf _ r true ⟨_, rfl⟩ _ (hbuf ubuf)
        have := UnquoteChar_U (hexDigits r 8) r T (hexDigits_length r 8) hv hvalid
        simpa using this
  · have hw1 : (utf8.DecodeRune (s0 :: t)).2 = 1 := by
      have := DecodeRune_size_pos (s0 :: t) (by simp)
      omega
    have hre : (utf8.DecodeRune (s0 :: t)).1 = utf8.RuneError := by
      rcases DecodeRune_cases (s0 :: t) with ⟨hh, _⟩ | ⟨p0, _, hh, hlt, _⟩ | ⟨_, _, _, _, e⟩ |
        ⟨_, _, _, _, _, _, e⟩ | ⟨_, _, _, _, _, _, _, _, _, _, e⟩ |
        ⟨_, _, _, _, _, _, _, _, _, _, _, _, e⟩
      · cases hh
      · simp only [List.cons.injEq] at hh
        rw [← hh.1] at hlt
        omega
      · rw [e]
      · rw [e] at hw1; simp at hw1
      · rw [e] at hw1; simp at hw1
      · rw [e] at hw1; simp at hw1
    rw [if_pos ⟨hw1, hre⟩, hw1] at hq
    refine ⟨_, 1, hq, le_refl _, by omega, fun T ubuf F => ?_, Or.inr ⟨_, rfl⟩⟩
    have hv := hexValue_two (s0.val / 16) (s0.val % 16) (by omega) (by omega)
    have hval : s0.val / 16 * 16 + s0.val % 16 = s0.val := by omega
    rw [hval] at hv
    refine unquoteLoop_escape F _ T ubuf _ s0.val false ⟨_, rfl⟩
      (UnquoteChar_x _ _ _ T hv) ?_
    simp [ofNat_val]

end strconv

namespace strconv

theorem appendEscapedRune_append (tbl : Nat → Bool) (buf : Bytes) (r : Nat) :
    appendEscapedRune tbl buf r = buf ++ appendEscapedRune tbl [] r := by
  unfold appendEscapedRune
  by_cases h1 : r = 0x22 ∨ r = 0x5C
  · rw [if_pos h1, if_pos h1]; rfl
  rw [if_neg h1, if_neg h1]
  by_cases h2 : IsPrint tbl r = true
  · rw [if_pos h2, if_pos h2]; exact AppendRune_append buf r
  rw [if_neg h2, if_neg h2]
  by_cases k1 : r = 0x07
  · rw [if_pos k1, if_pos k1]; rfl
  rw [if_neg k1, if_neg k1]
  by_cases k2 : r = 0x08
  · rw [if_pos k2, if_pos k2]; rfl
  rw [if_neg k2, if_neg k2]
  by_cases k3 : r = 0x0C
  · rw [if_pos k3, if_pos k3]; rfl
  rw [if_neg k3, if_neg k3]
  by_cases k4 : r = 0x0A
  · rw [if_pos k4, if_pos k4]; rfl
  rw [if_neg k4, if_neg k4]
  by_cases k5 : r = 0x0D
  · rw [if_pos k5, if_pos k5]; rfl
  rw [if_neg k5, if_neg k5]
  by_cases k6 : r = 0x09
  · rw [if_pos k6, if_pos k6]; rfl
  rw [if_neg k6, if_neg k6]
  by_cases k7 : r = 0x0B
  · rw [if_pos k7, if_pos k7]; rfl
  rw [if_neg k7, if_neg k7]
  by_cases k8 : r < 0x20 ∨ r = 0x7F
  · rw [if_pos k8, if_pos k8]; rfl
  rw [if_neg k8, if_neg k8]
  dsimp only
  by_cases k9 : ¬ utf8.ValidRune r = true ∨ (if utf8.ValidRune r = true then r else 0xFFFD) < 0x10000
  · rw [if_pos k9, if_pos k9]; simp only [List.nil_append, List.append_assoc]
  · rw [if_neg k9, if_neg k9]; simp only [List.nil_append, List.append_assoc]

theorem quoteLoop_cons (tbl : Nat → Bool) (fuel : Nat) (s0 : Byte) (t buf : Bytes) :
    quoteLoop tbl (fuel + 1) (s0 :: t) buf
      = quoteLoop tbl fuel ((s0 :: t).drop (quoteFirst tbl (s0 :: t)).2)
          (buf ++ (quoteFirst tbl (s0 :: t)).1) := by
  rw [quoteLoop]
  unfold quoteFirst
  dsimp only
  split_ifs <;> first | rfl | rw [appendEscapedRune_append]

theorem quoteFirst_spec (tbl : Nat → Bool) (s0 : Byte) (t : Bytes) :
    ∃ e w, quoteFirst tbl (s0 :: t) = (e, w) ∧ 1 ≤ w ∧ w ≤ t.length + 1 ∧
      (∀ T ubuf F, unquoteLoop 0x22 (F + 1) (e ++ T) ubuf
        = unquoteLoop 0x22 F T (ubuf ++ (s0 :: t).take w)) ∧
      ((e = (s0 :: t).take w ∧ (0x22 : Byte) ∉ e ∧ (0x5C : Byte) ∉ e) ∨
        ∃ e1, e = 0x5C :: e1) := by
  by_cases h : s0.val < 0x80
  · obtain ⟨e, h1, h2, h3⟩ := quoteFirst_spec_ascii tbl s0 t h
    exact ⟨e, 1, h1, le_refl _, by omega, by simpa using h2, by simpa using h3⟩
  · exact quoteFirst_spec_wide tbl s0 t (by omega)

theorem IndexByte_append_not_mem (e X : Bytes) (q : Byte) (h : q ∉ e) :
    IndexByte (e ++ X) q = (IndexByte X q).map (· + e.length) := by
  induction e with
  | nil => simp
  | cons b rest ih =>
    simp only [List.mem_cons, not_or] at h
    have hb : ¬ b = q := fun hc => h.1 hc.symm
    rw [List.cons_append, IndexByte, if_neg hb, ih h.2]
    cases IndexByte X q <;> simp
    omega

/-- The text written by the loop of `Quote`, read back by the loop of
`unquote`, and what it is when no backslash comes before its first quote. -/
theorem quoteLoop_spec (tbl : Nat → Bool) :
    ∀ (fuel : Nat) (s buf : Bytes), s.length ≤ fuel →
      ∃ body, quoteLoop tbl fuel s buf = buf ++ body ∧
        (∀ (F : Nat) (T ubuf : Bytes), body.length ≤ F →
          unquoteLoop 0x22 F (body ++ 0x22 :: T) ubuf = some (ubuf ++ s, 0x22 :: T)) ∧
        (∀ i, IndexByte (body ++ [0x22]) 0x22 = some i →
          (0x5C : Byte) ∉ (body ++ [0x22]).take (i + 1) → body = s ∧ i = s.length) := by
  have base : ∀ buf : Bytes, ∃ body : Bytes, buf = buf ++ body ∧
      (∀ (F : Nat) (T ubuf : Bytes), body.length ≤ F →
        unquoteLoop 0x22 F (body ++ 0x22 :: T) ubuf = some (ubuf ++ [], 0x22 :: T)) ∧
      (∀ i, IndexByte (body ++ [0x22]) 0x22 = some i →
        (0x5C : Byte) ∉ (body ++ [0x22]).take (i + 1) → body = [] ∧ i = ([] : Bytes).length) := by
    intro buf
    refine ⟨[], by simp, ?_, ?_⟩
    · intro F T ubuf _
      cases F <;> simp [unquoteLoop]
    · intro i hi _
      simp [IndexByte] at hi
      exact ⟨rfl, by simp [hi]⟩
  intro fuel
  induction fuel with
  | zero =>
    intro s buf hs
    have : s = [] := List.length_eq_zero.1 (by omega)
    subst this
    simpa [quoteLoop] using base buf
  | succ fuel ih =>
    intro s buf hs
    match s with
    | [] => simpa [quoteLoop] using base buf
    | s0 :: t =>
      obtain ⟨e, w, hq, hw1, hw2, hstep, hshape⟩ := quoteFirst_spec tbl s0 t
      obtain ⟨body1, hb1, hb2, hb3⟩ := ih ((s0 :: t).drop w) (buf ++ e)
        (by simp at hs ⊢; omega)
      have hene : e ≠ [] := by
        rcases hshape with ⟨he, _, _⟩ | ⟨e1, he⟩
        · rw [he]
          obtain ⟨w1, rfl⟩ : ∃ w1, w = w1 + 1 := ⟨w - 1, by omega⟩
          simp
        · rw [he]; simp
      refine ⟨e ++ body1, ?_, ?_, ?_⟩
      · rw [quoteLoop_cons, hq]
        simp only
        rw [hb1, List.append_assoc]
      · intro F T ubuf hF
        have hel : 0 < e.length := List.length_pos.2 hene
        obtain ⟨F1, rfl⟩ : ∃ F1, F = F1 + 1 := ⟨F - 1, by simp at hF; omega⟩
        rw [List.append_assoc, hstep, hb2 F1 T _ (by simp at hF; omega), List.append_assoc,
          List.take_append_drop]
      · intro i hi hno
        rcases hshape with ⟨he, hq1, hq2⟩ | ⟨e1, he⟩
        · rw [List.append_assoc, IndexByte_append_not_mem e _ _ hq1] at hi
          cases hi1 : IndexByte (body1 ++ [0x22]) 0x22 with
          | none => rw [hi1] at hi; simp at hi
          | some i1 =>
            rw [hi1] at hi
            simp only [Option.map_some', Option.some.injEq] at hi
            subst hi
            have htake : (e ++ (body1 ++ [0x22])).take (i1 + e.length + 1)
                = e ++ (body1 ++ [0x22]).take (i1 + 1) := by
              rw [List.take_append_eq_append_take]
              rw [List.take_of_length_le (by omega)]
              congr 2
              omega
            rw [List.append_assoc, htake] at hno
            have hno1 : (0x5C : Byte) ∉ (body1 ++ [0x22]).take (i1 + 1) :=
              fun hm => hno (List.mem_append_right _ hm)
            obtain ⟨hbody, hlen⟩ := hb3 i1 hi1 hno1
            constructor
            · rw [hbody, he, List.take_append_drop]
            · rw [hlen]
              have : e.length = w := by
                rw [he, List.length_take]
                simp
                omega
              rw [this]
              simp
              omega
        · exfalso
          apply hno
          rw [he]
          simp
end strconv

namespace strconv

theorem IndexByte_append_self_some (body : Bytes) (q : Byte) :
    ∃ i, IndexByte (body ++ [q]) q = some i ∧ i ≤ body.length := by
  induction body with
  | nil => exact ⟨0, by simp [IndexByte], le_refl _⟩
  | cons b rest ih =>
    obtain ⟨i, hi, hle⟩ := ih
    by_cases hb : b = q
    · exact ⟨0, by simp [IndexByte, hb], Nat.zero_le _⟩
    · exact ⟨i + 1, by simp [IndexByte, hb, hi], by simp; omega⟩

/-- What `unquote` does on an input that starts with a double quote and has
its next double quote at index `i` of the rest. -/
theorem unquote_double (in1 : Bytes) (i : Nat) (hi : IndexByte in1 0x22 = some i) :
    unquote (0x22 :: in1) =
      if ((0x5C : Byte) ∉ in1.take (i + 1) ∧ (0x0A : Byte) ∉ in1.take (i + 1)) ∧
          utf8.ValidString (in1.take i) = true then
        some (in1.take i, in1.drop (i + 1))
      else
        match unquoteLoop 0x22 in1.length in1 [] with
        | none => none
        | some (buf, rest) =>
          match rest with
          | [] => none
          | c :: rest1 => if c ≠ 0x22 then none else some (buf, rest1) := by
  have hlen : ¬ (0x22 :: in1).length < 2 := by
    cases in1 with
    | nil => simp [IndexByte] at hi
    | cons b r => simp
  have hq : ¬ ((0x22 : Byte) = 0x60) := by decide
  have h5 : ¬ ((0x5C : Byte) = 0x22) := by decide
  have hA : ¬ ((0x0A : Byte) = 0x22) := by decide
  unfold unquote
  simp only [hlen, if_false, hi, hq, true_or, if_true, Nat.add_sub_cancel,
    List.take_succ_cons, List.drop_succ_cons, List.drop_zero, List.mem_cons, h5, hA, false_or,
    show i + 2 - 1 = i + 1 from rfl, show i + 2 = (i + 1) + 1 from rfl]
  by_cases hc : (0x5C : Byte) ∉ in1.take (i + 1) ∧ (0x0A : Byte) ∉ in1.take (i + 1)
  · by_cases hv : utf8.ValidString (in1.take i) = true
    · simp [hc, hv]
    · simp [hc, hv]
  · simp [hc]

end strconv

/-- The round trip of `Quote` and `Unquote`: decoding the quoted form of a
string as a Go string literal gives the string. -/
theorem Unquote_Quote (tbl : Nat → Bool) (s : Bytes) :
    strconv.Unquote (strconv.Quote tbl s) = some s := by
  obtain ⟨body, hb1, hb2, hb3⟩ := strconv.quoteLoop_spec tbl s.length s [0x22] (le_refl _)
  have hQ : strconv.Quote tbl s = 0x22 :: (body ++ [0x22]) := by
    unfold strconv.Quote
    rw [hb1]
    simp
  obtain ⟨i, hi, hile⟩ := strconv.IndexByte_append_self_some body 0x22
  rw [hQ]
  unfold strconv.Unquote
  rw [strconv.unquote_double _ i hi]
  by_cases hc : ((0x5C : Byte) ∉ (body ++ [0x22]).take (i + 1) ∧
      (0x0A : Byte) ∉ (body ++ [0x22]).take (i + 1)) ∧
      utf8.ValidString ((body ++ [0x22]).take i) = true
  · rw [if_pos hc]
    obtain ⟨hbody, hlen⟩ := hb3 i hi hc.1.1
    subst hbody
    subst hlen
    simp
  · rw [if_neg hc]
    have := hb2 (body ++ [0x22]).length [] [] (by simp)
    rw [this]
    simp

/-- C13: when the string without its newlines cannot be backquoted (it holds a
backquote, a control character that `CanBackquote` rejects, U+FEFF or an
invalid encoding), `format` at every indent, and the `format` of snapsource, is
`strconv.Quote` of the string, and decoding that token with `strconv.Unquote`
as a Go string literal gives the string back. -/
theorem format_quoted_roundtrip (isPrintTable : Nat → Bool) (s : Bytes) (indent : Int)
    (h : strconv.CanBackquote (strings.ReplaceAll s 0x0A []) = false) :
    snap.format (strconv.Quote isPrintTable) s indent = strconv.Quote isPrintTable s ∧
    snapsource.format (strconv.Quote isPrintTable) s = strconv.Quote isPrintTable s ∧
    strconv.Unquote (snap.format (strconv.Quote isPrintTable) s indent) = some s ∧
    strconv.Unquote (snapsource.format (strconv.Quote isPrintTable) s) = some s := by
  have hf : snap.format (strconv.Quote isPrintTable) s indent = strconv.Quote isPrintTable s := by
    simp [snap.format, h]
  have hg : snapsource.format (strconv.Quote isPrintTable) s = strconv.Quote isPrintTable s := by
    simp [snapsource.format, h]
  refine ⟨hf, hg, ?_, ?_⟩
  · rw [hf]; exact Unquote_Quote isPrintTable s
  · rw [hg]; exact Unquote_Quote isPrintTable s

/-- C13 at a string of two lines with a backquote and a control character, at
indent 1. -/
theorem format_quoted_roundtrip_witness :
    snap.format (strconv.Quote (fun _ => false)) (ascii "a\x60\n\x01") 1
      = ascii "\"a\x60\\n\\x01\"" ∧
    strconv.Unquote (ascii "\"a\x60\\n\\x01\"") = some (ascii "a\x60\n\x01") := by
  have h := format_quoted_roundtrip (fun _ => false) (ascii "a\x60\n\x01") 1 (by decide)
  have e : strconv.Quote (fun _ => false) (ascii "a\x60\n\x01") = ascii "\"a\x60\\n\\x01\"" := by
    decide
  exact ⟨h.1.trans e, by rw [← e, ← h.1]; exact h.2.2.1⟩
